import Mathlib

/-!
# redsea: the RDS group decoder (`src/groups.cc`, `src/rdsstring.cc`)

A shallow embedding of the station decoder.  Machine integers are `Nat`/`Int`;
`double` arithmetic is carried out in `ℚ` (constants read as exact decimals) and
`int(x)` is truncation toward zero.  What `printf` writes inside one call of
`Station::update` is collected as a list of key/value entries.

What `groups.h` and `data.h` declare and the two source files only use (the lookup
tables, the `TYPE_A`/`TYPE_B` constants, the container behind `oda_app_for_group_`) is a
parameter or is modelled from the specification.
-/

namespace Redsea

/-! ## Bit fields and formatting -/

/-- The helper `bits(bitstring, starting_at, len)`: `len` bits of `bitstring`
starting `starting_at` bits from the right, converted to `uint16_t`. -/
def bits (bitstring starting_at len : Nat) : Nat :=
  ((bitstring >>> starting_at) &&& ((1 <<< len) - 1)) % 65536

/-- Conversion `int(x)` of a `double`: truncation toward zero. -/
def cInt (q : ℚ) : Int := if 0 ≤ q then ⌊q⌋ else ⌈q⌉

/-- The conversion `%0<width>x` of `printf`: lower-case hexadecimal, zero padded. -/
def hexPad (width n : Nat) : String :=
  let ds := Nat.toDigits 16 n
  String.mk (List.replicate (width - ds.length) '0' ++ ds)

/-- The conversion `%0<width>d` of `printf`: decimal, zero padded, the sign counted
in the width. -/
def decPad (width : Nat) (x : Int) : String :=
  let ds := Nat.toDigits 10 x.natAbs
  if x < 0 then String.mk ('-' :: (List.replicate (width - 1 - ds.length) '0' ++ ds))
  else String.mk (List.replicate (width - ds.length) '0' ++ ds)

/-- The conversion `%+0<width>d` of `printf`: as `decPad`, the sign always written. -/
def decPadPlus (width : Nat) (x : Int) : String :=
  let ds := Nat.toDigits 10 x.natAbs
  String.mk ((if x < 0 then '-' else '+') :: (List.replicate (width - 1 - ds.length) '0' ++ ds))

/-! ## Group types -/

/-- Modelled from the spec: the constant `TYPE_A` of `groups.h` (version bit 0). -/
def TYPE_A : Nat := 0

/-- Modelled from the spec: the constant `TYPE_B` of `groups.h` (version bit 1). -/
def TYPE_B : Nat := 1

/-- The class `GroupType`: type number and version bit. -/
structure GroupType where
  num : Nat
  ab : Nat
deriving DecidableEq, Repr

/-- The constructor `GroupType::GroupType(uint16_t type_code)`. -/
def GroupType.ofCode (type_code : Nat) : GroupType :=
  { num := (type_code >>> 1) &&& 0xF, ab := type_code &&& 0x1 }

/-- The method `GroupType::toString`. -/
def GroupType.toString (t : GroupType) : String :=
  Nat.repr t.num ++ (if t.ab = TYPE_A then "A" else "B")

/-- The function `operator==` on `GroupType`. -/
def GroupType.operatorEq (obj1 obj2 : GroupType) : Bool :=
  decide (obj1.num = obj2.num) && decide (obj1.ab = obj2.ab)

/-- The function `operator<` on `GroupType`. -/
def GroupType.operatorLt (obj1 obj2 : GroupType) : Bool :=
  decide (obj1.num < obj2.num) || decide (obj1.ab < obj2.ab)

/-! ## External tables and containers -/

/-- The lookup functions declared in `data.h`; their tables are not part of the
decoder and stay parameters. -/
structure Tables where
  getLCDchar : Int → String
  getPTYname : Nat → String
  getCountryString : Nat → Nat → String
  getLanguageString : Nat → String
  getAppName : Nat → String

/-- The container behind `oda_app_for_group_`, a `std::map<GroupType, uint16_t>`
ordered by `operator<`.  The library guarantees its behaviour only for a strict weak
ordering, so the container stays abstract: `find k` is `some v` when
`find(k) != end()` and the entry holds `v`; `assign m k v` is `m[k] = v`. -/
structure OdaMap (M : Type) where
  empty : M
  find : M → GroupType → Option Nat
  assign : M → GroupType → Nat → M

/-- Insertion into a `std::set<double>`, kept as its ascending duplicate-free
sequence of elements. -/
def setInsert (x : ℚ) : List ℚ → List ℚ
  | [] => [x]
  | y :: ys => if x < y then x :: y :: ys else if y < x then y :: setInsert x ys else y :: ys

/-! ## RDSString -/

/-- The class `RDSString`. -/
structure RDSString where
  chars_ : List Int
  is_char_sequential_ : List Bool
  prev_pos_ : Int
  last_complete_string_ : String

namespace RDSString

/-- The loop of `lengthReceived` over the flags from index `i` on. -/
def lengthReceivedFrom : List Bool → Nat → Nat
  | [], i => i
  | b :: rest, i => if !b then i else lengthReceivedFrom rest (i + 1)

/-- The method `RDSString::lengthReceived`. -/
def lengthReceived (s : RDSString) : Nat := lengthReceivedFrom s.is_char_sequential_ 0

/-- The loop of `lengthExpected` over the characters from index `i` on; at the end of
the vector `i` is its size. -/
def lengthExpectedFrom : List Int → Nat → Nat
  | [], i => i
  | c :: rest, i => if c = 0x0D then i else lengthExpectedFrom rest (i + 1)

/-- The method `RDSString::lengthExpected`. -/
def lengthExpected (s : RDSString) : Nat := lengthExpectedFrom s.chars_ 0

/-- The pieces that `getString` appends to its result, one per position. -/
def getStringCells (T : Tables) (s : RDSString) : List String :=
  (List.range s.lengthExpected).map fun i =>
    if s.is_char_sequential_.getD i false then T.getLCDchar (s.chars_.getD i 0) else " "

/-- The method `RDSString::getString`. -/
def getString (T : Tables) (s : RDSString) : String := String.join (getStringCells T s)

/-- The method `RDSString::getLastCompleteString`. -/
def getLastCompleteString (s : RDSString) : String := s.last_complete_string_

/-- The method `RDSString::isComplete`. -/
def isComplete (s : RDSString) : Bool := decide (s.lengthReceived ≥ s.lengthExpected)

/-- The constructor `RDSString::RDSString(int len)`. -/
def new (T : Tables) (len : Nat) : RDSString :=
  let s : RDSString :=
    { chars_ := List.replicate len 0, is_char_sequential_ := List.replicate len false,
      prev_pos_ := -1, last_complete_string_ := "" }
  { s with last_complete_string_ := s.getString T }

/-- The method `RDSString::setAt`. -/
def setAt (T : Tables) (s : RDSString) (pos chr : Int) : RDSString :=
  if pos < 0 ∨ pos ≥ (s.chars_.length : Int) then s
  else
    let s1 := { s with chars_ := s.chars_.set pos.toNat chr }
    let s2 :=
      if pos ≠ s1.prev_pos_ + 1 then
        { s1 with is_char_sequential_ := List.replicate s1.is_char_sequential_.length false }
      else s1
    let s3 := { s2 with is_char_sequential_ := s2.is_char_sequential_.set pos.toNat true }
    let s4 := if s3.isComplete then { s3 with last_complete_string_ := s3.getString T } else s3
    { s4 with prev_pos_ := pos }

/-- The method `RDSString::clear`. -/
def clear (T : Tables) (s : RDSString) : RDSString :=
  let n := s.chars_.length
  let s1 :=
    { s with is_char_sequential_ :=
        List.replicate (min n s.is_char_sequential_.length) false ++ s.is_char_sequential_.drop n }
  { s1 with last_complete_string_ := s1.getString T }

/-- The loop `for (i = pos; i < pos + chars.size(); i++) setAt(i, chars[i-pos])` shared by
`updatePS` and `updateRadioText`. -/
def setChars (T : Tables) (s : RDSString) (pos : Int) : List Int → RDSString
  | [] => s
  | c :: cs => setChars T (s.setAt T pos c) (pos + 1) cs

end RDSString

/-! ## Groups, records and the station -/

/-- The struct `Group`: four information blocks, the number of blocks received and the
group type. -/
structure Group where
  block1 : Nat
  block2 : Nat
  block3 : Nat
  block4 : Nat
  num_blocks : Nat
  type : GroupType

/-- A value written after a key of the record printed by `update`. -/
inductive Value where
  | text (s : String)
  | flag (b : Bool)
  | freqs (fs : List ℚ)
  | oda (group app_name message : String)
  | marker
deriving DecidableEq

/-- The record printed by one call of `update`: the keys in the order written. -/
abbrev Record := List (String × Value)

/-- The values a record holds for the key `k`, in the order written. -/
def Record.valuesOf (r : Record) (k : String) : List Value :=
  (r.filter fun e => e.1 == k).map Prod.snd

/-- The class `Station`; `M` is the container type of `oda_app_for_group_`. -/
structure Station (M : Type) where
  pi_ : Nat
  ps_ : RDSString
  rt_ : RDSString
  rt_ab_ : Nat
  is_tp_ : Bool
  is_ta_ : Bool
  is_music_ : Bool
  pty_ : Nat
  alt_freqs_ : List ℚ
  num_alt_freqs_ : Int
  pin_ : Nat
  ecc_ : Nat
  cc_ : Nat
  tmc_id_ : Nat
  ews_channel_ : Nat
  lang_ : Nat
  linkage_la_ : Nat
  clock_time_ : String
  has_country_ : Bool
  oda_app_for_group_ : M
  pager_pac_ : Nat
  pager_opc_ : Nat
  pager_tng_ : Nat
  pager_ecc_ : Nat
  pager_ccf_ : Nat
  pager_interval_ : Nat

namespace Station

variable {M : Type}

/-- The constructor `Station::Station(uint16_t _pi)`.  It initialises `pi_`, `ps_` and
`rt_`; the containers start empty and the scalar members, which the constructor leaves
alone, are given the value zero here. -/
def new (T : Tables) (O : OdaMap M) (_pi : Nat) : Station M :=
  { pi_ := _pi, ps_ := RDSString.new T 8, rt_ := RDSString.new T 64, rt_ab_ := 0,
    is_tp_ := false, is_ta_ := false, is_music_ := false, pty_ := 0, alt_freqs_ := [],
    num_alt_freqs_ := 0, pin_ := 0, ecc_ := 0, cc_ := 0, tmc_id_ := 0, ews_channel_ := 0,
    lang_ := 0, linkage_la_ := 0, clock_time_ := "", has_country_ := false,
    oda_app_for_group_ := O.empty, pager_pac_ := 0, pager_opc_ := 0, pager_tng_ := 0,
    pager_ecc_ := 0, pager_ccf_ := 0, pager_interval_ := 0 }

/-- The method `Station::addAltFreq(uint8_t af_code)`. -/
def addAltFreq (st : Station M) (code : Nat) : Station M :=
  let af_code := code % 256
  if 1 ≤ af_code ∧ af_code ≤ 204 then
    { st with alt_freqs_ := setInsert (87.5 + (af_code : ℚ) / 10.0) st.alt_freqs_ }
  else if af_code = 205 then st
  else if af_code = 224 then st
  else if 225 ≤ af_code ∧ af_code ≤ 249 then
    { st with num_alt_freqs_ := (af_code : Int) - 224 }
  else if af_code = 250 then st
  else st

/-- The method `Station::hasPS`. -/
def hasPS (st : Station M) : Bool := st.ps_.isComplete

/-- The method `Station::getPS`. -/
def getPS (st : Station M) : String := st.ps_.getLastCompleteString

/-- The method `Station::getRT`. -/
def getRT (st : Station M) : String := st.rt_.getLastCompleteString

/-- The method `Station::getPI`. -/
def getPI (st : Station M) : Nat := st.pi_

/-- The method `Station::updatePS`. -/
def updatePS (T : Tables) (st : Station M) (pos : Int) (chars : List Int) :
    Station M × Record :=
  let st1 := { st with ps_ := st.ps_.setChars T pos chars }
  if st1.ps_.isComplete then (st1, [("ps", Value.text st1.ps_.getLastCompleteString)])
  else (st1, [])

/-- The method `Station::updateRadioText`. -/
def updateRadioText (T : Tables) (st : Station M) (pos : Int) (chars : List Int) :
    Station M × Record :=
  let st1 := { st with rt_ := st.rt_.setChars T pos chars }
  if st1.rt_.isComplete then
    (st1, [("radiotext", Value.text st1.rt_.getLastCompleteString)])
  else (st1, [])

/-- The method `Station::decodeType0`. -/
def decodeType0 (T : Tables) (st : Station M) (group : Group) : Station M × Record :=
  let st1 :=
    { st with is_ta_ := decide (bits group.block2 4 1 ≠ 0),
              is_music_ := decide (bits group.block2 3 1 ≠ 0) }
  let out1 : Record := [("ta", Value.flag st1.is_ta_)]
  if group.num_blocks < 3 then (st1, out1)
  else
    let r1 : Station M × Record :=
      if group.type.ab = TYPE_A then
        let st2 := addAltFreq (addAltFreq st1 (bits group.block3 8 8)) (bits group.block3 0 8)
        if (st2.alt_freqs_.length : Int) = st2.num_alt_freqs_ then
          ({ st2 with alt_freqs_ := [] }, out1 ++ [("alt_freqs", Value.freqs st2.alt_freqs_)])
        else (st2, out1)
      else (st1, out1)
    if group.num_blocks < 4 then r1
    else
      let r2 := updatePS T r1.1 ((bits group.block2 0 2 : Int) * 2)
        [(bits group.block4 8 8 : Int), (bits group.block4 0 8 : Int)]
      (r2.1, r1.2 ++ r2.2)

/-- The branch "No PIN, section M.3.2.4.3" of `decodeType1`, which occurs twice there. -/
def pagerNoPin (st : Station M) (group : Group) : Station M :=
  if group.num_blocks = 4 ∧ group.block4 >>> 11 = 0 then
    let subtype := bits group.block4 10 1
    if subtype = 0 then
      if st.pager_tng_ ≠ 0 then
        { st with pager_pac_ := bits group.block4 4 6, pager_opc_ := bits group.block4 0 4 }
      else st
    else if subtype = 1 then
      if st.pager_tng_ ≠ 0 then
        let b := bits group.block4 8 2
        if b = 0 then { st with pager_ecc_ := bits group.block4 0 6 }
        else if b = 3 then { st with pager_ccf_ := bits group.block4 0 4 }
        else st
      else st
    else st
  else st

/-- The method `Station::decodeType1`. -/
def decodeType1 (T : Tables) (st : Station M) (group : Group) : Station M × Record :=
  if group.num_blocks < 4 then (st, [])
  else
    let st1 := { st with pin_ := group.block4 }
    if group.type.ab = TYPE_A then
      let st2 := { st1 with pager_tng_ := bits group.block2 2 3 }
      let st3 :=
        if st2.pager_tng_ ≠ 0 then { st2 with pager_interval_ := bits group.block2 0 2 }
        else st2
      let st4 := { st3 with linkage_la_ := bits group.block3 15 1 }
      let slc_variant := bits group.block3 12 3
      if slc_variant = 0 then
        let st5 :=
          if st4.pager_tng_ ≠ 0 then { st4 with pager_opc_ := bits group.block3 8 4 }
          else st4
        let st6 := pagerNoPin st5 group
        let st7 := { st6 with ecc_ := bits group.block3 0 8, cc_ := bits group.block1 12 4 }
        if st7.ecc_ ≠ 0x00 then
          ({ st7 with has_country_ := true },
            [("country", Value.text (T.getCountryString st7.pi_ st7.ecc_))])
        else (st7, [])
      else if slc_variant = 1 then
        let st5 := { st4 with tmc_id_ := bits group.block3 0 12 }
        (st5, [("tmc_id", Value.text ("0x" ++ hexPad 3 st5.tmc_id_))])
      else if slc_variant = 2 then
        let st5 :=
          if st4.pager_tng_ ≠ 0 then
            { st4 with pager_pac_ := bits group.block3 0 6, pager_opc_ := bits group.block3 8 4 }
          else st4
        (pagerNoPin st5 group, [])
      else if slc_variant = 3 then
        let st5 := { st4 with lang_ := bits group.block3 0 8 }
        (st5, [("language", Value.text (T.getLanguageString st5.lang_))])
      else if slc_variant = 6 then (st4, [])
      else if slc_variant = 7 then
        let st5 := { st4 with ews_channel_ := bits group.block3 0 12 }
        (st5, [("ews", Value.text ("0x" ++ hexPad 3 st5.ews_channel_))])
      else (st4, [])
    else (st1, [])

/-- The method `Station::decodeType2`. -/
def decodeType2 (T : Tables) (st : Station M) (group : Group) : Station M × Record :=
  if group.num_blocks < 3 then (st, [])
  else
    let rt_position : Int :=
      (bits group.block2 0 4 : Int) * (if group.type.ab = TYPE_A then 4 else 2)
    let prev_textAB := st.rt_ab_
    let st1 := { st with rt_ab_ := bits group.block2 4 1 }
    let st2 := if prev_textAB ≠ st1.rt_ab_ then { st1 with rt_ := st1.rt_.clear T } else st1
    let r1 : Station M × Record :=
      if group.type.ab = TYPE_A then
        updateRadioText T st2 rt_position
          [(bits group.block3 8 8 : Int), (bits group.block3 0 8 : Int)]
      else (st2, [])
    let r2 : Station M × Record :=
      if group.num_blocks = 4 then
        updateRadioText T r1.1 (rt_position + 2)
          [(bits group.block4 8 8 : Int), (bits group.block4 0 8 : Int)]
      else (r1.1, [])
    (r2.1, r1.2 ++ r2.2)

/-- The method `Station::decodeType3`. -/
def decodeType3 (T : Tables) (O : OdaMap M) (st : Station M) (group : Group) :
    Station M × Record :=
  if group.num_blocks < 4 then (st, [])
  else if group.type.ab ≠ TYPE_A then (st, [])
  else
    let oda_group := GroupType.ofCode (bits group.block2 0 5)
    let oda_aid := group.block4
    ({ st with oda_app_for_group_ := O.assign st.oda_app_for_group_ oda_group oda_aid },
      [("open_data_app",
        Value.oda oda_group.toString (T.getAppName oda_aid) ("0x" ++ hexPad 2 group.block3))])

/-- The calendar conversion of `decodeType4` (the lines from `int yr = ...` to
`mo -= 1`): year, month and day of a Modified Julian Date. -/
def calendarDate (mjd : Int) : Int × Int × Int :=
  let yr : Int := cInt (((mjd : ℚ) - 15078.2) / 365.25)
  let mo : Int := cInt (((mjd : ℚ) - 14956.1 - (cInt ((yr : ℚ) * 365.25) : ℚ)) / 30.6001)
  let dy : Int := mjd - 14956 - cInt ((yr : ℚ) * 365.25) - cInt ((mo : ℚ) * 30.6001)
  let yr1 : Int := if mo = 14 ∨ mo = 15 then yr + 1 else yr
  let mo1 : Int := if mo = 14 ∨ mo = 15 then mo - 12 else mo
  (yr1 + 1900, mo1 - 1, dy)

/-- The method `Station::decodeType4`. -/
def decodeType4 (st : Station M) (group : Group) : Station M × Record :=
  if group.num_blocks < 3 ∨ group.type.ab = TYPE_B then (st, [])
  else
    let mjd0 : Int := ((bits group.block2 0 2 <<< 15 : Nat) : Int) + (bits group.block3 1 15 : Int)
    if group.num_blocks = 4 then
      let lto : ℚ :=
        (((if bits group.block4 5 1 ≠ 0 then -1 else 1) * (bits group.block4 0 5 : Int) : Int) : ℚ)
          / 2.0
      let mjd : Int := cInt ((mjd0 : ℚ) + lto / 24.0)
      let d := calendarDate mjd
      let ltom : Int := cInt ((lto - (cInt lto : ℚ)) * 60)
      let hr : Int :=
        Int.tmod
          (cInt ((((bits group.block3 0 1 <<< 4) + bits group.block4 12 14 : Nat) : ℚ) + lto)) 24
      let mn : Int := (bits group.block4 6 6 : Int) + ltom
      let buff : String :=
        decPad 4 d.1 ++ "-" ++ decPad 2 d.2.1 ++ "-" ++ decPad 2 d.2.2 ++ "T" ++ decPad 2 hr
          ++ ":" ++ decPad 2 mn ++ ":00" ++ decPadPlus 3 (cInt lto) ++ ":" ++ decPad 2 ltom
      ({ st with clock_time_ := buff }, [("clock_time", Value.text buff)])
    else (st, [])

/-- The method `Station::decodeType8`. -/
def decodeType8 (O : OdaMap M) (st : Station M) (group : Group) : Station M × Record :=
  match O.find st.oda_app_for_group_ group.type with
  | none => (st, [])
  | some aid =>
    if aid = 0xCD46 ∨ aid = 0xCD47 then
      (st, [("tmc_message",
        Value.text ("0x" ++ hexPad 2 (bits group.block2 0 5) ++ hexPad 4 group.block3
          ++ hexPad 4 group.block4))])
    else (st, [])

/-- The method `Station::decodeType14`. -/
def decodeType14 (st : Station M) (_group : Group) : Station M × Record := (st, [])

/-- The method `Station::update`: the station after the group and the record printed. -/
def update (T : Tables) (O : OdaMap M) (st : Station M) (group : Group) :
    Station M × Record :=
  let st1 :=
    { st with is_tp_ := decide (bits group.block2 10 1 ≠ 0), pty_ := bits group.block2 5 5 }
  let out : Record :=
    [("pi", Value.text ("0x" ++ hexPad 4 st1.pi_)), ("group", Value.text group.type.toString),
     ("tp", Value.flag st1.is_tp_), ("prog_type", Value.text (T.getPTYname st1.pty_))]
  let r : Station M × Record :=
    if group.type.num = 0 then decodeType0 T st1 group
    else if group.type.num = 1 then decodeType1 T st1 group
    else if group.type.num = 2 then decodeType2 T st1 group
    else if group.type.num = 3 then decodeType3 T O st1 group
    else if group.type.num = 4 then decodeType4 st1 group
    else if group.type.num = 8 then decodeType8 O st1 group
    else if group.type.num = 14 then decodeType14 st1 group
    else (st1, [("/* TODO */", Value.marker)])
  (r.1, out ++ r.2)

/-- The stations and records of a sequence of groups handed to `update` one after the
other: the final station and the records in the order printed. -/
def updateAll (T : Tables) (O : OdaMap M) : Station M → List Group → Station M × List Record
  | st, [] => (st, [])
  | st, g :: gs =>
    let r := update T O st g
    let rest := updateAll T O r.1 gs
    (rest.1, r.2 :: rest.2)

end Station

/-- A container for `oda_app_for_group_` that behaves as `std::map` does under a strict
weak ordering: one entry per key, found again by the key it was stored under. -/
def listOdaMap : OdaMap (List (GroupType × Nat)) :=
  { empty := [],
    find := fun m k => (m.find? fun e => decide (e.1 = k)).map Prod.snd,
    assign := fun m k v => (k, v) :: m.filter fun e => decide (e.1 ≠ k) }

/-! ## The ring bit buffer (`src/mpx2bits.cc`) -/

/-- The helper `wrap_mod(i, len)`; `%` of C++ truncates toward zero. -/
def wrap_mod (i len : Int) : Int :=
  if i < 0 then Int.tmod i len + len else Int.tmod i len

/-- The class `BitBuffer`. -/
structure BitBuffer where
  m_data : List Nat
  m_head : Int
  m_tail : Int
  m_fill_count : Int
  m_len : Int

namespace BitBuffer

/-- The constructor `BitBuffer::BitBuffer(int size)`; it asserts `size > 0`. -/
def new (size : Int) : BitBuffer :=
  { m_data := List.replicate size.toNat 0, m_head := 0, m_tail := 0, m_fill_count := 0,
    m_len := size }

/-- The method `BitBuffer::forward`. -/
def forward (b : BitBuffer) (n : Int) : BitBuffer :=
  let b1 := { b with m_tail := Int.tmod (b.m_tail + n) b.m_len }
  let b2 := { b1 with m_fill_count := b1.m_fill_count - n }
  if b2.m_fill_count < 0 then { b2 with m_fill_count := 0 } else b2

/-- The method `BitBuffer::getFillCount`. -/
def getFillCount (b : BitBuffer) : Int := b.m_fill_count

/-- The method `BitBuffer::size`. -/
def size (b : BitBuffer) : Int := b.m_data.length

/-- The method `BitBuffer::at` (`at` is a reserved word here, hence the name). -/
def at_ (b : BitBuffer) (n : Int) : Nat :=
  b.m_data.getD (wrap_mod (n + b.m_tail) b.m_len).toNat 0

/-- The method `BitBuffer::getNext`: the element returned and the buffer afterwards. -/
def getNext (b : BitBuffer) : Nat × BitBuffer := (b.at_ 0, b.forward 1)

/-- The method `BitBuffer::getTail`. -/
def getTail (b : BitBuffer) : Int := b.m_tail

/-- The method `BitBuffer::append(uint8_t input_element)`. -/
def append (b : BitBuffer) (input_element : Nat) : BitBuffer :=
  let b1 := { b with m_data := b.m_data.set b.m_head.toNat (input_element % 256) }
  let b2 := { b1 with m_head := Int.tmod (b1.m_head + 1) b1.m_len }
  let b3 := { b2 with m_fill_count := b2.m_fill_count + 1 }
  { b3 with m_fill_count := min b3.m_fill_count b3.m_len }

end BitBuffer

/-! ## Filter design (`mpx2bits.cc`)

The numbers of the filter design are the elements of an ordered field `K` with exact
arithmetic; rounding is not modelled.  A failed `assert` and a quotient by zero give
`none`. -/

section FilterDesign

variable {K : Type} [LinearOrderedField K]

/-- The constant `M_PI` and the functions `sin` and `cos` of `<cmath>`. -/
structure Math (K : Type) where
  M_PI : K
  sin : K → K
  cos : K → K

/-- The function `sinc`. -/
def sinc (m : Math K) (x : K) : K :=
  if x = 0 then 1 else m.sin x / x

/-- The function `Blackman`; its quotients by `M` have no value for `M = 0`. -/
def Blackman (m : Math K) (i M : Int) : Option K :=
  if M = 0 then none
  else
    some (0.42 - 0.5 * m.cos (2 * m.M_PI * (i : K) / (M : K)) +
      0.08 * m.cos (4 * m.M_PI * (i : K) / (M : K)))

/-- The function `FIR`: the taps `sinc * Blackman`, then every tap divided by their sum. -/
def FIR (m : Math K) (f_cutoff : K) (len : Int) : Option (List K) :=
  if f_cutoff ≥ 0 ∧ f_cutoff ≤ 0.5 then
    if len > 0 then
      let M : Int := len - 1
      let taps : Option (List K) :=
        (List.range len.toNat).mapM fun (i : Nat) =>
          (Blackman m (Int.ofNat i) M).map fun w =>
            sinc m (2 * m.M_PI * f_cutoff * ((i : K) - (M : K) / 2.0)) * w
      taps.bind fun result =>
        let sum : K := result.foldl (fun acc x => acc + x) 0
        if sum = 0 then none else some (result.map fun x => x / sum)
    else none
  else none

end FilterDesign

/-! ## Auxiliary definitions for the proofs -/

namespace RDSString

/-- The string of capacity `cap` after the characters `w` were written at positions
`0, 1, ...` in this order, with `last` as its last complete string. -/
def written (cap : Nat) (w : List Int) (last : String) : RDSString :=
  { chars_ := w ++ List.replicate (cap - w.length) 0,
    is_char_sequential_ := List.replicate w.length true ++ List.replicate (cap - w.length) false,
    prev_pos_ := (w.length : Int) - 1,
    last_complete_string_ := last }

/-- The characters `s`, written one after the other from position 0 on, complete the
string from the `thr`-th character on and not before, and every complete prefix renders
as `R`. -/
def Completes (T : Tables) (cap : Nat) (s : List Int) (thr : Nat) (R : String) : Prop :=
  s.length ≤ cap ∧ ∀ pre post, s = pre ++ post →
    ((written cap pre "").isComplete = decide (thr ≤ pre.length)) ∧
    (thr ≤ pre.length → (written cap pre "").getString T = R)

/-- The string after the prefix `pre` of such a sequence was written. -/
def after (cap thr : Nat) (L0 R : String) (pre : List Int) : RDSString :=
  written cap pre (if thr ≤ pre.length then R else L0)

end RDSString

/-- The two characters that `decodeType0` hands to `updatePS`: the bytes of block 4. -/
def Group.block4Chars (g : Group) : List Int :=
  [(bits g.block4 8 8 : Int), (bits g.block4 0 8 : Int)]

/-- The two characters that `decodeType2` takes from block 3. -/
def Group.block3Chars (g : Group) : List Int :=
  [(bits g.block3 8 8 : Int), (bits g.block3 0 8 : Int)]

/-- The four characters that a type-2A group of four blocks carries. -/
def Group.textChars (g : Group) : List Int := g.block3Chars ++ g.block4Chars

/-- The position `rt_position` computed by `decodeType2`. -/
def Group.rtPosition (g : Group) : Int :=
  (bits g.block2 0 4 : Int) * (if g.type.ab = TYPE_A then 4 else 2)

/-- The radiotext string in `decodeType2` after the text A/B flag was compared. -/
def Station.rtCleared {M : Type} (T : Tables) (st : Station M) (g : Group) : RDSString :=
  if st.rt_ab_ ≠ bits g.block2 4 1 then st.rt_.clear T else st.rt_

/-- The radiotext string in `decodeType2` after the characters of block 3 were handled. -/
def Station.rtBlock3 {M : Type} (T : Tables) (st : Station M) (g : Group) : RDSString :=
  if g.type.ab = TYPE_A then (st.rtCleared T g).setChars T g.rtPosition g.block3Chars
  else st.rtCleared T g

/-- The radiotext string in `decodeType2` after the characters of block 4 were handled. -/
def Station.rtBlock4 {M : Type} (T : Tables) (st : Station M) (g : Group) : RDSString :=
  if g.num_blocks = 4 then (st.rtBlock3 T g).setChars T (g.rtPosition + 2) g.block4Chars
  else st.rtBlock3 T g

/-- The station in `update` after `is_tp_` and `pty_` were assigned. -/
def Station.withProgramme {M : Type} (st : Station M) (g : Group) : Station M :=
  { st with is_tp_ := decide (bits g.block2 10 1 ≠ 0), pty_ := bits g.block2 5 5 }

/-- The keys that `update` prints before it dispatches on the group type. -/
def Station.recordHead {M : Type} (T : Tables) (st : Station M) (g : Group) : Record :=
  [("pi", Value.text ("0x" ++ hexPad 4 st.pi_)), ("group", Value.text g.type.toString),
   ("tp", Value.flag (decide (bits g.block2 10 1 ≠ 0))),
   ("prog_type", Value.text (T.getPTYname (bits g.block2 5 5)))]

/-- The positions and characters that `decodeType2` passes to `setAt` for a group of at
least three blocks, in the order of the calls. -/
def Group.rtWrites (g : Group) : List (Int × Int) :=
  (if g.type.ab = TYPE_A then
    [(g.rtPosition, (bits g.block3 8 8 : Int)), (g.rtPosition + 1, (bits g.block3 0 8 : Int))]
   else []) ++
  (if g.num_blocks = 4 then
    [(g.rtPosition + 2, (bits g.block4 8 8 : Int)),
     (g.rtPosition + 2 + 1, (bits g.block4 0 8 : Int))]
   else [])

/-- Every piece of a rendered string other than the placeholder `" "` stands at a
position written by one of the calls `W` and renders the character of that call. -/
def CellsFrom (T : Tables) (W : List (Int × Int)) (cells : List String) : Prop :=
  ∀ i (h : i < cells.length), cells.get ⟨i, h⟩ ≠ " " →
    ∃ c, ((i : Int), c) ∈ W ∧ cells.get ⟨i, h⟩ = T.getLCDchar c

/-- Every position flagged as sequential was written by one of the calls `W` and holds the
character of that call. -/
def FlagsFrom (W : List (Int × Int)) (chars : List Int) (flags : List Bool) : Prop :=
  ∀ i, i < chars.length → flags.getD i false = true →
    ∃ c, ((i : Int), c) ∈ W ∧ chars.getD i 0 = c

/-- The string `str` is a rendering whose pieces come from the calls `W`. -/
def RenderedFrom (T : Tables) (W : List (Int × Int)) (str : String) : Prop :=
  ∃ cells, str = String.join cells ∧ CellsFrom T W cells

/-- The frequency in MHz that `addAltFreq` inserts for an AF code. -/
def afFreq (code : Nat) : ℚ := 87.5 + (code : ℚ) / 10.0

/-- The block-3 words of consecutive type-0A groups that carry the AF codes `codes` two
by two, the last word padded with the filler code 205. -/
def packAF : List Nat → List Nat
  | [] => []
  | [a] => [a * 256 + 205]
  | a :: b :: rest => (a * 256 + b) :: packAF rest

/-- The set of alternative frequencies after `addAltFreq(code)`. -/
def afSet (set : List ℚ) (code : Nat) : List ℚ :=
  if 1 ≤ code % 256 ∧ code % 256 ≤ 204 then setInsert (afFreq (code % 256)) set else set

/-- The expected number of alternative frequencies after `addAltFreq(code)`. -/
def afNum (num : Int) (code : Nat) : Int :=
  if 225 ≤ code % 256 ∧ code % 256 ≤ 249 then ((code % 256 : Nat) : Int) - 224 else num

/-- The Modified Julian Date that `decodeType4` reads from blocks 2 and 3. -/
def Group.mjd (g : Group) : Int :=
  ((bits g.block2 0 2 <<< 15 : Nat) : Int) + (bits g.block3 1 15 : Int)

/-- The date part `%04d-%02d-%02d` of the clock-time string. -/
def dateString (d : Int × Int × Int) : String :=
  decPad 4 d.1 ++ "-" ++ decPad 2 d.2.1 ++ "-" ++ decPad 2 d.2.2

/-- The calendar conversion of `decodeType4` with every quotient of decimals written as a
truncating quotient of integers: `x / 365.25 = 100 x / 36525`, `yr * 365.25 = 1461 yr / 4`,
`x / 30.6001 = 10000 x / 306001`. -/
def calendarDateInt (mjd : Int) : Int × Int × Int :=
  let yr : Int := Int.tdiv (mjd * 100 - 1507820) 36525
  let yd : Int := Int.tdiv (yr * 1461) 4
  let mo : Int := Int.tdiv ((mjd - yd) * 10000 - 149561000) 306001
  let dy : Int := mjd - 14956 - yd - Int.tdiv (mo * 306001) 10000
  let yr1 : Int := if mo = 14 ∨ mo = 15 then yr + 1 else yr
  let mo1 : Int := if mo = 14 ∨ mo = 15 then mo - 12 else mo
  (yr1 + 1900, mo1 - 1, dy)

/-- Leap years of the Gregorian calendar. -/
def isLeapYear (y : Int) : Bool := decide (y % 4 = 0 ∧ (y % 100 ≠ 0 ∨ y % 400 = 0))

/-- The number of days of month `m` in year `y` of the Gregorian calendar. -/
def daysInMonth (y m : Int) : Int :=
  if m = 2 then (if isLeapYear y then 29 else 28)
  else if m = 4 ∨ m = 6 ∨ m = 9 ∨ m = 11 then 30
  else 31

/-- The number of days of year `y` before its month `m`. -/
def daysBeforeMonth (y m : Int) : Int :=
  ((List.range (m - 1).toNat).map fun i => daysInMonth y ((i : Int) + 1)).sum

/-- The number of days from 0001-01-01 to the day `d` of month `m` of year `y` in the
(proleptic) Gregorian calendar. -/
def gregorianDayNumber (y m d : Int) : Int :=
  365 * (y - 1) + (y - 1) / 4 - (y - 1) / 100 + (y - 1) / 400 + daysBeforeMonth y m + (d - 1)

/-- The Modified Julian Date of a Gregorian calendar date: the number of days since
1858-11-17. -/
def gregorianMJD (y m d : Int) : Int :=
  gregorianDayNumber y m d - gregorianDayNumber 1858 11 17

/-- Leap years, on natural numbers and with Boolean tests. -/
def isLeapNat (y : Nat) : Bool :=
  Nat.beq (y % 4) 0 && (!(Nat.beq (y % 100) 0) || Nat.beq (y % 400) 0)

/-- The number of days of month `m` in year `y`, on natural numbers. -/
def daysInMonthNat (y m : Nat) : Nat :=
  bif Nat.beq m 2 then (bif isLeapNat y then 29 else 28)
  else bif (Nat.beq m 4 || Nat.beq m 6 || Nat.beq m 9 || Nat.beq m 11) then 30 else 31

/-- The number of days of year `y` before its month `m` (1..12), on natural numbers. -/
def daysBeforeMonthNat (y m : Nat) : Nat :=
  (bif Nat.beq m 1 then 0 else bif Nat.beq m 2 then 31 else bif Nat.beq m 3 then 59
   else bif Nat.beq m 4 then 90 else bif Nat.beq m 5 then 120 else bif Nat.beq m 6 then 151
   else bif Nat.beq m 7 then 181 else bif Nat.beq m 8 then 212 else bif Nat.beq m 9 then 243
   else bif Nat.beq m 10 then 273 else bif Nat.beq m 11 then 304 else 334) +
  (bif (Nat.blt 2 m && isLeapNat y) then 1 else 0)

/-- The check of one Modified Julian Date, on natural numbers: no subtraction of the
conversion falls below zero, the conversion yields a month in 1..12 and a day of that
month, and the day number of that date is `mjd` days after 1858-11-17 (day number
678575). -/
def calendarOkNat (mjd : Nat) : Bool :=
  let yr := (mjd * 100 - 1507820) / 36525
  let yd := yr * 1461 / 4
  let mo := ((mjd - yd) * 10000 - 149561000) / 306001
  let md := mo * 306001 / 10000
  let dy := mjd - 14956 - yd - md
  let c := Nat.beq mo 14 || Nat.beq mo 15
  let y := (bif c then yr + 1 else yr) + 1900
  let m := (bif c then mo - 12 else mo) - 1
  Nat.ble 1507820 (mjd * 100) && Nat.ble yd mjd && Nat.ble 149561000 ((mjd - yd) * 10000)
    && Nat.ble (14956 + yd + md) mjd && Nat.ble 1 m && Nat.ble m 12 && Nat.ble 1 dy
    && Nat.ble dy (daysInMonthNat y m)
    && Nat.beq (365 * (y - 1) + (y - 1) / 4 + (y - 1) / 400 + daysBeforeMonthNat y m + (dy - 1))
        (mjd + 678575 + (y - 1) / 100)

/-- The check `calendarOkNat` on the `n` dates from `lo` on. -/
def calendarOkRange : Nat → Nat → Bool
  | _, 0 => true
  | lo, n + 1 => bif calendarOkNat (lo + n) then calendarOkRange lo n else false

/-- A sample of the external tables, for evaluating the decoder on concrete groups:
codes are rendered as the character with that code point, names are left empty. -/
def sampleTables : Tables :=
  { getLCDchar := fun code => String.singleton (Char.ofNat code.toNat),
    getPTYname := fun _ => "",
    getCountryString := fun _ _ => "",
    getLanguageString := fun _ => "",
    getAppName := fun _ => "" }

/-- A station as constructed for PI code `0x1234`, with the sample tables. -/
def sampleStation : Station (List (GroupType × Nat)) :=
  Station.new sampleTables listOdaMap 0x1234

/-- The states of an `RDSString` of capacity `cap` that calls of `setAt` and `clear` reach
from the freshly constructed string. -/
inductive RDSString.Reachable (T : Tables) (cap : Nat) : RDSString → Prop where
  | fresh : RDSString.Reachable T cap (RDSString.new T cap)
  | setAt (s : RDSString) (pos chr : Int) :
      RDSString.Reachable T cap s → RDSString.Reachable T cap (s.setAt T pos chr)
  | clear (s : RDSString) : RDSString.Reachable T cap s → RDSString.Reachable T cap (s.clear T)

/-- The string of capacity 64 after `A` and a carriage return were written at positions 0
and 1, with the sample tables. -/
def sampleTextA : RDSString :=
  ((RDSString.new sampleTables 64).setAt sampleTables 0 0x41).setAt sampleTables 1 0x0D

/-- The positions flagged as sequential are none, or the consecutive positions from some
`a` up to `prev_pos_`. -/
def RDSString.SequentialInterval (s : RDSString) : Prop :=
  (∀ i : Nat, s.is_char_sequential_.getD i false = false) ∨
    ∃ a : Nat, (a : Int) ≤ s.prev_pos_ ∧ s.prev_pos_ < (s.is_char_sequential_.length : Int) ∧
      ∀ i : Nat, s.is_char_sequential_.getD i false = true ↔ (a ≤ i ∧ (i : Int) ≤ s.prev_pos_)

/-- A call on a `BitBuffer`: `append(x)` or `getNext()`. -/
inductive BitBuffer.Call where
  | append (x : Nat)
  | getNext
deriving DecidableEq

/-- The buffer after one call. -/
def BitBuffer.call (b : BitBuffer) : BitBuffer.Call → BitBuffer
  | .append x => b.append x
  | .getNext => b.getNext.2

/-- The buffer after a sequence of calls, the first call first. -/
def BitBuffer.calls (b : BitBuffer) (cs : List BitBuffer.Call) : BitBuffer :=
  cs.foldl BitBuffer.call b

/-- The number of `append` calls of a sequence. -/
def BitBuffer.countAppend (cs : List BitBuffer.Call) : Int :=
  (cs.filter fun c => c ≠ BitBuffer.Call.getNext).length

/-- The number of `getNext` calls of a sequence. -/
def BitBuffer.countGetNext (cs : List BitBuffer.Call) : Int :=
  (cs.filter fun c => c = BitBuffer.Call.getNext).length

/-- The value `x` clipped into the interval `[lo, hi]`. -/
def clip (lo hi x : Int) : Int := max lo (min hi x)

/-- No call of the sequence, run on `b`, finds the buffer at its limit: no `getNext` finds
it empty and no `append` finds it full. -/
def BitBuffer.NoLimitHit (b : BitBuffer) : List BitBuffer.Call → Prop
  | [] => True
  | .append x :: cs => b.m_fill_count < b.m_len ∧ BitBuffer.NoLimitHit (b.append x) cs
  | .getNext :: cs => 0 < b.m_fill_count ∧ BitBuffer.NoLimitHit b.getNext.2 cs

/-- Positions 0 and 1 of the string are as the constructor left them: the characters are 0
and the flags are false. -/
def RDSString.HeadUnwritten (s : RDSString) : Prop :=
  2 ≤ s.chars_.length ∧ s.is_char_sequential_.length = s.chars_.length ∧
    s.chars_.take 2 = [0, 0] ∧ s.is_char_sequential_.take 2 = [false, false]

/-- The string after the calls `setAt(pos, chr)` for the pairs of `W`, the first pair
first. -/
def RDSString.setAll (T : Tables) (s : RDSString) (W : List (Int × Int)) : RDSString :=
  W.foldl (fun x w => x.setAt T w.1 w.2) s

/-- The keys that `update` prints before it dispatches on the group type. -/
def Station.headKeys : List String := ["pi", "group", "tp", "prog_type"]

/-- The lists of keys that the decoders of the group types can print. -/
def Station.tailKeys : List (List String) :=
  [[], ["ta"], ["ta", "alt_freqs"], ["ta", "ps"], ["ta", "alt_freqs", "ps"],
   ["country"], ["tmc_id"], ["language"], ["ews"],
   ["radiotext"], ["radiotext", "radiotext"],
   ["open_data_app"], ["clock_time"], ["tmc_message"], ["/* TODO */"]]

/-- A counter that starts at `f`, is increased by one at each `append` unless it is `n`
already, and decreased by one at each `getNext` unless it is 0 already: a call at a limit
is not counted. -/
def BitBuffer.saturatingCount (n : Int) : Int → List BitBuffer.Call → Int
  | f, [] => f
  | f, .append _ :: cs => BitBuffer.saturatingCount n (if f < n then f + 1 else f) cs
  | f, .getNext :: cs => BitBuffer.saturatingCount n (if 0 < f then f - 1 else f) cs

/-- The station `sampleStation` after a type-2A group of four blocks with text A/B bit 1
that carries `HI`, a carriage return and a blank for segment 0. -/
def sampleStationHI : Station (List (GroupType × Nat)) :=
  (Station.update sampleTables listOdaMap sampleStation
    ⟨0x1234, 0x2010, 0x4849, 0x0D20, 4, ⟨2, 0⟩⟩).1

/-! ## Lemmas on RDSString -/

namespace RDSString

theorem lengthReceivedFrom_prefix (k m i : Nat) :
    lengthReceivedFrom (List.replicate k true ++ List.replicate m false) i = i + k := by
  induction k generalizing i with
  | zero => cases m <;> simp [lengthReceivedFrom, List.replicate_succ]
  | succ k ih =>
    simp only [List.replicate_succ, List.cons_append, lengthReceivedFrom]
    simp [ih]; omega

theorem lengthExpectedFrom_zeros (m i : Nat) :
    lengthExpectedFrom (List.replicate m 0) i = i + m := by
  induction m generalizing i with
  | zero => simp [lengthExpectedFrom]
  | succ m ih => simp [List.replicate_succ, lengthExpectedFrom, ih]; omega

theorem lengthExpectedFrom_noCR (w : List Int) (m i : Nat) (h : ∀ c ∈ w, c ≠ 0x0D) :
    lengthExpectedFrom (w ++ List.replicate m 0) i = i + w.length + m := by
  induction w generalizing i with
  | nil => simp [lengthExpectedFrom_zeros]
  | cons c w ih =>
    have hc : c ≠ 0x0D := h c (by simp)
    have ih2 := ih (i + 1) (fun d hd => h d (by simp [hd]))
    simp only [List.cons_append, lengthExpectedFrom, if_neg hc, List.length_cons]
    simp only [HAppend.hAppend, Append.append] at ih2 ⊢
    rw [ih2]; omega

theorem lengthExpectedFrom_CR (a rest : List Int) (i : Nat) (h : ∀ c ∈ a, c ≠ 0x0D) :
    lengthExpectedFrom (a ++ 0x0D :: rest) i = i + a.length := by
  induction a generalizing i with
  | nil => simp [lengthExpectedFrom]
  | cons c w ih =>
    have hc : c ≠ 0x0D := h c (by simp)
    have ih2 := ih (i + 1) (fun d hd => h d (by simp [hd]))
    simp only [List.cons_append, lengthExpectedFrom, if_neg hc, List.length_cons]
    simp only [HAppend.hAppend, Append.append] at ih2 ⊢
    rw [ih2]; omega

theorem lengthReceived_written (cap : Nat) (w : List Int) (L : String) :
    (written cap w L).lengthReceived = w.length := by
  simp [lengthReceived, written, lengthReceivedFrom_prefix]

theorem lengthExpected_written_noCR (cap : Nat) (w : List Int) (L : String)
    (h : ∀ c ∈ w, c ≠ 0x0D) (hw : w.length ≤ cap) :
    (written cap w L).lengthExpected = cap := by
  simp only [lengthExpected, written]
  rw [lengthExpectedFrom_noCR _ _ _ h]; omega

theorem lengthExpected_written_CR (cap : Nat) (a rest : List Int) (L : String)
    (h : ∀ c ∈ a, c ≠ 0x0D) :
    (written cap (a ++ 0x0D :: rest) L).lengthExpected = a.length := by
  simp only [lengthExpected, written, List.append_assoc, List.cons_append]
  rw [lengthExpectedFrom_CR _ _ _ h]; omega

theorem getStringCells_written (T : Tables) (cap : Nat) (w : List Int) (L : String)
    (h : (written cap w L).lengthExpected ≤ w.length) :
    (written cap w L).getStringCells T =
      (w.take (written cap w L).lengthExpected).map T.getLCDchar := by
  unfold getStringCells
  generalize (written cap w L).lengthExpected = e at h ⊢
  apply List.ext_getElem
  · simp; omega
  · intro i h1 h2
    simp at h1 h2
    have hi : i < w.length := by omega
    simp [written, List.getD_eq_getElem?_getD, List.getElem?_append_left, hi, List.getElem_take]

theorem new_eq_written (T : Tables) (cap : Nat) :
    ∃ L, new T cap = written cap [] L := by
  exact ⟨(new T cap).last_complete_string_, by simp [new, written]⟩

theorem setAt_written (T : Tables) (cap : Nat) (w : List Int) (L : String) (c : Int)
    (hw : w.length < cap) :
    setAt T (written cap w L) (w.length : Int) c =
      written cap (w ++ [c])
        (if (written cap (w ++ [c]) L).isComplete then (written cap (w ++ [c]) L).getString T
         else L) := by
  have hchars : (w ++ List.replicate (cap - w.length) (0:Int)).set w.length c
      = (w ++ [c]) ++ List.replicate (cap - (w.length + 1)) 0 := by
    obtain ⟨k, hk⟩ : ∃ k, cap - w.length = k + 1 := ⟨cap - w.length - 1, by omega⟩
    have hk2 : cap - (w.length + 1) = k := by omega
    rw [hk, hk2, List.replicate_succ]
    simp [List.set_append]
  have hflags : (List.replicate w.length true ++ List.replicate (cap - w.length) false).set w.length true
      = List.replicate (w.length + 1) true ++ List.replicate (cap - (w.length + 1)) false := by
    obtain ⟨k, hk⟩ : ∃ k, cap - w.length = k + 1 := ⟨cap - w.length - 1, by omega⟩
    have hk2 : cap - (w.length + 1) = k := by omega
    rw [hk, hk2, List.replicate_succ]
    simp [List.set_append, List.replicate_succ']
  have hguard : ¬ ((w.length : Int) < 0 ∨ (w.length : Int) ≥ ((written cap w L).chars_.length : Int)) := by
    simp [written]; omega
  unfold setAt
  rw [if_neg hguard]
  simp only [written, Int.toNat_ofNat, sub_add_cancel, ne_eq, not_true_eq_false, if_false, hchars, hflags]
  simp only [isComplete, lengthReceived, lengthExpected, getString, getStringCells]
  split
  · simp_all
  · rename_i h
    simp at h ⊢
    rw [if_neg (Nat.not_le.mpr h)]

theorem isComplete_written_last (cap : Nat) (w : List Int) (L L2 : String) :
    (written cap w L).isComplete = (written cap w L2).isComplete := rfl

theorem getString_written_last (T : Tables) (cap : Nat) (w : List Int) (L L2 : String) :
    (written cap w L).getString T = (written cap w L2).getString T := rfl

theorem isComplete_after (T : Tables) (cap thr : Nat) (L0 R : String) (s pre post : List Int)
    (hs : Completes T cap s thr R) (h : s = pre ++ post) :
    (after cap thr L0 R pre).isComplete = decide (thr ≤ pre.length) := by
  unfold after
  rw [isComplete_written_last _ _ _ ""]
  exact (hs.2 pre post h).1

theorem setAt_after (T : Tables) (cap thr : Nat) (L0 R : String) (s pre post : List Int) (c : Int)
    (hs : Completes T cap s thr R) (h : s = pre ++ c :: post) :
    setAt T (after cap thr L0 R pre) (pre.length : Int) c = after cap thr L0 R (pre ++ [c]) := by
  have hlen : pre.length < cap := by
    have := hs.1; rw [h] at this; simp at this; omega
  have h2 : s = (pre ++ [c]) ++ post := by simp [h]
  obtain ⟨hc, hr⟩ := hs.2 (pre ++ [c]) post h2
  unfold after
  rw [setAt_written T cap pre _ c hlen, isComplete_written_last _ _ _ "", hc,
    getString_written_last T _ _ _ ""]
  by_cases ht : thr ≤ (pre ++ [c]).length
  · simp only [ht, decide_True, if_true, hr ht]
  · have ht2 : ¬ thr ≤ pre.length := by simp at ht ⊢; omega
    have ht3 : ¬ thr ≤ pre.length + 1 := by simpa using ht
    simp [ht3, ht2]

theorem setChars_after (T : Tables) (cap thr : Nat) (L0 R : String) (s pre post : List Int)
    (a b : Int) (hs : Completes T cap s thr R) (h : s = pre ++ a :: b :: post) :
    setChars T (after cap thr L0 R pre) (pre.length : Int) [a, b]
      = after cap thr L0 R (pre ++ [a, b]) := by
  simp only [setChars]
  rw [setAt_after T cap thr L0 R s pre (b :: post) a hs h]
  have h2 : s = (pre ++ [a]) ++ b :: post := by simp [h]
  have := setAt_after T cap thr L0 R s (pre ++ [a]) post b hs h2
  simp only [List.length_append, List.length_singleton, Nat.cast_add, Nat.cast_one,
    List.append_assoc, List.singleton_append] at this
  exact this

theorem isComplete_written_iff (cap : Nat) (w : List Int) (L : String) :
    (written cap w L).isComplete = decide ((written cap w L).lengthExpected ≤ w.length) := by
  simp [isComplete, lengthReceived_written]

theorem completes_full (T : Tables) (s : List Int) (h : ∀ c ∈ s, c ≠ 0x0D) :
    Completes T s.length s s.length (String.join (s.map T.getLCDchar)) := by
  refine ⟨le_refl _, fun pre post hs => ?_⟩
  have hpre : ∀ c ∈ pre, c ≠ 0x0D := fun c hc => h c (by rw [hs]; simp [hc])
  have hlen : pre.length ≤ s.length := by rw [hs]; simp
  have he := lengthExpected_written_noCR s.length pre "" hpre hlen
  refine ⟨by rw [isComplete_written_iff, he], fun hle => ?_⟩
  have hpost : post = [] := by
    have : (pre ++ post).length = pre.length + post.length := by simp
    rw [← hs] at this
    exact List.eq_nil_of_length_eq_zero (by omega)
  have hps : pre = s := by rw [hs, hpost]; simp
  unfold getString
  rw [getStringCells_written T _ _ _ (by rw [he]; omega), he, hps, List.take_length]

theorem completes_terminated (T : Tables) (cap : Nat) (text pad : List Int)
    (h : ∀ c ∈ text, c ≠ 0x0D) (hcap : (text ++ 0x0D :: pad).length ≤ cap) :
    Completes T cap (text ++ 0x0D :: pad) (text.length + 1)
      (String.join (text.map T.getLCDchar)) := by
  refine ⟨hcap, fun pre post hs => ?_⟩
  rcases List.append_eq_append_iff.mp hs with ⟨a, ha, hb⟩ | ⟨c, hc, hd⟩
  · -- `pre` reaches beyond the text
    cases a with
    | nil =>
      simp at ha hb
      rw [ha]
      have hlen : text.length < cap := by simp at hcap; omega
      have he := lengthExpected_written_noCR cap text "" h (by omega)
      refine ⟨?_, fun hle => by omega⟩
      rw [isComplete_written_iff, he]
      simp; omega
    | cons x a =>
      simp at hb
      obtain ⟨hx, -⟩ := hb
      subst hx
      subst ha
      have he := lengthExpected_written_CR cap text a "" h
      refine ⟨?_, fun _ => ?_⟩
      · rw [isComplete_written_iff, he]; simp
      · unfold getString
        rw [getStringCells_written T _ _ _ (by rw [he]; simp), he]
        simp
  · -- `pre` is a prefix of the text
    have hpre : ∀ d ∈ pre, d ≠ 0x0D := fun d hd => h d (by rw [hc]; simp [hd])
    have hl1 : pre.length ≤ text.length := by rw [hc]; simp
    have hl2 : text.length < cap := by simp at hcap; omega
    have he := lengthExpected_written_noCR cap pre "" hpre (by omega)
    refine ⟨?_, fun hle => by omega⟩
    rw [isComplete_written_iff, he]
    simp; omega

theorem new_eq_written_last (T : Tables) (cap : Nat) :
    new T cap = written cap [] (new T cap).last_complete_string_ := by
  simp [new, written]

theorem clear_written_nil (T : Tables) (cap : Nat) (L : String) :
    clear T (written cap [] L) = new T cap := by
  simp [clear, new, written, getString, getStringCells, lengthExpected]

end RDSString

/-! ## Lemmas on records and on the station -/

theorem Record.valuesOf_append (a b : Record) (k : String) :
    Record.valuesOf (a ++ b) k = Record.valuesOf a k ++ Record.valuesOf b k := by
  simp [Record.valuesOf]

theorem Record.valuesOf_nil (k : String) : Record.valuesOf [] k = [] := rfl

theorem Record.valuesOf_cons (e : String × Value) (r : Record) (k : String) :
    Record.valuesOf (e :: r) k = (if e.1 = k then [e.2] else []) ++ Record.valuesOf r k := by
  by_cases h : e.1 = k <;> simp [Record.valuesOf, List.filter_cons, h]

namespace Station

variable {M : Type}

theorem addAltFreq_ps (st : Station M) (c : Nat) : (addAltFreq st c).ps_ = st.ps_ := by
  unfold addAltFreq
  simp only
  split_ifs <;> rfl

theorem addAltFreq_rt (st : Station M) (c : Nat) : (addAltFreq st c).rt_ = st.rt_ := by
  unfold addAltFreq
  simp only
  split_ifs <;> rfl

theorem updatePS_fst (T : Tables) (st : Station M) (pos : Int) (chars : List Int) :
    (updatePS T st pos chars).1.ps_ = st.ps_.setChars T pos chars := by
  unfold updatePS
  simp only
  split_ifs <;> rfl

theorem updatePS_snd (T : Tables) (st : Station M) (pos : Int) (chars : List Int) :
    (updatePS T st pos chars).2 =
      if (st.ps_.setChars T pos chars).isComplete then
        [("ps", Value.text (st.ps_.setChars T pos chars).last_complete_string_)]
      else [] := by
  unfold updatePS
  simp only
  split_ifs <;> rfl

/-- The part of `decodeType0` before `updatePS` leaves `ps_` alone and prints no `ps`. -/
theorem decodeType0_four (T : Tables) (st : Station M) (g : Group) (h4 : g.num_blocks = 4) :
    ∃ (st2 : Station M) (out2 : Record), st2.ps_ = st.ps_ ∧ out2.valuesOf "ps" = [] ∧
      decodeType0 T st g =
        ((updatePS T st2 ((bits g.block2 0 2 : Int) * 2) g.block4Chars).1,
          out2 ++ (updatePS T st2 ((bits g.block2 0 2 : Int) * 2) g.block4Chars).2) := by
  have h3 : ¬ g.num_blocks < 3 := by omega
  have h4b : ¬ g.num_blocks < 4 := by omega
  unfold decodeType0
  simp only [h3, h4b, if_false]
  refine ⟨_, _, ?_, ?_, rfl⟩
  · split_ifs <;> simp only [addAltFreq_ps]
  · split_ifs <;>
      simp [Record.valuesOf_append, Record.valuesOf_cons, Record.valuesOf_nil]

theorem update_num0 (T : Tables) (O : OdaMap M) (st : Station M) (g : Group)
    (h : g.type.num = 0) :
    update T O st g = ((decodeType0 T (st.withProgramme g) g).1,
      st.recordHead T g ++ (decodeType0 T (st.withProgramme g) g).2) := by
  simp only [update, h]; rfl

theorem update_num2 (T : Tables) (O : OdaMap M) (st : Station M) (g : Group)
    (h : g.type.num = 2) :
    update T O st g = ((decodeType2 T (st.withProgramme g) g).1,
      st.recordHead T g ++ (decodeType2 T (st.withProgramme g) g).2) := by
  simp only [update, h]; rfl

theorem update_num3 (T : Tables) (O : OdaMap M) (st : Station M) (g : Group)
    (h : g.type.num = 3) :
    update T O st g = ((decodeType3 T O (st.withProgramme g) g).1,
      st.recordHead T g ++ (decodeType3 T O (st.withProgramme g) g).2) := by
  simp only [update, h]; rfl

theorem update_num4 (T : Tables) (O : OdaMap M) (st : Station M) (g : Group)
    (h : g.type.num = 4) :
    update T O st g = ((decodeType4 (st.withProgramme g) g).1,
      st.recordHead T g ++ (decodeType4 (st.withProgramme g) g).2) := by
  simp only [update, h]; rfl

theorem update_num8 (T : Tables) (O : OdaMap M) (st : Station M) (g : Group)
    (h : g.type.num = 8) :
    update T O st g = ((decodeType8 O (st.withProgramme g) g).1,
      st.recordHead T g ++ (decodeType8 O (st.withProgramme g) g).2) := by
  simp only [update, h]; rfl

theorem recordHead_keys (T : Tables) (st : Station M) (g : Group) :
    (st.recordHead T g).map Prod.fst = ["pi", "group", "tp", "prog_type"] := rfl

theorem valuesOf_recordHead (T : Tables) (st : Station M) (g : Group) (k : String)
    (hk : k ∉ ["pi", "group", "tp", "prog_type"]) : (st.recordHead T g).valuesOf k = [] := by
  simp only [List.mem_cons, List.mem_nil_iff, or_false, not_or] at hk
  obtain ⟨h1, h2, h3, h4⟩ := hk
  simp [recordHead, Record.valuesOf_cons, Record.valuesOf_nil, Ne.symm h1, Ne.symm h2,
    Ne.symm h3, Ne.symm h4]

/-- A type-0 group of four blocks writes its two block-4 characters into `ps_` and reports
`ps` exactly when the string is complete afterwards. -/
theorem update_type0_ps (T : Tables) (O : OdaMap M) (st : Station M) (g : Group)
    (h0 : g.type.num = 0) (h4 : g.num_blocks = 4) :
    (update T O st g).1.ps_ = st.ps_.setChars T ((bits g.block2 0 2 : Int) * 2) g.block4Chars ∧
    (update T O st g).2.valuesOf "ps" =
      if (st.ps_.setChars T ((bits g.block2 0 2 : Int) * 2) g.block4Chars).isComplete then
        [Value.text (st.ps_.setChars T ((bits g.block2 0 2 : Int) * 2)
          g.block4Chars).last_complete_string_]
      else [] := by
  rw [update_num0 T O st g h0]
  obtain ⟨st2, out2, hps, hout, heq⟩ := decodeType0_four T (st.withProgramme g) g h4
  rw [heq]
  have hps2 : st2.ps_ = st.ps_ := hps
  simp only [updatePS_fst, updatePS_snd, hps2, Record.valuesOf_append, hout,
    valuesOf_recordHead T st g "ps" (by decide)]
  constructor
  · trivial
  · split_ifs <;>
      simp [Record.valuesOf_cons, Record.valuesOf_nil]

/-- Type-0 groups of four blocks that carry, two by two, the characters that follow `pre`
in `s`: the programme-service string after them and the `ps` values of their records. -/
theorem updateAll_ps (T : Tables) (O : OdaMap M) (cap thr : Nat) (L0 R : String) (s : List Int)
    (hs : RDSString.Completes T cap s thr R) :
    ∀ (gs : List Group) (st : Station M) (pre : List Int) (i : Nat),
      s = pre ++ gs.flatMap Group.block4Chars → pre.length = 2 * i →
      st.ps_ = RDSString.after cap thr L0 R pre →
      (∀ g ∈ gs, g.type.num = 0 ∧ g.num_blocks = 4) →
      gs.map (fun g => bits g.block2 0 2) = List.range' i gs.length →
      (updateAll T O st gs).1.ps_ = RDSString.after cap thr L0 R s ∧
      (updateAll T O st gs).2.map (fun r => r.valuesOf "ps") =
        (List.range' i gs.length).map
          (fun k => if thr ≤ 2 * k + 2 then [Value.text R] else []) := by
  intro gs
  induction gs with
  | nil =>
    intro st pre i hpre _ hst _ _
    simp at hpre
    simp [updateAll, hst, hpre]
  | cons g gs ih =>
    intro st pre i hpre hlen hst hty hseg
    obtain ⟨h0, h4⟩ := hty g (by simp)
    simp only [List.map_cons, List.length_cons, List.range'_succ, List.cons.injEq] at hseg
    obtain ⟨hg, hseg⟩ := hseg
    have hpos : ((bits g.block2 0 2 : Nat) : Int) * 2 = (pre.length : Int) := by
      rw [hg, hlen]; push_cast; ring
    have hs2 : s = pre ++ (bits g.block4 8 8 : Int) :: (bits g.block4 0 8 : Int)
        :: gs.flatMap Group.block4Chars := by
      rw [hpre]; simp [List.flatMap_cons, Group.block4Chars]
    obtain ⟨hps, hval⟩ := update_type0_ps T O st g h0 h4
    have hstep := RDSString.setChars_after T cap thr L0 R s pre _ _ _ hs hs2
    rw [hst, hpos] at hps hval
    simp only [Group.block4Chars] at hps hval
    rw [hstep] at hps hval
    have hs3 : s = (pre ++ [(bits g.block4 8 8 : Int), (bits g.block4 0 8 : Int)])
        ++ gs.flatMap Group.block4Chars := by
      rw [hs2]; simp
    rw [RDSString.isComplete_after T cap thr L0 R s _ _ hs hs3] at hval
    obtain ⟨ih1, ih2⟩ := ih (update T O st g).1
      (pre ++ [(bits g.block4 8 8 : Int), (bits g.block4 0 8 : Int)]) (i + 1) hs3
      (by simp [hlen]; ring) hps (fun g' hg' => hty g' (by simp [hg'])) hseg
    refine ⟨by simpa [updateAll] using ih1, ?_⟩
    simp only [updateAll, List.map_cons, List.length_cons, List.range'_succ, ih2, hval]
    congr 1
    simp only [RDSString.after, RDSString.written, List.length_append, List.length_cons,
      List.length_nil, hlen]
    by_cases ht : thr ≤ 2 * i + 2
    · simp [ht]
    · simp [ht]

theorem updateRadioText_fst (T : Tables) (st : Station M) (pos : Int) (chars : List Int) :
    (updateRadioText T st pos chars).1 = { st with rt_ := st.rt_.setChars T pos chars } := by
  unfold updateRadioText
  simp only
  split_ifs <;> rfl

theorem updateRadioText_snd (T : Tables) (st : Station M) (pos : Int) (chars : List Int) :
    (updateRadioText T st pos chars).2 =
      if (st.rt_.setChars T pos chars).isComplete then
        [("radiotext", Value.text (st.rt_.setChars T pos chars).last_complete_string_)]
      else [] := by
  unfold updateRadioText
  simp only
  split_ifs <;> rfl

/-- What `decodeType2` does with a group of at least three blocks. -/
theorem decodeType2_three (T : Tables) (st : Station M) (g : Group) (h3 : 3 ≤ g.num_blocks) :
    (decodeType2 T st g).1.rt_ = st.rtBlock4 T g ∧
    (decodeType2 T st g).1.rt_ab_ = bits g.block2 4 1 ∧
    (decodeType2 T st g).2 =
      (if g.type.ab = TYPE_A ∧ (st.rtBlock3 T g).isComplete = true then
        [("radiotext", Value.text (st.rtBlock3 T g).last_complete_string_)] else []) ++
      (if g.num_blocks = 4 ∧ (st.rtBlock4 T g).isComplete = true then
        [("radiotext", Value.text (st.rtBlock4 T g).last_complete_string_)] else []) := by
  have h3b : ¬ g.num_blocks < 3 := by omega
  unfold decodeType2
  simp only [h3b, if_false, rtBlock4, rtBlock3, rtCleared, Group.rtPosition,
    Group.block3Chars, Group.block4Chars]
  by_cases hA : g.type.ab = TYPE_A <;> by_cases h4 : g.num_blocks = 4 <;>
    by_cases hc : st.rt_ab_ = bits g.block2 4 1 <;>
    simp [hA, h4, hc, updateRadioText_fst, updateRadioText_snd]

/-- What `update` does with a type-2 group of at least three blocks. -/
theorem update_type2 (T : Tables) (O : OdaMap M) (st : Station M) (g : Group)
    (h2 : g.type.num = 2) (h3 : 3 ≤ g.num_blocks) :
    (update T O st g).1.rt_ = st.rtBlock4 T g ∧
    (update T O st g).1.rt_ab_ = bits g.block2 4 1 ∧
    (update T O st g).2.valuesOf "radiotext" =
      (if g.type.ab = TYPE_A ∧ (st.rtBlock3 T g).isComplete = true then
        [Value.text (st.rtBlock3 T g).last_complete_string_] else []) ++
      (if g.num_blocks = 4 ∧ (st.rtBlock4 T g).isComplete = true then
        [Value.text (st.rtBlock4 T g).last_complete_string_] else []) := by
  obtain ⟨h_rt, h_ab, h_out⟩ := decodeType2_three T (st.withProgramme g) g h3
  rw [update_num2 T O st g h2]
  refine ⟨h_rt, h_ab, ?_⟩
  simp only [h_out, Record.valuesOf_append, valuesOf_recordHead T st g "radiotext" (by decide)]
  have e1 : rtBlock3 T (st.withProgramme g) g = st.rtBlock3 T g := rfl
  have e2 : rtBlock4 T (st.withProgramme g) g = st.rtBlock4 T g := rfl
  rw [e1, e2]
  split_ifs <;> simp [Record.valuesOf_cons, Record.valuesOf_nil]

/-- Type-2A groups of four blocks with one text A/B flag that carry, four by four, the
characters that follow `pre` in `s`: the radiotext string after them and the `radiotext`
values of their records. -/
theorem updateAll_rt (T : Tables) (O : OdaMap M) (cap thr : Nat) (L0 R : String) (s : List Int)
    (ab : Nat) (hs : RDSString.Completes T cap s thr R)
    (hclear : RDSString.clear T (RDSString.after cap thr L0 R []) = RDSString.after cap thr L0 R []) :
    ∀ (gs : List Group) (st : Station M) (pre : List Int) (i : Nat),
      s = pre ++ gs.flatMap Group.textChars → pre.length = 4 * i →
      st.rt_ = RDSString.after cap thr L0 R pre → (i = 0 ∨ st.rt_ab_ = ab) →
      (∀ g ∈ gs, g.type.num = 2 ∧ g.type.ab = TYPE_A ∧ g.num_blocks = 4 ∧
        bits g.block2 4 1 = ab) →
      gs.map (fun g => bits g.block2 0 4) = List.range' i gs.length →
      (updateAll T O st gs).1.rt_ = RDSString.after cap thr L0 R s ∧
      (updateAll T O st gs).2.map (fun r => r.valuesOf "radiotext") =
        (List.range' i gs.length).map
          (fun k => (if thr ≤ 4 * k + 2 then [Value.text R] else []) ++
            (if thr ≤ 4 * k + 4 then [Value.text R] else [])) := by
  intro gs
  induction gs with
  | nil =>
    intro st pre i hpre _ hst _ _ _
    simp at hpre
    simp [updateAll, hst, hpre]
  | cons g gs ih =>
    intro st pre i hpre hlen hst hab hty hseg
    obtain ⟨h2, hA, h4, hgab⟩ := hty g (by simp)
    simp only [List.map_cons, List.length_cons, List.range'_succ, List.cons.injEq] at hseg
    obtain ⟨hg, hseg⟩ := hseg
    have hpos : g.rtPosition = (pre.length : Int) := by
      simp only [Group.rtPosition, hA, if_true, hg, hlen]; push_cast; ring
    have hs2 : s = pre ++ (bits g.block3 8 8 : Int) :: (bits g.block3 0 8 : Int)
        :: ((bits g.block4 8 8 : Int) :: (bits g.block4 0 8 : Int)
          :: gs.flatMap Group.textChars) := by
      rw [hpre]; simp [List.flatMap_cons, Group.textChars, Group.block3Chars, Group.block4Chars]
    have hs3 : s = (pre ++ [(bits g.block3 8 8 : Int), (bits g.block3 0 8 : Int)])
        ++ (bits g.block4 8 8 : Int) :: (bits g.block4 0 8 : Int)
          :: gs.flatMap Group.textChars := by
      rw [hs2]; simp
    have hs4 : s = ((pre ++ [(bits g.block3 8 8 : Int), (bits g.block3 0 8 : Int)])
        ++ [(bits g.block4 8 8 : Int), (bits g.block4 0 8 : Int)])
          ++ gs.flatMap Group.textChars := by
      rw [hs2]; simp
    have hc0 : st.rtCleared T g = RDSString.after cap thr L0 R pre := by
      unfold rtCleared
      rcases hab with h0 | hsame
      · have hnil : pre = [] := List.eq_nil_of_length_eq_zero (by omega)
        rw [hst, hnil, hclear]; simp
      · rw [hsame, hgab, hst]; simp
    have hc3 : st.rtBlock3 T g = RDSString.after cap thr L0 R
        (pre ++ [(bits g.block3 8 8 : Int), (bits g.block3 0 8 : Int)]) := by
      unfold rtBlock3
      rw [if_pos hA, hc0, hpos]
      exact RDSString.setChars_after T cap thr L0 R s pre _ _ _ hs hs2
    have hc4 : st.rtBlock4 T g = RDSString.after cap thr L0 R
        ((pre ++ [(bits g.block3 8 8 : Int), (bits g.block3 0 8 : Int)])
          ++ [(bits g.block4 8 8 : Int), (bits g.block4 0 8 : Int)]) := by
      unfold rtBlock4
      rw [if_pos h4, hc3, hpos]
      have := RDSString.setChars_after T cap thr L0 R s _ _ _ _ hs hs3
      simp only [List.length_append, List.length_cons, List.length_nil, Nat.cast_add] at this
      simpa [Group.block4Chars] using this
    obtain ⟨hrt, hrab, hval⟩ := update_type2 T O st g h2 (by omega)
    rw [hc4] at hrt
    rw [hc3, hc4, RDSString.isComplete_after T cap thr L0 R s _ _ hs hs3,
      RDSString.isComplete_after T cap thr L0 R s _ _ hs hs4] at hval
    obtain ⟨ih1, ih2⟩ := ih (update T O st g).1 _ (i + 1) hs4
      (by simp [hlen]; ring) hrt (Or.inr (by rw [hrab, hgab]))
      (fun g' hg' => hty g' (by simp [hg'])) hseg
    refine ⟨by simpa [updateAll] using ih1, ?_⟩
    simp only [updateAll, List.map_cons, List.length_cons, List.range'_succ, ih2, hval]
    congr 1
    simp only [RDSString.after, RDSString.written, List.length_append, List.length_cons,
      List.length_nil, hlen, hA, h4]
    by_cases ht : thr ≤ 4 * i + 2
    · have ht' : thr ≤ 4 * i + 4 := by omega
      simp [ht, ht', show thr ≤ 4 * i + 0 + 1 + 1 + 0 + 1 + 1 by omega]
    · by_cases ht' : thr ≤ 4 * i + 4
      · simp [ht, ht', show thr ≤ 4 * i + 0 + 1 + 1 + 0 + 1 + 1 by omega]
      · simp [ht, ht', show ¬ thr ≤ 4 * i + 0 + 1 + 1 + 0 + 1 + 1 by omega]

end Station

/-! ## Lemmas on the origin of rendered characters -/

namespace RDSString

theorem lengthExpectedFrom_le (l : List Int) (i : Nat) :
    lengthExpectedFrom l i ≤ i + l.length := by
  induction l generalizing i with
  | nil => simp [lengthExpectedFrom]
  | cons c l ih =>
    simp only [lengthExpectedFrom, List.length_cons]
    split_ifs
    · omega
    · have := ih (i + 1); omega

theorem lengthExpected_le (s : RDSString) : s.lengthExpected ≤ s.chars_.length := by
  have := lengthExpectedFrom_le s.chars_ 0
  simpa [lengthExpected] using this

theorem setAt_out_of_range (T : Tables) (s : RDSString) (pos chr : Int)
    (h : pos < 0 ∨ pos ≥ (s.chars_.length : Int)) : setAt T s pos chr = s := by
  unfold setAt; rw [if_pos h]

theorem setAt_chars (T : Tables) (s : RDSString) (pos chr : Int)
    (h : ¬ (pos < 0 ∨ pos ≥ (s.chars_.length : Int))) :
    (setAt T s pos chr).chars_ = s.chars_.set pos.toNat chr := by
  unfold setAt; rw [if_neg h]; simp only
  split_ifs <;> rfl

theorem setAt_flags (T : Tables) (s : RDSString) (pos chr : Int)
    (h : ¬ (pos < 0 ∨ pos ≥ (s.chars_.length : Int))) :
    (setAt T s pos chr).is_char_sequential_ =
      (if pos ≠ s.prev_pos_ + 1 then List.replicate s.is_char_sequential_.length false
       else s.is_char_sequential_).set pos.toNat true := by
  unfold setAt; rw [if_neg h]; simp only
  split_ifs <;> rfl

theorem setAt_last (T : Tables) (s : RDSString) (pos chr : Int)
    (h : ¬ (pos < 0 ∨ pos ≥ (s.chars_.length : Int))) :
    (setAt T s pos chr).last_complete_string_ =
      if (decide ((setAt T s pos chr).lengthReceived ≥ (setAt T s pos chr).lengthExpected)) = true
      then String.join ((setAt T s pos chr).getStringCells T) else s.last_complete_string_ := by
  unfold setAt; rw [if_neg h]; simp only
  split_ifs <;> simp_all [isComplete, lengthReceived, lengthExpected, getString, getStringCells]
    <;> omega

theorem setAt_prev (T : Tables) (s : RDSString) (pos chr : Int)
    (h : ¬ (pos < 0 ∨ pos ≥ (s.chars_.length : Int))) :
    (setAt T s pos chr).prev_pos_ = pos := by
  unfold setAt; rw [if_neg h]

end RDSString

theorem FlagsFrom.of_subset {W W2 : List (Int × Int)} {chars : List Int} {flags : List Bool}
    (h : FlagsFrom W chars flags) (hsub : ∀ e ∈ W, e ∈ W2) : FlagsFrom W2 chars flags := by
  intro i hi hf
  obtain ⟨c, hc, hv⟩ := h i hi hf
  exact ⟨c, hsub _ hc, hv⟩

theorem CellsFrom.cells_of_subset {T : Tables} {W W2 : List (Int × Int)} {cells : List String}
    (h : CellsFrom T W cells) (hsub : ∀ e ∈ W, e ∈ W2) : CellsFrom T W2 cells := by
  intro i hi hne
  obtain ⟨c, hc, hv⟩ := h i hi hne
  exact ⟨c, hsub _ hc, hv⟩

theorem RenderedFrom.rendered_of_subset {T : Tables} {W W2 : List (Int × Int)} {str : String}
    (h : RenderedFrom T W str) (hsub : ∀ e ∈ W, e ∈ W2) : RenderedFrom T W2 str := by
  obtain ⟨cells, h1, h2⟩ := h
  exact ⟨cells, h1, h2.cells_of_subset hsub⟩

namespace RDSString

theorem cellsFrom_getStringCells (T : Tables) (W : List (Int × Int)) (s : RDSString)
    (h : FlagsFrom W s.chars_ s.is_char_sequential_) : CellsFrom T W (s.getStringCells T) := by
  intro i hi hne
  have hi2 : i < s.lengthExpected := by simpa [getStringCells] using hi
  have hi3 : i < s.chars_.length := lt_of_lt_of_le hi2 (lengthExpected_le s)
  simp only [getStringCells, List.get_eq_getElem, List.getElem_map, List.getElem_range] at hne ⊢
  by_cases hf : s.is_char_sequential_.getD i false = true
  · obtain ⟨c, hc, hv⟩ := h i hi3 hf
    exact ⟨c, hc, by rw [if_pos hf, hv]⟩
  · rw [if_neg hf] at hne
    exact absurd rfl hne

theorem renderedFrom_getString (T : Tables) (W : List (Int × Int)) (s : RDSString)
    (h : FlagsFrom W s.chars_ s.is_char_sequential_) : RenderedFrom T W (s.getString T) :=
  ⟨s.getStringCells T, rfl, cellsFrom_getStringCells T W s h⟩

theorem clear_from (T : Tables) (s : RDSString) :
    FlagsFrom [] (clear T s).chars_ (clear T s).is_char_sequential_ ∧
      RenderedFrom T [] (clear T s).last_complete_string_ := by
  have hF : FlagsFrom [] (clear T s).chars_ (clear T s).is_char_sequential_ := by
    intro i hi hf
    exfalso
    simp only [clear] at hi hf
    rw [List.getD_eq_getElem?_getD] at hf
    by_cases hlt : i < s.is_char_sequential_.length
    · rw [List.getElem?_append_left (by simp; omega), List.getElem?_replicate] at hf
      split_ifs at hf <;> simp at hf
    · rw [List.getElem?_eq_none (by simp; omega)] at hf
      simp at hf
  exact ⟨hF, renderedFrom_getString T [] _ hF⟩

theorem setAt_from (T : Tables) (W : List (Int × Int)) (s : RDSString) (pos chr : Int)
    (hF : FlagsFrom W s.chars_ s.is_char_sequential_)
    (hL : RenderedFrom T W s.last_complete_string_) :
    FlagsFrom (W ++ [(pos, chr)]) (setAt T s pos chr).chars_
        (setAt T s pos chr).is_char_sequential_ ∧
      RenderedFrom T (W ++ [(pos, chr)]) (setAt T s pos chr).last_complete_string_ := by
  by_cases hg : pos < 0 ∨ pos ≥ (s.chars_.length : Int)
  · rw [setAt_out_of_range T s pos chr hg]
    exact ⟨hF.of_subset (fun e he => by simp [he]), hL.rendered_of_subset (fun e he => by simp [he])⟩
  · have hF2 : FlagsFrom (W ++ [(pos, chr)]) (setAt T s pos chr).chars_
        (setAt T s pos chr).is_char_sequential_ := by
      rw [setAt_chars T s pos chr hg, setAt_flags T s pos chr hg]
      have hp : ((pos.toNat : Nat) : Int) = pos := Int.toNat_of_nonneg (by omega)
      have hplt : pos.toNat < s.chars_.length := by omega
      intro i hi hf
      by_cases hip : i = pos.toNat
      · subst hip
        refine ⟨chr, by simp [hp], ?_⟩
        simp [List.getD_eq_getElem?_getD, List.getElem?_set, hplt]
      · rw [List.getD_eq_getElem?_getD, List.getElem?_set_ne (Ne.symm hip)] at hf
        have hi2 : i < s.chars_.length := by simpa using hi
        split_ifs at hf with hc
        · rw [List.getElem?_replicate] at hf
          split_ifs at hf <;> simp at hf
        · rw [← List.getD_eq_getElem?_getD] at hf
          obtain ⟨c, hc1, hc2⟩ := hF i hi2 hf
          refine ⟨c, by simp [hc1], ?_⟩
          rw [List.getD_eq_getElem?_getD, List.getElem?_set_ne (Ne.symm hip),
            ← List.getD_eq_getElem?_getD]
          exact hc2
    refine ⟨hF2, ?_⟩
    rw [setAt_last T s pos chr hg]
    split_ifs
    · exact ⟨_, rfl, cellsFrom_getStringCells T _ _ hF2⟩
    · exact hL.rendered_of_subset (fun e he => by simp [he])

theorem setChars_from (T : Tables) (W : List (Int × Int)) (s : RDSString) (pos a b : Int)
    (hF : FlagsFrom W s.chars_ s.is_char_sequential_)
    (hL : RenderedFrom T W s.last_complete_string_) :
    FlagsFrom (W ++ [(pos, a), (pos + 1, b)]) (setChars T s pos [a, b]).chars_
        (setChars T s pos [a, b]).is_char_sequential_ ∧
      RenderedFrom T (W ++ [(pos, a), (pos + 1, b)])
        (setChars T s pos [a, b]).last_complete_string_ := by
  obtain ⟨h1, h2⟩ := setAt_from T W s pos a hF hL
  have := setAt_from T _ _ (pos + 1) b h1 h2
  simpa [setChars] using this

end RDSString

/-! ## Lemmas on alternative frequencies -/

theorem bits_eq (x s l : Nat) : bits x s l = x / 2 ^ s % 2 ^ l % 65536 := by
  unfold bits
  rw [Nat.shiftRight_eq_div_pow, Nat.one_shiftLeft, Nat.and_pow_two_sub_one_eq_mod]

theorem bits_hi (a b : Nat) (ha : a < 256) (hb : b < 256) : bits (a * 256 + b) 8 8 = a := by
  rw [bits_eq]; norm_num; omega

theorem bits_lo (a b : Nat) (hb : b < 256) : bits (a * 256 + b) 0 8 = b := by
  rw [bits_eq]; norm_num; omega

theorem afFreq_lt_iff (a b : Nat) : afFreq a < afFreq b ↔ a < b := by
  unfold afFreq
  constructor
  · intro h
    have h2 : (a : ℚ) < b := by linarith
    exact_mod_cast h2
  · intro h
    have h2 : (a : ℚ) < b := by exact_mod_cast h
    linarith

theorem afFreq_injective : Function.Injective afFreq := by
  intro a b h
  unfold afFreq at h
  have h2 : (a : ℚ) = b := by linarith
  exact_mod_cast h2

theorem mem_setInsert (x y : ℚ) (l : List ℚ) : y ∈ setInsert x l ↔ y = x ∨ y ∈ l := by
  induction l with
  | nil => simp [setInsert]
  | cons z l ih =>
    simp only [setInsert]
    split_ifs with h1 h2
    · simp
    · simp [ih]; tauto
    · have hxz : x = z := le_antisymm (not_lt.mp h2) (not_lt.mp h1)
      simp [hxz]

theorem setInsert_pairwise (x : ℚ) (l : List ℚ) (h : l.Pairwise (· < ·)) :
    (setInsert x l).Pairwise (· < ·) := by
  induction l with
  | nil => simp [setInsert]
  | cons z l ih =>
    rw [List.pairwise_cons] at h
    simp only [setInsert]
    split_ifs with h1 h2
    · rw [List.pairwise_cons]
      refine ⟨fun y hy => ?_, List.pairwise_cons.mpr h⟩
      rcases List.mem_cons.mp hy with hy | hy
      · rw [hy]; exact h1
      · exact lt_trans h1 (h.1 y hy)
    · rw [List.pairwise_cons]
      refine ⟨fun y hy => ?_, ih h.2⟩
      rcases (mem_setInsert x y l).mp hy with hy | hy
      · rw [hy]; exact h2
      · exact h.1 y hy
    · exact List.pairwise_cons.mpr h

theorem setInsert_perm (x : ℚ) (l : List ℚ) (h : x ∉ l) : (setInsert x l).Perm (x :: l) := by
  induction l with
  | nil => simp [setInsert]
  | cons z l ih =>
    have hz : x ≠ z := fun e => h (by simp [e])
    have hl : x ∉ l := fun e => h (by simp [e])
    simp only [setInsert]
    split_ifs with h1 h2
    · exact List.Perm.refl _
    · exact ((ih hl).cons z).trans (List.Perm.swap x z l)
    · exact absurd (le_antisymm (not_lt.mp h2) (not_lt.mp h1)) hz

namespace Station

variable {M : Type}

theorem addAltFreq_alt_freqs (st : Station M) (c : Nat) :
    (addAltFreq st c).alt_freqs_ = afSet st.alt_freqs_ c := by
  unfold addAltFreq afSet afFreq
  simp only
  split_ifs <;> rfl

theorem addAltFreq_num (st : Station M) (c : Nat) :
    (addAltFreq st c).num_alt_freqs_ = afNum st.num_alt_freqs_ c := by
  unfold addAltFreq afNum
  simp only
  split_ifs <;> first | rfl | omega

theorem updatePS_alt_freqs (T : Tables) (st : Station M) (pos : Int) (chars : List Int) :
    (updatePS T st pos chars).1.alt_freqs_ = st.alt_freqs_ ∧
      (updatePS T st pos chars).1.num_alt_freqs_ = st.num_alt_freqs_ ∧
      (updatePS T st pos chars).2.valuesOf "alt_freqs" = [] := by
  unfold updatePS
  simp only
  split_ifs <;> simp [Record.valuesOf_cons, Record.valuesOf_nil]

/-- What `decodeType0` does to the alternative frequencies for a type-0A group of at least
three blocks. -/
theorem decodeType0_af (T : Tables) (st : Station M) (g : Group)
    (hA : g.type.ab = TYPE_A) (h3 : 3 ≤ g.num_blocks) :
    (decodeType0 T st g).1.alt_freqs_ =
        (if ((afSet (afSet st.alt_freqs_ (bits g.block3 8 8)) (bits g.block3 0 8)).length : Int)
            = afNum (afNum st.num_alt_freqs_ (bits g.block3 8 8)) (bits g.block3 0 8)
         then [] else afSet (afSet st.alt_freqs_ (bits g.block3 8 8)) (bits g.block3 0 8)) ∧
      (decodeType0 T st g).1.num_alt_freqs_ =
        afNum (afNum st.num_alt_freqs_ (bits g.block3 8 8)) (bits g.block3 0 8) ∧
      (decodeType0 T st g).2.valuesOf "alt_freqs" =
        (if ((afSet (afSet st.alt_freqs_ (bits g.block3 8 8)) (bits g.block3 0 8)).length : Int)
            = afNum (afNum st.num_alt_freqs_ (bits g.block3 8 8)) (bits g.block3 0 8)
         then [Value.freqs (afSet (afSet st.alt_freqs_ (bits g.block3 8 8)) (bits g.block3 0 8))]
         else []) := by
  have h3b : ¬ g.num_blocks < 3 := by omega
  unfold decodeType0
  simp only [h3b, if_false, hA, if_true, addAltFreq_alt_freqs, addAltFreq_num]
  by_cases hemit : ((afSet (afSet st.alt_freqs_ (bits g.block3 8 8)) (bits g.block3 0 8)).length
      : Int) = afNum (afNum st.num_alt_freqs_ (bits g.block3 8 8)) (bits g.block3 0 8) <;>
    by_cases h4 : g.num_blocks < 4 <;>
    simp [hemit, h4, Record.valuesOf_append, Record.valuesOf_cons, Record.valuesOf_nil,
      updatePS_alt_freqs, addAltFreq_alt_freqs, addAltFreq_num]

/-- What `update` does to the alternative frequencies for a type-0A group of at least three
blocks. -/
theorem update_type0_af (T : Tables) (O : OdaMap M) (st : Station M) (g : Group)
    (h0 : g.type.num = 0) (hA : g.type.ab = TYPE_A) (h3 : 3 ≤ g.num_blocks) :
    (update T O st g).1.alt_freqs_ =
        (if ((afSet (afSet st.alt_freqs_ (bits g.block3 8 8)) (bits g.block3 0 8)).length : Int)
            = afNum (afNum st.num_alt_freqs_ (bits g.block3 8 8)) (bits g.block3 0 8)
         then [] else afSet (afSet st.alt_freqs_ (bits g.block3 8 8)) (bits g.block3 0 8)) ∧
      (update T O st g).1.num_alt_freqs_ =
        afNum (afNum st.num_alt_freqs_ (bits g.block3 8 8)) (bits g.block3 0 8) ∧
      (update T O st g).2.valuesOf "alt_freqs" =
        (if ((afSet (afSet st.alt_freqs_ (bits g.block3 8 8)) (bits g.block3 0 8)).length : Int)
            = afNum (afNum st.num_alt_freqs_ (bits g.block3 8 8)) (bits g.block3 0 8)
         then [Value.freqs (afSet (afSet st.alt_freqs_ (bits g.block3 8 8)) (bits g.block3 0 8))]
         else []) := by
  obtain ⟨h1, h2, h3'⟩ := decodeType0_af T (st.withProgramme g) g hA h3
  rw [update_num0 T O st g h0]
  refine ⟨h1, h2, ?_⟩
  rw [Record.valuesOf_append, valuesOf_recordHead T st g "alt_freqs" (by decide), h3']
  rfl

theorem afSet_freq (S : List ℚ) (c : Nat) (h1 : 1 ≤ c) (h2 : c ≤ 204) :
    afSet S c = setInsert (afFreq c) S := by
  have hc : c % 256 = c := by omega
  unfold afSet
  rw [hc, if_pos ⟨h1, h2⟩]

theorem afSet_other (S : List ℚ) (c : Nat) (h1 : 205 ≤ c) (h2 : c < 256) : afSet S c = S := by
  have hc : c % 256 = c := by omega
  unfold afSet
  rw [hc, if_neg (by omega)]

theorem afNum_keep (n : Int) (c : Nat) (h2 : c ≤ 205) : afNum n c = n := by
  have hc : c % 256 = c := by omega
  unfold afNum
  rw [hc, if_neg (by omega)]

theorem afNum_count (n : Int) (c : Nat) (h1 : 225 ≤ c) (h2 : c ≤ 249) :
    afNum n c = (c : Int) - 224 := by
  have hc : c % 256 = c := by omega
  unfold afNum
  rw [hc, if_pos ⟨h1, h2⟩]

/-- Inserting the frequency of a new code into a set that holds the frequencies of `done`. -/
theorem setInsert_afFreq (S : List ℚ) (done : List Nat) (a : Nat)
    (hS : S.Pairwise (· < ·)) (hP : S.Perm (done.map afFreq)) (ha : a ∉ done) :
    (setInsert (afFreq a) S).Pairwise (· < ·) ∧
      (setInsert (afFreq a) S).Perm ((done ++ [a]).map afFreq) := by
  have hnot : afFreq a ∉ S := by
    intro hmem
    have := hP.mem_iff.mp hmem
    obtain ⟨d, hd, hde⟩ := List.mem_map.mp this
    exact ha (afFreq_injective hde ▸ hd)
  refine ⟨setInsert_pairwise _ _ hS, ?_⟩
  have h1 := setInsert_perm (afFreq a) S hnot
  have h2 : (afFreq a :: S).Perm (afFreq a :: done.map afFreq) := hP.cons _
  have h3 : (afFreq a :: done.map afFreq).Perm ((done ++ [a]).map afFreq) := by
    rw [List.map_append]
    exact @List.perm_append_comm _ [afFreq a] (done.map afFreq)
  exact (h1.trans h2).trans h3

theorem packAF_ne_nil (l : List Nat) (h : l ≠ []) : packAF l ≠ [] := by
  match l, h with
  | [a], _ => simp [packAF]
  | a :: b :: r, _ => simp [packAF]

/-- Type-0A groups that carry the codes `rest` after the codes `done` were received: the
list is printed once, in the record of the last group. -/
theorem updateAll_af_rest (T : Tables) (O : OdaMap M) :
    ∀ (n : Nat) (rest : List Nat) (gs : List Group) (st : Station M) (done : List Nat),
      rest.length ≤ n → rest ≠ [] →
      st.alt_freqs_.Pairwise (· < ·) → st.alt_freqs_.Perm (done.map afFreq) →
      (done ++ rest).Nodup → (∀ f ∈ rest, 1 ≤ f ∧ f ≤ 204) →
      st.num_alt_freqs_ = ((done ++ rest).length : Int) →
      (∀ g ∈ gs, g.type.num = 0 ∧ g.type.ab = TYPE_A ∧ 3 ≤ g.num_blocks) →
      gs.map (fun g => g.block3) = packAF rest →
      ∃ l, (updateAll T O st gs).2.map (fun r => r.valuesOf "alt_freqs") =
          List.replicate (gs.length - 1) [] ++ [[Value.freqs l]] ∧
        l.Pairwise (· < ·) ∧ l.Perm ((done ++ rest).map afFreq) ∧
        (updateAll T O st gs).1.alt_freqs_ = [] := by
  intro n
  induction n with
  | zero =>
    intro rest gs st done hlen hne
    exact absurd (List.eq_nil_of_length_eq_zero (by omega)) hne
  | succ n ih =>
    intro rest gs st done hlen hne hS hP hnd hr hnum hty hb3
    match rest, hne with
    | [a], _ =>
      obtain ⟨g, hg⟩ : ∃ g, gs = [g] := by
        rcases gs with _ | ⟨g, _ | ⟨g2, gs3⟩⟩
        · simp [packAF] at hb3
        · exact ⟨g, rfl⟩
        · simp [packAF] at hb3
      subst hg
      simp only [packAF, List.map_cons, List.map_nil, List.cons.injEq, and_true] at hb3
      obtain ⟨h0, hA, h3⟩ := hty g (by simp)
      obtain ⟨ha1, ha2⟩ := hr a (by simp)
      have hnot : a ∉ done := by
        have := List.nodup_append.mp hnd
        exact fun h => this.2.2 h (by simp)
      obtain ⟨hU1, -, hU3⟩ := update_type0_af T O st g h0 hA h3
      simp only [hb3, bits_hi a 205 (by omega) (by omega), bits_lo a 205 (by omega),
        afSet_freq _ a ha1 ha2, afSet_other _ 205 (by omega) (by omega),
        afNum_keep _ a (by omega), afNum_keep _ 205 (by omega)] at hU1 hU3
      obtain ⟨hS2, hP2⟩ := setInsert_afFreq st.alt_freqs_ done a hS hP hnot
      have hemit : ((setInsert (afFreq a) st.alt_freqs_).length : Int) = st.num_alt_freqs_ := by
        rw [hnum, hP2.length_eq]; simp
      rw [if_pos hemit] at hU1 hU3
      exact ⟨_, by simp [updateAll, hU3], hS2, hP2, by simp [updateAll, hU1]⟩
    | a :: b :: rest2, _ =>
      obtain ⟨g, gs2, hg⟩ : ∃ g gs2, gs = g :: gs2 := by
        rcases gs with _ | ⟨g, gs2⟩
        · simp [packAF] at hb3
        · exact ⟨g, gs2, rfl⟩
      subst hg
      simp only [packAF, List.map_cons, List.cons.injEq] at hb3
      obtain ⟨hb3, hb3rest⟩ := hb3
      obtain ⟨h0, hA, h3⟩ := hty g (by simp)
      obtain ⟨ha1, ha2⟩ := hr a (by simp)
      obtain ⟨hb1, hb2⟩ := hr b (by simp)
      have hnd2 := List.nodup_append.mp hnd
      have hnota : a ∉ done := fun h => hnd2.2.2 h (by simp)
      have hnotb : b ∉ done ++ [a] := by
        intro h
        rcases List.mem_append.mp h with h | h
        · exact hnd2.2.2 h (by simp)
        · have hab : b = a := by simpa using h
          have := (List.nodup_cons.mp hnd2.2.1).1
          exact this (by simp [hab])
      obtain ⟨hU1, hU2, hU3⟩ := update_type0_af T O st g h0 hA h3
      simp only [hb3, bits_hi a b (by omega) (by omega), bits_lo a b (by omega),
        afSet_freq _ a ha1 ha2, afSet_freq _ b hb1 hb2,
        afNum_keep _ a (by omega), afNum_keep _ b (by omega)] at hU1 hU2 hU3
      obtain ⟨hS1, hP1⟩ := setInsert_afFreq st.alt_freqs_ done a hS hP hnota
      obtain ⟨hS2, hP2⟩ := setInsert_afFreq _ (done ++ [a]) b hS1 hP1 hnotb
      have hlen2 : ((setInsert (afFreq b) (setInsert (afFreq a) st.alt_freqs_)).length : Int)
          = (done.length : Int) + 2 := by
        rw [hP2.length_eq]; simp
      have hdone : done ++ [a] ++ [b] ++ rest2 = done ++ a :: b :: rest2 := by simp
      by_cases hrest : rest2 = []
      · subst hrest
        have hgs2 : gs2 = [] := by simpa [packAF] using hb3rest
        subst hgs2
        have hemit : ((setInsert (afFreq b) (setInsert (afFreq a) st.alt_freqs_)).length : Int)
            = st.num_alt_freqs_ := by
          rw [hlen2, hnum]; simp
        rw [if_pos hemit] at hU1 hU3
        refine ⟨_, by simp [updateAll, hU3], hS2, ?_, by simp [updateAll, hU1]⟩
        simpa using hP2
      · have hno : ¬ ((setInsert (afFreq b) (setInsert (afFreq a) st.alt_freqs_)).length : Int)
            = st.num_alt_freqs_ := by
          rw [hlen2, hnum]
          have : 0 < rest2.length := List.length_pos.mpr hrest
          simp; omega
        rw [if_neg hno] at hU1 hU3
        obtain ⟨l, hl1, hl2, hl3, hl4⟩ := ih rest2 gs2 (update T O st g).1 (done ++ [a] ++ [b])
          (by simp at hlen; omega) hrest (by rw [hU1]; exact hS2) (by rw [hU1]; exact hP2)
          (by rw [hdone]; exact hnd) (fun f hf => hr f (by simp [hf]))
          (by rw [hU2, hnum, hdone]) (fun g' hg' => hty g' (by simp [hg'])) hb3rest
        have hgs2 : gs2 ≠ [] := by
          intro h
          rw [h] at hb3rest
          exact packAF_ne_nil rest2 hrest hb3rest.symm
        obtain ⟨k, hk⟩ : ∃ k, gs2.length = k + 1 :=
          ⟨gs2.length - 1, by have := List.length_pos.mpr hgs2; omega⟩
        refine ⟨l, ?_, hl2, by rw [← hdone]; exact hl3, by simpa [updateAll] using hl4⟩
        simp only [updateAll, List.map_cons, hU3, hl1, List.length_cons, hk]
        simp [List.replicate_succ]

/-- Type-0A groups that carry the header code `224 + n` and then `n` distinct codes, sent
to a station whose set is empty: the list is printed once, in the record of the last
group. -/
theorem updateAll_af (T : Tables) (O : OdaMap M) (st : Station M) (fs : List Nat)
    (gs : List Group) (hst : st.alt_freqs_ = [])
    (hn1 : 1 ≤ fs.length) (hn : fs.length ≤ 25) (hnd : fs.Nodup)
    (hr : ∀ f ∈ fs, 1 ≤ f ∧ f ≤ 204)
    (hty : ∀ g ∈ gs, g.type.num = 0 ∧ g.type.ab = TYPE_A ∧ 3 ≤ g.num_blocks)
    (hb3 : gs.map (fun g => g.block3) = packAF ((224 + fs.length) :: fs)) :
    ∃ l, (updateAll T O st gs).2.map (fun r => r.valuesOf "alt_freqs") =
        List.replicate (gs.length - 1) [] ++ [[Value.freqs l]] ∧
      l.Pairwise (· < ·) ∧ l.Perm (fs.map afFreq) ∧
      (updateAll T O st gs).1.alt_freqs_ = [] := by
  rcases fs with _ | ⟨f1, fs2⟩
  · simp at hn1
  rcases gs with _ | ⟨g, gs2⟩
  · simp [packAF] at hb3
  simp only [packAF, List.map_cons, List.cons.injEq] at hb3
  obtain ⟨hb3, hb3rest⟩ := hb3
  obtain ⟨h0, hA, h3⟩ := hty g (by simp)
  obtain ⟨hf1, hf2⟩ := hr f1 (by simp)
  simp only [List.length_cons] at hn hb3
  obtain ⟨hU1, hU2, hU3⟩ := update_type0_af T O st g h0 hA h3
  simp only [hb3, hst, bits_hi _ f1 (show 224 + (fs2.length + 1) < 256 by omega) (by omega),
    bits_lo _ f1 (show f1 < 256 by omega),
    afSet_other _ _ (show 205 ≤ 224 + (fs2.length + 1) by omega)
      (show 224 + (fs2.length + 1) < 256 by omega),
    afSet_freq _ f1 hf1 hf2, afNum_keep _ f1 (by omega),
    afNum_count _ _ (show 225 ≤ 224 + (fs2.length + 1) by omega)
      (show 224 + (fs2.length + 1) ≤ 249 by omega)] at hU1 hU2 hU3
  have hnumv : (((224 + (fs2.length + 1) : Nat) : Int) - 224) = (fs2.length : Int) + 1 := by
    push_cast; ring
  rw [hnumv] at hU1 hU2 hU3
  simp only [setInsert, List.length_singleton, Nat.cast_one] at hU1 hU3
  by_cases hrest : fs2 = []
  · subst hrest
    have hgs2 : gs2 = [] := by simpa [packAF] using hb3rest
    subst hgs2
    simp only [List.length_nil, Nat.cast_zero, zero_add, if_true] at hU1 hU3
    exact ⟨[afFreq f1], by simp [updateAll, hU3], by simp, by simp, by simp [updateAll, hU1]⟩
  · have hpos : 0 < fs2.length := List.length_pos.mpr hrest
    have hno : ¬ (1 : Int) = (fs2.length : Int) + 1 := by omega
    rw [if_neg hno] at hU1 hU3
    obtain ⟨l, hl1, hl2, hl3, hl4⟩ := updateAll_af_rest T O fs2.length fs2 gs2
      (update T O st g).1 [f1] (le_refl _) hrest (by rw [hU1]; simp) (by rw [hU1]; simp)
      (by simpa using hnd) (fun f hf => hr f (by simp [hf]))
      (by rw [hU2]; simp) (fun g' hg' => hty g' (by simp [hg'])) hb3rest
    have hgs2 : gs2 ≠ [] := by
      intro h
      rw [h] at hb3rest
      exact packAF_ne_nil fs2 hrest hb3rest.symm
    obtain ⟨k, hk⟩ : ∃ k, gs2.length = k + 1 :=
      ⟨gs2.length - 1, by have := List.length_pos.mpr hgs2; omega⟩
    refine ⟨l, ?_, hl2, by simpa using hl3, by simpa [updateAll] using hl4⟩
    simp only [updateAll, List.map_cons, hU3, hl1, List.length_cons, hk]
    simp [List.replicate_succ]

/-- Two type-0A groups whose block 3 carries the codes `225, a` and `b, 205`: each record
holds a list of one frequency. -/
theorem updateAll_af_225 (T : Tables) (O : OdaMap M) (st : Station M) (g1 g2 : Group)
    (a b : Nat) (hst : st.alt_freqs_ = []) (ha : 1 ≤ a ∧ a ≤ 204) (hb : 1 ≤ b ∧ b ≤ 204)
    (hty : ∀ g ∈ [g1, g2], g.type.num = 0 ∧ g.type.ab = TYPE_A ∧ 3 ≤ g.num_blocks)
    (h1 : g1.block3 = 225 * 256 + a) (h2 : g2.block3 = b * 256 + 205) :
    (updateAll T O st [g1, g2]).2.map (fun r => r.valuesOf "alt_freqs") =
      [[Value.freqs [afFreq a]], [Value.freqs [afFreq b]]] := by
  obtain ⟨h10, h1A, h13⟩ := hty g1 (by simp)
  obtain ⟨h20, h2A, h23⟩ := hty g2 (by simp)
  obtain ⟨hU1, hU2, hU3⟩ := update_type0_af T O st g1 h10 h1A h13
  simp only [h1, hst, bits_hi 225 a (by omega) (by omega), bits_lo 225 a (by omega),
    afSet_other _ 225 (by omega) (by omega), afSet_freq _ a ha.1 ha.2,
    afNum_keep _ a (by omega), afNum_count _ 225 (by omega) (by omega)] at hU1 hU2 hU3
  simp [setInsert] at hU1 hU2 hU3
  obtain ⟨hV1, -, hV3⟩ := update_type0_af T O (update T O st g1).1 g2 h20 h2A h23
  simp only [h2, hU1, hU2, bits_hi b 205 (by omega) (by omega), bits_lo b 205 (by omega),
    afSet_other _ 205 (by omega) (by omega), afSet_freq _ b hb.1 hb.2,
    afNum_keep _ b (by omega), afNum_keep _ 205 (by omega)] at hV1 hV3
  simp [setInsert] at hV1 hV3
  simp [updateAll, hU3, hV3]

/-- Two type-0A groups whose block 3 carries the codes `226, a` and `b, 205`: the second
record holds the two frequencies in ascending order. -/
theorem updateAll_af_226 (T : Tables) (O : OdaMap M) (st : Station M) (g1 g2 : Group)
    (a b : Nat) (hst : st.alt_freqs_ = []) (ha : 1 ≤ a ∧ a ≤ 204) (hb : 1 ≤ b ∧ b ≤ 204)
    (hab : a ≠ b)
    (hty : ∀ g ∈ [g1, g2], g.type.num = 0 ∧ g.type.ab = TYPE_A ∧ 3 ≤ g.num_blocks)
    (h1 : g1.block3 = 226 * 256 + a) (h2 : g2.block3 = b * 256 + 205) :
    (updateAll T O st [g1, g2]).2.map (fun r => r.valuesOf "alt_freqs") =
      [[], [Value.freqs [afFreq (min a b), afFreq (max a b)]]] := by
  obtain ⟨h10, h1A, h13⟩ := hty g1 (by simp)
  obtain ⟨h20, h2A, h23⟩ := hty g2 (by simp)
  obtain ⟨hU1, hU2, hU3⟩ := update_type0_af T O st g1 h10 h1A h13
  simp only [h1, hst, bits_hi 226 a (by omega) (by omega), bits_lo 226 a (by omega),
    afSet_other _ 226 (by omega) (by omega), afSet_freq _ a ha.1 ha.2,
    afNum_keep _ a (by omega), afNum_count _ 226 (by omega) (by omega)] at hU1 hU2 hU3
  simp [setInsert] at hU1 hU2 hU3
  obtain ⟨hV1, -, hV3⟩ := update_type0_af T O (update T O st g1).1 g2 h20 h2A h23
  simp only [h2, hU1, hU2, bits_hi b 205 (by omega) (by omega), bits_lo b 205 (by omega),
    afSet_other _ 205 (by omega) (by omega), afSet_freq _ b hb.1 hb.2,
    afNum_keep _ b (by omega), afNum_keep _ 205 (by omega)] at hV1 hV3
  rcases Nat.lt_or_gt_of_ne hab with hlt | hgt
  · have hf : ¬ afFreq b < afFreq a := by rw [afFreq_lt_iff]; omega
    have hf2 : afFreq a < afFreq b := by rw [afFreq_lt_iff]; omega
    simp [setInsert, hf, hf2] at hV3
    simp [updateAll, hU3, hV3, min_eq_left hlt.le, max_eq_right hlt.le]
  · have hf : afFreq b < afFreq a := by rw [afFreq_lt_iff]; omega
    simp [setInsert, hf] at hV3
    simp [updateAll, hU3, hV3, min_eq_right hgt.le, max_eq_left hgt.le]

end Station

/-! ## Lemmas on the clock time -/

theorem cInt_intCast (n : Int) : cInt (n : ℚ) = n := by
  unfold cInt
  split_ifs <;> simp

theorem cInt_natCast (n : Nat) : cInt (n : ℚ) = n := by
  have := cInt_intCast (n : Int)
  simpa using this

theorem cInt_add_frac (n : Int) (r : ℚ) (hn : 0 ≤ n) (h0 : 0 ≤ r) (h1 : r < 1) :
    cInt ((n : ℚ) + r) = n := by
  have hn' : (0 : ℚ) ≤ (n : ℚ) := by exact_mod_cast hn
  unfold cInt
  rw [if_pos (by linarith), Int.floor_eq_iff]
  constructor <;> linarith

theorem decPadPlus_nonneg (x : Int) (hx : 0 ≤ x) : decPadPlus 3 x = "+" ++ decPad 2 x := by
  unfold decPadPlus decPad
  simp only [if_neg (not_lt.mpr hx)]
  rfl

namespace Station

variable {M : Type}

/-- What `update` prints for a type-4A group of four blocks whose local time offset is a
non-negative number `k` of whole hours. -/
theorem update_type4_whole_hours (T : Tables) (O : OdaMap M) (st : Station M) (g : Group)
    (k : Nat) (h4 : g.type.num = 4) (hA : g.type.ab = TYPE_A) (hnb : g.num_blocks = 4)
    (hsign : bits g.block4 5 1 = 0) (hk : bits g.block4 0 5 = 2 * k) :
    (update T O st g).2.valuesOf "clock_time" =
      [Value.text (dateString (calendarDate g.mjd) ++ "T" ++
        decPad 2 (Int.tmod
          (((bits g.block3 0 1 <<< 4) + bits g.block4 12 14 : Nat) + (k : Int)) 24) ++ ":" ++
        decPad 2 (bits g.block4 6 6 : Int) ++ ":00" ++ "+" ++ decPad 2 (k : Int) ++ ":00")] := by
  have hk24 : k < 16 := by
    have : bits g.block4 0 5 < 32 := by rw [bits_eq]; omega
    omega
  have hB : ¬ (g.num_blocks < 3 ∨ g.type.ab = TYPE_B) := by
    rw [hA, hnb]; decide
  have hlto : ((((if bits g.block4 5 1 ≠ 0 then -1 else 1) * (bits g.block4 0 5 : Int) : Int)
      : ℚ) / 2.0) = (k : ℚ) := by
    rw [hsign, hk]; norm_num
  have hmjd0 : (0 : Int) ≤ g.mjd := by unfold Group.mjd; omega
  have hmjd : cInt (((g.mjd : Int) : ℚ) + (k : ℚ) / 24.0) = g.mjd := by
    apply cInt_add_frac _ _ hmjd0
    · have : (0 : ℚ) ≤ (k : ℚ) := Nat.cast_nonneg k
      norm_num; linarith
    · have : (k : ℚ) < 16 := by exact_mod_cast hk24
      norm_num; linarith
  have hhr : cInt ((((bits g.block3 0 1 <<< 4) + bits g.block4 12 14 : Nat) : ℚ) + (k : ℚ))
      = (((bits g.block3 0 1 <<< 4) + bits g.block4 12 14 : Nat) : Int) + (k : Int) := by
    have := cInt_intCast ((((bits g.block3 0 1 <<< 4) + bits g.block4 12 14 : Nat) : Int)
      + (k : Int))
    push_cast at this ⊢
    exact this
  rw [update_num4 T O st g h4, Record.valuesOf_append,
    valuesOf_recordHead T st g "clock_time" (by decide)]
  unfold decodeType4
  rw [if_neg hB]
  simp only [hnb, if_true]
  have e : (((bits g.block2 0 2 <<< 15 : Nat) : Int) + (bits g.block3 1 15 : Int)) = g.mjd := rfl
  rw [e, hlto, hmjd, hhr, cInt_natCast]
  simp only [Int.cast_natCast, sub_self, zero_mul]
  have hz : cInt 0 = 0 := by simpa using cInt_intCast 0
  rw [hz, decPadPlus_nonneg _ (Int.natCast_nonneg k)]
  simp only [Record.valuesOf_cons, Record.valuesOf_nil, if_true, List.nil_append,
    List.append_nil, add_zero, dateString]
  have h00 : decPad 2 0 = "00" := by decide
  rw [h00]
  simp only [String.append_assoc]
  rfl

end Station

/-! ## Lemmas on the calendar conversion -/

theorem cInt_int_div_nat (a : Int) (b : Nat) (hb : 0 < b) :
    cInt ((a : ℚ) / (b : ℚ)) = Int.tdiv a b := by
  have hbq : (0 : ℚ) < (b : ℚ) := by exact_mod_cast hb
  unfold cInt
  by_cases ha : 0 ≤ a
  · have haq : (0 : ℚ) ≤ (a : ℚ) := by exact_mod_cast ha
    rw [if_pos (div_nonneg haq hbq.le), Rat.floor_intCast_div_natCast,
      Int.tdiv_eq_ediv ha (Int.natCast_nonneg b)]
  · have haq : (a : ℚ) < 0 := by exact_mod_cast (not_le.mp ha)
    rw [if_neg (not_le.mpr (div_neg_of_neg_of_pos haq hbq))]
    have h1 : (a : ℚ) / (b : ℚ) = -(((-a : Int) : ℚ) / (b : ℚ)) := by
      push_cast; ring
    rw [h1, Int.ceil_neg, Rat.floor_intCast_div_natCast,
      ← Int.tdiv_eq_ediv (by omega) (Int.natCast_nonneg b), Int.neg_tdiv, neg_neg]

theorem nat_beq_true_iff (a b : Nat) : Nat.beq a b = true ↔ a = b :=
  ⟨Nat.eq_of_beq_eq_true, fun h => by rw [h]; exact Nat.beq_refl b⟩

theorem nat_beq_false_iff (a b : Nat) : Nat.beq a b = false ↔ a ≠ b := by
  constructor
  · exact Nat.ne_of_beq_eq_false
  · intro h
    cases hb : Nat.beq a b
    · rfl
    · exact absurd (Nat.eq_of_beq_eq_true hb) h

theorem isLeapNat_iff (y : Nat) :
    isLeapNat y = true ↔ (y % 4 = 0 ∧ (y % 100 ≠ 0 ∨ y % 400 = 0)) := by
  simp only [isLeapNat, Bool.and_eq_true, Bool.or_eq_true, Bool.not_eq_true',
    nat_beq_true_iff, nat_beq_false_iff]

theorem isLeapYear_natCast (y : Nat) : isLeapYear (y : Int) = isLeapNat y := by
  rw [Bool.eq_iff_iff, isLeapNat_iff]
  simp only [isLeapYear, decide_eq_true_eq]
  omega

theorem daysInMonth_natCast (y m : Nat) :
    daysInMonth (y : Int) (m : Int) = (daysInMonthNat y m : Int) := by
  unfold daysInMonth daysInMonthNat
  rw [isLeapYear_natCast]
  by_cases h2 : m = 2
  · subst h2
    cases isLeapNat y <;> simp
  · have h2i : ¬ (m : Int) = 2 := by omega
    have hb : Nat.beq m 2 = false := (nat_beq_false_iff m 2).mpr h2
    rw [if_neg h2i, hb]
    by_cases h30 : m = 4 ∨ m = 6 ∨ m = 9 ∨ m = 11
    · have h30i : (m : Int) = 4 ∨ (m : Int) = 6 ∨ (m : Int) = 9 ∨ (m : Int) = 11 := by omega
      rw [if_pos h30i]
      rcases h30 with h | h | h | h <;> subst h <;> rfl
    · have h30i : ¬ ((m : Int) = 4 ∨ (m : Int) = 6 ∨ (m : Int) = 9 ∨ (m : Int) = 11) := by omega
      have hb2 : (Nat.beq m 4 || Nat.beq m 6 || Nat.beq m 9 || Nat.beq m 11) = false := by
        simp only [not_or] at h30
        simp only [Bool.or_eq_false_iff, nat_beq_false_iff]
        exact ⟨⟨⟨h30.1, h30.2.1⟩, h30.2.2.1⟩, h30.2.2.2⟩
      rw [if_neg h30i, hb2]
      rfl

theorem daysBeforeMonth_natCast (y m : Nat) (h1 : 1 ≤ m) (h12 : m ≤ 12) :
    daysBeforeMonth (y : Int) (m : Int) = (daysBeforeMonthNat y m : Int) := by
  have hleap := isLeapYear_natCast y
  unfold daysBeforeMonth daysBeforeMonthNat
  interval_cases m <;>
    cases hl : isLeapNat y <;>
    simp [List.range_succ, daysInMonth, hleap, hl] <;> rfl

namespace Station

theorem calendarDate_eq_int (mjd : Int) : calendarDate mjd = calendarDateInt mjd := by
  have e1 : ∀ x : Int, ((x : ℚ) - 15078.2) / 365.25
      = (((x * 100 - 1507820 : Int) : ℚ)) / ((36525 : Nat) : ℚ) := by
    intro x; push_cast; norm_num; ring
  have e2 : ∀ x : Int, (x : ℚ) * 365.25 = (((x * 1461 : Int) : ℚ)) / ((4 : Nat) : ℚ) := by
    intro x; push_cast; norm_num; ring
  have e3 : ∀ x y : Int, ((x : ℚ) - 14956.1 - (y : ℚ)) / 30.6001
      = ((((x - y) * 10000 - 149561000 : Int) : ℚ)) / ((306001 : Nat) : ℚ) := by
    intro x y; push_cast; norm_num; ring
  have e4 : ∀ x : Int, (x : ℚ) * 30.6001
      = (((x * 306001 : Int) : ℚ)) / ((10000 : Nat) : ℚ) := by
    intro x; push_cast; norm_num; ring
  unfold calendarDate calendarDateInt
  simp only [e1, e2, e3, e4, cInt_int_div_nat _ _ (show 0 < 36525 by norm_num),
    cInt_int_div_nat _ _ (show 0 < 4 by norm_num),
    cInt_int_div_nat _ _ (show 0 < 306001 by norm_num),
    cInt_int_div_nat _ _ (show 0 < 10000 by norm_num)]
  rfl

theorem natCast_sub3 (n a b c : Nat) (h : a + b + c ≤ n) :
    (n : Int) - a - b - c = ((n - a - b - c : Nat) : Int) := by omega

/-- The day number of a date on natural numbers, compared with the Modified Julian Date. -/
theorem gregorianMJD_natCast (y m d n : Nat) (hy : 1 ≤ y) (hm1 : 1 ≤ m) (hm12 : m ≤ 12)
    (hd : 1 ≤ d)
    (h : 365 * (y - 1) + (y - 1) / 4 + (y - 1) / 400 + daysBeforeMonthNat y m + (d - 1)
        = n + 678575 + (y - 1) / 100) :
    gregorianMJD (y : Int) (m : Int) (d : Int) = (n : Int) := by
  unfold gregorianMJD gregorianDayNumber
  rw [daysBeforeMonth_natCast y m hm1 hm12]
  have h17 : daysBeforeMonth 1858 11 = 304 := by decide
  rw [h17]
  generalize daysBeforeMonthNat y m = bm at h
  obtain ⟨y2, rfl⟩ : ∃ y2, y = y2 + 1 := ⟨y - 1, by omega⟩
  obtain ⟨d2, rfl⟩ : ∃ d2, d = d2 + 1 := ⟨d - 1, by omega⟩
  simp only [Nat.add_sub_cancel] at h
  push_cast
  simp only [add_sub_cancel_right]
  omega

theorem natCast_pred (m : Nat) (h : 1 ≤ m) : (m : Int) - 1 = ((m - 1 : Nat) : Int) := by
  omega

theorem natCast_sub12 (m : Nat) (h : 12 ≤ m) : (m : Int) - 12 = ((m - 12 : Nat) : Int) := by
  omega

/-- The conversion on integers and on natural numbers agree when no subtraction falls
below zero. -/
theorem calendarDateInt_natCast (n yr yd mo md : Nat)
    (hyr : (n * 100 - 1507820) / 36525 = yr) (hyd : yr * 1461 / 4 = yd)
    (hmo : ((n - yd) * 10000 - 149561000) / 306001 = mo) (hmd : mo * 306001 / 10000 = md)
    (c1 : 1507820 ≤ n * 100) (c2 : yd ≤ n) (c3 : 149561000 ≤ (n - yd) * 10000)
    (c4 : 14956 + yd + md ≤ n)
    (c5 : 1 ≤ (bif (Nat.beq mo 14 || Nat.beq mo 15) then mo - 12 else mo) - 1) :
    calendarDateInt n =
      ((((bif (Nat.beq mo 14 || Nat.beq mo 15) then yr + 1 else yr) + 1900 : Nat) : Int),
       (((bif (Nat.beq mo 14 || Nat.beq mo 15) then mo - 12 else mo) - 1 : Nat) : Int),
       ((n - 14956 - yd - md : Nat) : Int)) := by
  have e1 : Int.tdiv ((n : Int) * 100 - 1507820) 36525 = (yr : Int) := by
    have hc : ((n : Int) * 100 - 1507820) = ((n * 100 - 1507820 : Nat) : Int) := by
      rw [Nat.cast_sub c1, Nat.cast_mul]; rfl
    rw [hc, ← hyr]
    exact (Int.ofNat_tdiv _ _).symm
  have e2 : Int.tdiv ((yr : Int) * 1461) 4 = (yd : Int) := by
    have hc : ((yr : Int) * 1461) = ((yr * 1461 : Nat) : Int) := by
      rw [Nat.cast_mul]; rfl
    rw [hc, ← hyd]
    exact (Int.ofNat_tdiv _ _).symm
  have e3 : Int.tdiv (((n : Int) - (yd : Int)) * 10000 - 149561000) 306001 = (mo : Int) := by
    have hc : (((n : Int) - (yd : Int)) * 10000 - 149561000)
        = (((n - yd) * 10000 - 149561000 : Nat) : Int) := by
      rw [Nat.cast_sub c3, Nat.cast_mul, Nat.cast_sub c2]; rfl
    rw [hc, ← hmo]
    exact (Int.ofNat_tdiv _ _).symm
  have e4 : Int.tdiv ((mo : Int) * 306001) 10000 = (md : Int) := by
    have hc : ((mo : Int) * 306001) = ((mo * 306001 : Nat) : Int) := by
      rw [Nat.cast_mul]; rfl
    rw [hc, ← hmd]
    exact (Int.ofNat_tdiv _ _).symm
  have e5 : (n : Int) - 14956 - (yd : Int) - (md : Int) = ((n - 14956 - yd - md : Nat) : Int) :=
    natCast_sub3 n 14956 yd md c4
  clear hyr hyd hmo hmd c1 c2 c3 c4
  unfold calendarDateInt
  simp only [e1, e2, e3, e4, e5]
  clear e1 e2 e3 e4 e5
  by_cases hc : mo = 14 ∨ mo = 15
  · have hcb : (Nat.beq mo 14 || Nat.beq mo 15) = true := by
      simp only [Bool.or_eq_true, nat_beq_true_iff]; exact hc
    have hci : (mo : Int) = 14 ∨ (mo : Int) = 15 := by
      rcases hc with h | h
      · exact Or.inl (by rw [h]; rfl)
      · exact Or.inr (by rw [h]; rfl)
    have h12 : 12 ≤ mo := by
      rcases hc with h | h <;> rw [h] <;> decide
    have h1 : 1 ≤ mo - 12 := by
      rcases hc with h | h <;> rw [h] <;> decide
    simp only [hcb, cond_true, if_pos hci]
    rw [natCast_sub12 mo h12, natCast_pred _ h1]
    rfl
  · have hcb : (Nat.beq mo 14 || Nat.beq mo 15) = false := by
      simp only [not_or] at hc
      simp only [Bool.or_eq_false_iff, nat_beq_false_iff]
      exact hc
    have hci : ¬ ((mo : Int) = 14 ∨ (mo : Int) = 15) := by
      rintro (h | h)
      · exact hc (Or.inl (by exact_mod_cast h))
      · exact hc (Or.inr (by exact_mod_cast h))
    simp only [hcb, cond_false] at c5
    have h1 : 1 ≤ mo := Nat.le_trans c5 (Nat.sub_le mo 1)
    simp only [hcb, cond_false, if_neg hci]
    rw [natCast_pred _ h1]
    rfl

/-- A date on natural numbers with a month in 1..12, a day of that month and the right day
number, read on integers. -/
theorem gregorian_natCast (y m d n : Nat) (hy : 1 ≤ y) (c5 : 1 ≤ m) (c6 : m ≤ 12)
    (c7 : 1 ≤ d) (c8 : d ≤ daysInMonthNat y m)
    (c9 : 365 * (y - 1) + (y - 1) / 4 + (y - 1) / 400 + daysBeforeMonthNat y m + (d - 1)
        = n + 678575 + (y - 1) / 100) :
    1 ≤ (m : Int) ∧ (m : Int) ≤ 12 ∧ 1 ≤ (d : Int) ∧ (d : Int) ≤ daysInMonth (y : Int) (m : Int) ∧
      gregorianMJD (y : Int) (m : Int) (d : Int) = (n : Int) := by
  refine ⟨by exact_mod_cast c5, by exact_mod_cast c6, by exact_mod_cast c7, ?_, ?_⟩
  · rw [daysInMonth_natCast]; exact_mod_cast c8
  · exact gregorianMJD_natCast y m d n hy c5 c6 c7 c9

/-- A date that passes the check on natural numbers is converted to a month in 1..12, a day
of that month, and the Gregorian date whose Modified Julian Date it is. -/
theorem calendarOkNat_sound (n : Nat) (h : calendarOkNat n = true) :
    1 ≤ (calendarDateInt n).2.1 ∧ (calendarDateInt n).2.1 ≤ 12 ∧ 1 ≤ (calendarDateInt n).2.2 ∧
      (calendarDateInt n).2.2 ≤ daysInMonth (calendarDateInt n).1 (calendarDateInt n).2.1 ∧
      gregorianMJD (calendarDateInt n).1 (calendarDateInt n).2.1 (calendarDateInt n).2.2 = n := by
  simp only [calendarOkNat, Bool.and_eq_true, Nat.ble_eq, nat_beq_true_iff] at h
  obtain ⟨⟨⟨⟨⟨⟨⟨⟨c1, c2⟩, c3⟩, c4⟩, c5⟩, c6⟩, c7⟩, c8⟩, c9⟩ := h
  rw [calendarDateInt_natCast n _ _ _ _ rfl rfl rfl rfl c1 c2 c3 c4 c5]
  exact gregorian_natCast _ _ _ n (Nat.le_trans (by decide : 1 ≤ 1900) (Nat.le_add_left _ _))
    c5 c6 c7 c8 c9

theorem calendarOkRange_sound (lo : Nat) :
    ∀ n, calendarOkRange lo n = true → ∀ i, i < n → calendarOkNat (lo + i) = true := by
  intro n
  induction n with
  | zero => intro _ i hi; omega
  | succ n ih =>
    intro h i hi
    simp only [calendarOkRange] at h
    cases hc : calendarOkNat (lo + n)
    · rw [hc] at h; simp at h
    · rw [hc] at h
      simp only [cond_true] at h
      rcases Nat.lt_succ_iff_lt_or_eq.mp hi with hlt | heq
      · exact ih h i hlt
      · rw [heq]; exact hc

set_option maxRecDepth 1000000 in
theorem calendarOkRange_chunk1 : calendarOkRange 15079 12500 = true := by decide!

set_option maxRecDepth 1000000 in
theorem calendarOkRange_chunk2 : calendarOkRange 27579 12500 = true := by decide!

set_option maxRecDepth 1000000 in
theorem calendarOkRange_chunk3 : calendarOkRange 40079 12500 = true := by decide!

set_option maxRecDepth 1000000 in
theorem calendarOkRange_chunk4 : calendarOkRange 52579 12500 = true := by decide!

set_option maxRecDepth 1000000 in
theorem calendarOkRange_chunk5 : calendarOkRange 65079 12500 = true := by decide!

set_option maxRecDepth 1000000 in
theorem calendarOkRange_chunk6 : calendarOkRange 77579 10549 = true := by decide!

/-- Every Modified Julian Date from 15079 to 88127 passes the check. -/
theorem calendarOkNat_range (n : Nat) (hlo : 15079 ≤ n) (hhi : n ≤ 88127) :
    calendarOkNat n = true := by
  by_cases h1 : n < 27579
  · have := calendarOkRange_sound 15079 12500 calendarOkRange_chunk1 (n - 15079) (by omega)
    rwa [show 15079 + (n - 15079) = n by omega] at this
  by_cases h2 : n < 40079
  · have := calendarOkRange_sound 27579 12500 calendarOkRange_chunk2 (n - 27579) (by omega)
    rwa [show 27579 + (n - 27579) = n by omega] at this
  by_cases h3 : n < 52579
  · have := calendarOkRange_sound 40079 12500 calendarOkRange_chunk3 (n - 40079) (by omega)
    rwa [show 40079 + (n - 40079) = n by omega] at this
  by_cases h4 : n < 65079
  · have := calendarOkRange_sound 52579 12500 calendarOkRange_chunk4 (n - 52579) (by omega)
    rwa [show 52579 + (n - 52579) = n by omega] at this
  by_cases h5 : n < 77579
  · have := calendarOkRange_sound 65079 12500 calendarOkRange_chunk5 (n - 65079) (by omega)
    rwa [show 65079 + (n - 65079) = n by omega] at this
  · have := calendarOkRange_sound 77579 10549 calendarOkRange_chunk6 (n - 77579) (by omega)
    rwa [show 77579 + (n - 77579) = n by omega] at this

theorem calendarDate_58849 : calendarDate 58849 = (2020, 1, 1) := by
  rw [calendarDate_eq_int]; decide

end Station

/-- The reference calendar at four known dates: 1858-11-17 is day 0, 1900-03-01 is day
15079, 2020-01-01 is day 58849 and 2100-02-28 is day 88127. -/
theorem gregorianMJD_known_dates :
    gregorianMJD 1858 11 17 = 0 ∧ gregorianMJD 1900 3 1 = 15079 ∧
      gregorianMJD 2020 1 1 = 58849 ∧ gregorianMJD 2100 2 28 = 88127 := by
  decide

/-! ## Lemmas on the reference calendar -/

/-- The day number at which year `y + 1` starts: that of year `y` and the days of `y`. -/
theorem yearStart_step (y : Int) :
    365 * y + y / 4 - y / 100 + y / 400 =
      365 * (y - 1) + (y - 1) / 4 - (y - 1) / 100 + (y - 1) / 400 +
        (if isLeapYear y = true then 366 else 365) := by
  unfold isLeapYear
  split_ifs with h
  · simp only [decide_eq_true_eq] at h
    omega
  · simp only [decide_eq_true_eq] at h
    omega

theorem yearStart_mono (y1 y2 : Int) (h : y1 < y2) :
    365 * y1 + y1 / 4 - y1 / 100 + y1 / 400 ≤
      365 * (y2 - 1) + (y2 - 1) / 4 - (y2 - 1) / 100 + (y2 - 1) / 400 := by
  omega

theorem dayOfYear_bounds (y m d : Int) (h1 : 1 ≤ m) (h2 : m ≤ 12) (h3 : 1 ≤ d)
    (h4 : d ≤ daysInMonth y m) :
    0 ≤ daysBeforeMonth y m + (d - 1) ∧
      daysBeforeMonth y m + (d - 1) < (if isLeapYear y = true then 366 else 365) := by
  interval_cases m <;>
    simp [daysBeforeMonth, daysInMonth, List.range_succ] at h4 ⊢ <;>
    split_ifs at h4 ⊢ <;> omega

theorem daysInMonth_pos (y m : Int) : 28 ≤ daysInMonth y m := by
  unfold daysInMonth
  split_ifs <;> decide

theorem daysBeforeMonth_succ (y m : Int) (h1 : 1 ≤ m) :
    daysBeforeMonth y (m + 1) = daysBeforeMonth y m + daysInMonth y m := by
  unfold daysBeforeMonth
  have e : (m + 1 - 1).toNat = (m - 1).toNat + 1 := by omega
  have e3 : (((m.toNat - 1 : Nat) : Int)) + 1 = m := by omega
  rw [e, List.range_succ]
  simp [e3]

theorem daysBeforeMonth_mono (y m1 : Int) (h1 : 1 ≤ m1) (k : Nat) :
    daysBeforeMonth y m1 ≤ daysBeforeMonth y (m1 + k) := by
  induction k with
  | zero => simp
  | succ k ih =>
    have hs := daysBeforeMonth_succ y (m1 + k) (by omega)
    have hp := daysInMonth_pos y (m1 + k)
    have e : m1 + ((k + 1 : Nat) : Int) = m1 + (k : Int) + 1 := by push_cast; ring
    rw [e, hs]
    omega

theorem dayOfYear_lt (y m1 d1 m2 d2 : Int) (a1 : 1 ≤ m1) (a4 : d1 ≤ daysInMonth y m1)
    (b3 : 1 ≤ d2) (h : m1 < m2) :
    daysBeforeMonth y m1 + (d1 - 1) < daysBeforeMonth y m2 + (d2 - 1) := by
  have hs := daysBeforeMonth_succ y m1 a1
  have hm := daysBeforeMonth_mono y (m1 + 1) (by omega) (m2 - (m1 + 1)).toNat
  have e : m1 + 1 + (((m2 - (m1 + 1)).toNat : Nat) : Int) = m2 := by omega
  rw [e] at hm
  omega

theorem dayOfYear_injective (y m1 d1 m2 d2 : Int) (a1 : 1 ≤ m1) (a3 : 1 ≤ d1)
    (a4 : d1 ≤ daysInMonth y m1) (b1 : 1 ≤ m2) (b3 : 1 ≤ d2)
    (b4 : d2 ≤ daysInMonth y m2)
    (h : daysBeforeMonth y m1 + (d1 - 1) = daysBeforeMonth y m2 + (d2 - 1)) :
    m1 = m2 ∧ d1 = d2 := by
  have hm : m1 = m2 := by
    rcases lt_trichotomy m1 m2 with hlt | heq | hgt
    · have := dayOfYear_lt y m1 d1 m2 d2 a1 a4 b3 hlt
      omega
    · exact heq
    · have := dayOfYear_lt y m2 d2 m1 d1 b1 b4 a3 hgt
      omega
  subst hm
  exact ⟨rfl, by omega⟩

/-- Two dates of the Gregorian calendar with the same Modified Julian Date are equal. -/
theorem gregorianMJD_injective (y1 m1 d1 y2 m2 d2 : Int)
    (a1 : 1 ≤ m1) (a2 : m1 ≤ 12) (a3 : 1 ≤ d1) (a4 : d1 ≤ daysInMonth y1 m1)
    (b1 : 1 ≤ m2) (b2 : m2 ≤ 12) (b3 : 1 ≤ d2) (b4 : d2 ≤ daysInMonth y2 m2)
    (h : gregorianMJD y1 m1 d1 = gregorianMJD y2 m2 d2) :
    y1 = y2 ∧ m1 = m2 ∧ d1 = d2 := by
  have h' : gregorianDayNumber y1 m1 d1 = gregorianDayNumber y2 m2 d2 := by
    unfold gregorianMJD at h; omega
  unfold gregorianDayNumber at h'
  obtain ⟨p1, q1⟩ := dayOfYear_bounds y1 m1 d1 a1 a2 a3 a4
  obtain ⟨p2, q2⟩ := dayOfYear_bounds y2 m2 d2 b1 b2 b3 b4
  have s1 := yearStart_step y1
  have s2 := yearStart_step y2
  have hy : y1 = y2 := by
    rcases lt_trichotomy y1 y2 with hlt | heq | hgt
    · have := yearStart_mono y1 y2 hlt
      omega
    · exact heq
    · have := yearStart_mono y2 y1 hgt
      omega
  subst hy
  have := dayOfYear_injective y1 m1 d1 m2 d2 a1 a3 a4 b1 b3 b4 (by omega)
  exact ⟨rfl, this⟩

/-! ## Lemmas on the filter design -/

/-- A filter of length 1 has `M = 0`, and `Blackman` divides by `M`. -/
theorem FIR_one {K : Type} [LinearOrderedField K] (m : Math K) (f_cutoff : K) :
    FIR m f_cutoff 1 = none := by
  have hr : List.range (Int.toNat 1) = [0] := rfl
  unfold FIR
  split_ifs
  · simp only [hr, List.mapM_cons, List.mapM_nil, Blackman]
    simp
  all_goals rfl

theorem cos_four_pi : Real.cos (4 * Real.pi) = 1 := by
  have := Real.cos_nat_mul_two_pi 2
  rw [← this]; congr 1; push_cast; ring

/-- With the real functions both taps of a filter of length 2 are 0 before they are divided
by their sum. -/
theorem FIR_real_two (f_cutoff : ℝ) :
    FIR (⟨Real.pi, Real.sin, Real.cos⟩ : Math ℝ) f_cutoff 2 = none := by
  have hr : List.range (Int.toNat 2) = [0, 1] := rfl
  unfold FIR
  split_ifs
  · simp only [hr, List.mapM_cons, List.mapM_nil, Blackman]
    simp [cos_four_pi]
    norm_num
  all_goals rfl

/-- With the real functions the filter of length 3 and cut-off 0 has the taps 0, 1, 0. -/
theorem FIR_real_three :
    FIR (⟨Real.pi, Real.sin, Real.cos⟩ : Math ℝ) 0 3 = some [0, 1, 0] := by
  have hr : List.range (Int.toNat 3) = [0, 1, 2] := rfl
  have h2 : Real.cos (4 * Real.pi / 2) = 1 := by
    rw [show 4 * Real.pi / 2 = 2 * Real.pi by ring]
    exact Real.cos_two_pi
  unfold FIR
  rw [if_pos (by norm_num), if_pos (by norm_num)]
  simp only [hr, List.mapM_cons, List.mapM_nil, Blackman]
  simp [cos_four_pi, sinc, h2]
  norm_num

/-! ## Lemmas on completion and on the sequential flags -/

namespace RDSString

theorem setAt_isComplete (T : Tables) (s : RDSString) (pos chr : Int) :
    (setAt T s pos chr).isComplete =
      decide ((setAt T s pos chr).lengthReceived ≥ (setAt T s pos chr).lengthExpected) := rfl

/-- A call of `setAt` that leaves the string incomplete leaves the last complete string. -/
theorem setAt_last_of_incomplete (T : Tables) (s : RDSString) (pos chr : Int)
    (h : (setAt T s pos chr).isComplete = false) :
    (setAt T s pos chr).last_complete_string_ = s.last_complete_string_ := by
  by_cases hg : pos < 0 ∨ pos ≥ (s.chars_.length : Int)
  · rw [setAt_out_of_range T s pos chr hg]
  · rw [setAt_last T s pos chr hg]
    rw [setAt_isComplete] at h
    rw [if_neg (by rw [h]; simp)]

theorem lengthReceivedFrom_eq_takeWhile (flags : List Bool) (i : Nat) :
    lengthReceivedFrom flags i = i + (flags.takeWhile fun b => b).length := by
  induction flags generalizing i with
  | nil => simp [lengthReceivedFrom]
  | cons b rest ih =>
    cases b
    · simp [lengthReceivedFrom]
    · simp [lengthReceivedFrom, ih]; omega

theorem lengthReceived_eq_takeWhile (s : RDSString) :
    s.lengthReceived = (s.is_char_sequential_.takeWhile fun b => b).length := by
  simp [lengthReceived, lengthReceivedFrom_eq_takeWhile]

theorem one_le_lengthReceived_iff (s : RDSString) :
    1 ≤ s.lengthReceived ↔ s.is_char_sequential_.getD 0 false = true := by
  rw [lengthReceived_eq_takeWhile]
  rcases hs : s.is_char_sequential_ with _ | ⟨b, rest⟩
  · simp
  · cases b <;> simp

theorem reachable_lengths (T : Tables) (cap : Nat) (s : RDSString)
    (h : Reachable T cap s) : s.chars_.length = cap ∧ s.is_char_sequential_.length = cap := by
  induction h with
  | fresh => simp [new]
  | setAt s pos chr _ ih =>
    by_cases hg : pos < 0 ∨ pos ≥ (s.chars_.length : Int)
    · rw [setAt_out_of_range T s pos chr hg]; exact ih
    · rw [setAt_chars T s pos chr hg, setAt_flags T s pos chr hg]
      split_ifs <;> simp [ih.1, ih.2]
  | clear s _ ih =>
    simp only [clear]
    refine ⟨ih.1, ?_⟩
    simp [ih.1, ih.2]

theorem getD_set_true (l : List Bool) (p i : Nat) (hp : p < l.length) :
    (l.set p true).getD i false = true ↔ (i = p ∨ l.getD i false = true) := by
  rw [List.getD_eq_getElem?_getD, List.getD_eq_getElem?_getD, List.getElem?_set]
  by_cases h : p = i
  · subst h; simp [hp]
  · simp [h, Ne.symm h]

theorem getD_replicate_false (n i : Nat) : (List.replicate n false).getD i false = false := by
  rw [List.getD_eq_getElem?_getD, List.getElem?_replicate]
  split_ifs <;> rfl

theorem reachable_interval (T : Tables) (cap : Nat) (s : RDSString)
    (h : Reachable T cap s) : s.SequentialInterval := by
  induction h with
  | fresh => exact Or.inl (fun i => by simp [new, getD_replicate_false])
  | clear s hr _ =>
    obtain ⟨h1, h2⟩ := reachable_lengths T cap s hr
    refine Or.inl (fun i => ?_)
    have hd : s.is_char_sequential_.drop s.chars_.length = [] := by
      rw [h1, ← h2]; exact List.drop_length _
    simp only [clear, hd, List.append_nil]
    exact getD_replicate_false _ _
  | setAt s pos chr hr ih =>
    obtain ⟨h1, h2⟩ := reachable_lengths T cap s hr
    by_cases hg : pos < 0 ∨ pos ≥ (s.chars_.length : Int)
    · rw [setAt_out_of_range T s pos chr hg]; exact ih
    · have hp : ((pos.toNat : Nat) : Int) = pos := Int.toNat_of_nonneg (by omega)
      have hplt : pos.toNat < cap := by omega
      have hlen : (setAt T s pos chr).is_char_sequential_.length = cap := by
        rw [setAt_flags T s pos chr hg]; split_ifs <;> simp [h2]
      refine Or.inr ?_
      unfold SequentialInterval at ih
      simp only [hlen, setAt_prev T s pos chr hg]
      rw [setAt_flags T s pos chr hg]
      by_cases hc : pos = s.prev_pos_ + 1
      · rw [if_neg (by simpa using hc)]
        rcases ih with hall | ⟨a, ha1, ha2, ha3⟩
        · refine ⟨pos.toNat, by omega, by omega, fun i => ?_⟩
          rw [getD_set_true _ _ _ (by omega), hall i]
          simp only [Bool.false_eq_true, or_false]
          omega
        · refine ⟨a, by omega, by omega, fun i => ?_⟩
          rw [getD_set_true _ _ _ (by omega), ha3 i]
          omega
      · rw [if_pos hc]
        refine ⟨pos.toNat, by omega, by omega, fun i => ?_⟩
        rw [getD_set_true _ _ _ (by simp; omega), getD_replicate_false]
        simp only [Bool.false_eq_true, or_false]
        omega

end RDSString


/-! ## Lemmas on group types -/

theorem groupType_codes : ∀ c1 < 32, ∀ c2 < 32,
    (GroupType.ofCode c1).toString =
        Nat.repr ((c1 >>> 1) &&& 0xF) ++ (if c1 &&& 1 = 0 then "A" else "B") ∧
      ((GroupType.ofCode c1).toString = (GroupType.ofCode c2).toString ↔ c1 = c2) ∧
      (GroupType.operatorEq (GroupType.ofCode c1) (GroupType.ofCode c2) = true ↔ c1 = c2) := by
  decide
/-! ## Lemmas on the ring bit buffer -/

namespace BitBuffer

theorem append_fill (b : BitBuffer) (x : Nat) :
    (b.append x).m_fill_count =
        (if b.m_fill_count + 1 ≤ b.m_len then b.m_fill_count + 1 else b.m_len) ∧
      (b.append x).m_len = b.m_len := by
  refine ⟨?_, rfl⟩
  simp only [append]
  split_ifs with h
  · exact min_eq_left h
  · exact min_eq_right (le_of_lt (not_le.mp h))

theorem getNext_fill (b : BitBuffer) :
    b.getNext.2.m_fill_count = (if b.m_fill_count - 1 < 0 then 0 else b.m_fill_count - 1) ∧
      b.getNext.2.m_len = b.m_len := by
  simp only [getNext, forward]
  split_ifs <;> exact ⟨rfl, rfl⟩

theorem call_fill_bounds (b : BitBuffer) (c : Call) (hlen : 0 < b.m_len)
    (h0 : 0 ≤ b.m_fill_count) (h1 : b.m_fill_count ≤ b.m_len) :
    (b.call c).m_len = b.m_len ∧ 0 ≤ (b.call c).m_fill_count ∧
      (b.call c).m_fill_count ≤ b.m_len := by
  cases c with
  | append x =>
    obtain ⟨hf, hl⟩ := append_fill b x
    simp only [call]
    rw [hf, hl]
    split_ifs <;> omega
  | getNext =>
    obtain ⟨hf, hl⟩ := getNext_fill b
    simp only [call]
    rw [hf, hl]
    split_ifs <;> omega

theorem calls_fill_bounds (cs : List Call) :
    ∀ (b : BitBuffer), 0 < b.m_len → 0 ≤ b.m_fill_count → b.m_fill_count ≤ b.m_len →
      (b.calls cs).m_len = b.m_len ∧ 0 ≤ (b.calls cs).m_fill_count ∧
        (b.calls cs).m_fill_count ≤ b.m_len := by
  induction cs with
  | nil => intro b _ h0 h1; exact ⟨rfl, h0, h1⟩
  | cons c cs ih =>
    intro b hlen h0 h1
    obtain ⟨hl, hb0, hb1⟩ := call_fill_bounds b c hlen h0 h1
    have := ih (b.call c) (by rw [hl]; exact hlen) hb0 (by rw [hl]; exact hb1)
    rw [hl] at this
    exact this

theorem countAppend_cons_append (x : Nat) (cs : List Call) :
    countAppend (Call.append x :: cs) = countAppend cs + 1 := by
  simp [countAppend]

theorem countAppend_cons_getNext (cs : List Call) :
    countAppend (Call.getNext :: cs) = countAppend cs := by
  simp [countAppend]

theorem countGetNext_cons_append (x : Nat) (cs : List Call) :
    countGetNext (Call.append x :: cs) = countGetNext cs := by
  simp [countGetNext]

theorem countGetNext_cons_getNext (cs : List Call) :
    countGetNext (Call.getNext :: cs) = countGetNext cs + 1 := by
  simp [countGetNext]

theorem calls_fill_of_noLimitHit (cs : List Call) :
    ∀ (b : BitBuffer), b.NoLimitHit cs →
      (b.calls cs).m_fill_count = b.m_fill_count + countAppend cs - countGetNext cs := by
  induction cs with
  | nil => intro b _; simp [calls, countAppend, countGetNext]
  | cons c cs ih =>
    intro b h
    cases c with
    | append x =>
      obtain ⟨hlt, hrest⟩ := h
      have := ih (b.append x) hrest
      simp only [calls, List.foldl_cons, call] at this ⊢
      rw [this, (append_fill b x).1, countAppend_cons_append, countGetNext_cons_append]
      split_ifs <;> omega
    | getNext =>
      obtain ⟨hlt, hrest⟩ := h
      have := ih b.getNext.2 hrest
      simp only [calls, List.foldl_cons, call] at this ⊢
      rw [this, (getNext_fill b).1, countAppend_cons_getNext, countGetNext_cons_getNext]
      split_ifs <;> omega

/-- The fill count after a sequence of calls is the value of the saturating counter. -/
theorem calls_fill_eq_saturatingCount (cs : List Call) :
    ∀ (b : BitBuffer), 0 ≤ b.m_fill_count → b.m_fill_count ≤ b.m_len →
      (b.calls cs).m_fill_count = saturatingCount b.m_len b.m_fill_count cs := by
  induction cs with
  | nil => intro b _ _; rfl
  | cons c cs ih =>
    intro b h0 h1
    cases c with
    | append x =>
      obtain ⟨hf, hl⟩ := append_fill b x
      have e : (if b.m_fill_count < b.m_len then b.m_fill_count + 1 else b.m_fill_count) =
          (b.append x).m_fill_count := by
        rw [hf]; split_ifs <;> omega
      have := ih (b.append x) (by rw [hf]; split_ifs <;> omega)
        (by rw [hf, hl]; split_ifs <;> omega)
      simp only [calls, List.foldl_cons, call, saturatingCount] at this ⊢
      rw [this, hl, e]
    | getNext =>
      obtain ⟨hf, hl⟩ := getNext_fill b
      have e : (if 0 < b.m_fill_count then b.m_fill_count - 1 else b.m_fill_count) =
          b.getNext.2.m_fill_count := by
        rw [hf]; split_ifs <;> omega
      have := ih b.getNext.2 (by rw [hf]; split_ifs <;> omega)
        (by rw [hf, hl]; split_ifs <;> omega)
      simp only [calls, List.foldl_cons, call, saturatingCount] at this ⊢
      rw [this, hl, e]

end BitBuffer

/-! ## Lemmas on the clock time with any offset -/

theorem cInt_eq_of_nonneg (q : ℚ) (n : Int) (h0 : 0 ≤ q) (h1 : (n : ℚ) ≤ q)
    (h2 : q < (n : ℚ) + 1) : cInt q = n := by
  unfold cInt
  rw [if_pos h0, Int.floor_eq_iff]
  exact ⟨h1, h2⟩

theorem cInt_eq_of_neg (q : ℚ) (n : Int) (h0 : q < 0) (h1 : (n : ℚ) - 1 < q)
    (h2 : q ≤ (n : ℚ)) : cInt q = n := by
  unfold cInt
  rw [if_neg (not_le.mpr h0), Int.ceil_eq_iff]
  exact ⟨h1, h2⟩

namespace Station

variable {M : Type}

/-- What `update` prints for a type-4A group of four blocks, given the values of the
conversions to `int` in `decodeType4`. -/
theorem update_type4_clock (T : Tables) (O : OdaMap M) (st : Station M) (g : Group)
    (lto : ℚ) (mjd hr ltoi ltom : Int)
    (h4 : g.type.num = 4) (hA : g.type.ab = TYPE_A) (hnb : g.num_blocks = 4)
    (hlto : ((((if bits g.block4 5 1 ≠ 0 then -1 else 1) * (bits g.block4 0 5 : Int) : Int)
      : ℚ) / 2.0) = lto)
    (hmjd : cInt (((g.mjd : Int) : ℚ) + lto / 24.0) = mjd)
    (hhr : cInt ((((bits g.block3 0 1 <<< 4) + bits g.block4 12 14 : Nat) : ℚ) + lto) = hr)
    (hi : cInt lto = ltoi)
    (hm : cInt ((lto - (ltoi : ℚ)) * 60) = ltom) :
    (update T O st g).2.valuesOf "clock_time" =
      [Value.text (dateString (calendarDate mjd) ++ "T" ++ decPad 2 (Int.tmod hr 24) ++ ":" ++
        decPad 2 ((bits g.block4 6 6 : Int) + ltom) ++ ":00" ++ decPadPlus 3 ltoi ++ ":" ++
        decPad 2 ltom)] := by
  have hB : ¬ (g.num_blocks < 3 ∨ g.type.ab = TYPE_B) := by
    rw [hA, hnb]; decide
  rw [update_num4 T O st g h4, Record.valuesOf_append,
    valuesOf_recordHead T st g "clock_time" (by decide)]
  unfold decodeType4
  rw [if_neg hB]
  simp only [hnb, if_true]
  have e : (((bits g.block2 0 2 <<< 15 : Nat) : Int) + (bits g.block3 1 15 : Int)) = g.mjd := rfl
  rw [e, hlto, hmjd, hhr, hi, hm]
  simp only [Record.valuesOf_cons, Record.valuesOf_nil, if_true, List.nil_append,
    List.append_nil, dateString]

end Station

/-! ## Lemmas on type-2B groups -/

namespace RDSString

theorem headUnwritten_new (T : Tables) (cap : Nat) (h : 2 ≤ cap) :
    (RDSString.new T cap).HeadUnwritten := by
  obtain ⟨n, rfl⟩ : ∃ n, cap = n + 2 := ⟨cap - 2, by omega⟩
  refine ⟨?_, ?_, ?_, ?_⟩ <;> simp [RDSString.new, List.replicate_succ]

theorem le_lengthExpectedFrom (l : List Int) (i : Nat) : i ≤ lengthExpectedFrom l i := by
  induction l generalizing i with
  | nil => simp [lengthExpectedFrom]
  | cons c l ih =>
    simp only [lengthExpectedFrom]
    split_ifs
    · exact le_refl _
    · exact le_trans (Nat.le_succ i) (ih (i + 1))

theorem headUnwritten_not_complete (s : RDSString) (h : s.HeadUnwritten) :
    s.isComplete = false := by
  obtain ⟨h1, h2, h3, h4⟩ := h
  have hr : s.lengthReceived = 0 := by
    unfold lengthReceived
    match hf : s.is_char_sequential_, h4 with
    | [], h4 => simp at h4
    | b :: rest, h4 =>
      simp only [List.take_succ_cons] at h4
      have hb : b = false := by injection h4
      subst hb
      simp [lengthReceivedFrom]
  have he : 1 ≤ s.lengthExpected := by
    unfold lengthExpected
    match hc : s.chars_, h3 with
    | [], h3 => simp at h3
    | c :: rest, h3 =>
      simp only [List.take_succ_cons] at h3
      have hb : c = 0 := by injection h3
      subst hb
      simp only [lengthExpectedFrom]
      rw [if_neg (by decide)]
      exact le_lengthExpectedFrom rest (0 + 1)
  simp only [isComplete, hr, decide_eq_false_iff_not]
  omega


theorem headUnwritten_clear (T : Tables) (s : RDSString) (h : s.HeadUnwritten) :
    (s.clear T).HeadUnwritten := by
  obtain ⟨h1, h2, h3, h4⟩ := h
  have hd : s.is_char_sequential_.drop s.chars_.length = [] := by
    rw [← h2]; exact List.drop_length _
  obtain ⟨n, hn⟩ : ∃ n, s.chars_.length = n + 2 := ⟨s.chars_.length - 2, by omega⟩
  refine ⟨h1, ?_, h3, ?_⟩
  · simp [clear, hd, h2]
  · simp [clear, hd, h2, hn, List.replicate_succ]

theorem take_two_set {α : Type} (l : List α) (n : Nat) (a : α) (hn : 2 ≤ n) :
    (l.set n a).take 2 = l.take 2 := by
  match l, n, hn with
  | [], _, _ => rfl
  | [_], n + 2, _ => rfl
  | _ :: _ :: _, n + 2, _ => rfl

theorem headUnwritten_setAt (T : Tables) (s : RDSString) (pos chr : Int)
    (h : s.HeadUnwritten) (hp : 2 ≤ pos) : (s.setAt T pos chr).HeadUnwritten := by
  by_cases hr : pos < 0 ∨ pos ≥ (s.chars_.length : Int)
  · rw [setAt_out_of_range T s pos chr hr]; exact h
  · obtain ⟨h1, h2, h3, h4⟩ := h
    have hn : 2 ≤ pos.toNat := by omega
    obtain ⟨n, hlen⟩ : ∃ n, s.is_char_sequential_.length = n + 2 :=
      ⟨s.is_char_sequential_.length - 2, by omega⟩
    refine ⟨?_, ?_, ?_, ?_⟩
    · rw [setAt_chars T s pos chr hr, List.length_set]; exact h1
    · rw [setAt_chars T s pos chr hr, setAt_flags T s pos chr hr, List.length_set,
        List.length_set]
      split_ifs
      · rw [List.length_replicate]; exact h2
      · exact h2
    · rw [setAt_chars T s pos chr hr, take_two_set _ _ _ hn]; exact h3
    · rw [setAt_flags T s pos chr hr, take_two_set _ _ _ hn]
      split_ifs
      · rw [hlen]; rfl
      · exact h4

theorem headUnwritten_setAll (T : Tables) (W : List (Int × Int)) :
    ∀ s : RDSString, s.HeadUnwritten → (∀ w ∈ W, 2 ≤ w.1) → (s.setAll T W).HeadUnwritten := by
  induction W with
  | nil => intro s h _; exact h
  | cons w W ih =>
    intro s h hW
    exact ih _ (headUnwritten_setAt T s w.1 w.2 h (hW w (List.mem_cons_self _ _)))
      (fun x hx => hW x (List.mem_cons_of_mem _ hx))

end RDSString

namespace Station

variable {M : Type}

/-- The calls of `setAt` on the radiotext string that `decodeType2` makes for a group of at
least three blocks are those of `rtWrites`, after the text A/B flag was compared. -/
theorem rtBlock4_eq_setAll (T : Tables) (st : Station M) (g : Group) :
    st.rtBlock4 T g = (st.rtCleared T g).setAll T g.rtWrites := by
  unfold rtBlock4 rtBlock3 Group.rtWrites RDSString.setAll Group.block3Chars Group.block4Chars
  by_cases hA : g.type.ab = TYPE_A <;> by_cases h4 : g.num_blocks = 4 <;>
    simp [hA, h4, RDSString.setChars, add_assoc]

theorem rtWrites_typeB (g : Group) (hB : g.type.ab = TYPE_B) : ∀ w ∈ g.rtWrites, 2 ≤ w.1 := by
  have hA : ¬ g.type.ab = TYPE_A := by rw [hB]; decide
  have hpos : (0 : Int) ≤ g.rtPosition := by
    unfold Group.rtPosition
    rw [if_neg hA]
    omega
  intro w hw
  unfold Group.rtWrites at hw
  rw [if_neg hA, List.nil_append] at hw
  split_ifs at hw
  · simp only [List.mem_cons, List.mem_nil_iff, or_false] at hw
    rcases hw with rfl | rfl <;> simp only <;> omega
  · simp at hw

/-- What `update` does with a type-2 group: the radiotext string afterwards. -/
theorem update_type2_rt (T : Tables) (O : OdaMap M) (st : Station M) (g : Group)
    (h2 : g.type.num = 2) :
    (update T O st g).1.rt_ =
      if 3 ≤ g.num_blocks then (st.rtCleared T g).setAll T g.rtWrites else st.rt_ := by
  split_ifs with h3
  · rw [(update_type2 T O st g h2 h3).1, rtBlock4_eq_setAll]
  · rw [update_num2 T O st g h2]
    unfold decodeType2
    rw [if_pos (by omega)]
    rfl

theorem update_type2B (T : Tables) (O : OdaMap M) (st : Station M) (g : Group)
    (h2 : g.type.num = 2) (hB : g.type.ab = TYPE_B) (h : st.rt_.HeadUnwritten) :
    (update T O st g).1.rt_.HeadUnwritten ∧ (update T O st g).2.valuesOf "radiotext" = [] := by
  have hA : ¬ g.type.ab = TYPE_A := by rw [hB]; decide
  have hc : (st.rtCleared T g).HeadUnwritten := by
    unfold rtCleared
    split_ifs
    · exact RDSString.headUnwritten_clear T _ h
    · exact h
  have h4 : (st.rtBlock4 T g).HeadUnwritten := by
    rw [rtBlock4_eq_setAll]
    exact RDSString.headUnwritten_setAll T _ _ hc (rtWrites_typeB g hB)
  by_cases h3 : 3 ≤ g.num_blocks
  · obtain ⟨e1, -, e3⟩ := update_type2 T O st g h2 h3
    rw [e1, e3]
    refine ⟨h4, ?_⟩
    rw [RDSString.headUnwritten_not_complete _ h4]
    simp [hA]
  · rw [update_num2 T O st g h2]
    unfold decodeType2
    rw [if_pos (by omega)]
    refine ⟨h, ?_⟩
    rw [Record.valuesOf_append, valuesOf_recordHead T st g "radiotext" (by decide)]
    rfl

theorem updateAll_type2B (T : Tables) (O : OdaMap M) (gs : List Group) :
    ∀ st : Station M, st.rt_.HeadUnwritten →
      (∀ g ∈ gs, g.type.num = 2 ∧ g.type.ab = TYPE_B) →
      (updateAll T O st gs).1.rt_.HeadUnwritten ∧
        ∀ r ∈ (updateAll T O st gs).2, r.valuesOf "radiotext" = [] := by
  induction gs with
  | nil => intro st h _; exact ⟨h, by simp [updateAll]⟩
  | cons g gs ih =>
    intro st h hg
    obtain ⟨h2, hB⟩ := hg g (List.mem_cons_self _ _)
    obtain ⟨k1, k2⟩ := update_type2B T O st g h2 hB h
    obtain ⟨i1, i2⟩ := ih _ k1 (fun x hx => hg x (List.mem_cons_of_mem _ hx))
    refine ⟨i1, ?_⟩
    intro r hr
    simp only [updateAll, List.mem_cons] at hr
    rcases hr with rfl | hr
    · exact k2
    · exact i2 r hr

end Station

/-! ## Lemmas on the keys of a record -/

namespace Station

variable {M : Type}

theorem decodeType0_keys (T : Tables) (st : Station M) (g : Group) :
    (decodeType0 T st g).2.map Prod.fst ∈ tailKeys := by
  unfold decodeType0 updatePS
  simp only
  split_ifs <;> simp [tailKeys]

theorem decodeType1_keys (T : Tables) (st : Station M) (g : Group) :
    (decodeType1 T st g).2.map Prod.fst ∈ tailKeys := by
  unfold decodeType1
  lift_lets
  intros
  split_ifs <;> simp [tailKeys]

theorem decodeType2_keys (T : Tables) (st : Station M) (g : Group) :
    (decodeType2 T st g).2.map Prod.fst ∈ tailKeys := by
  by_cases h3 : 3 ≤ g.num_blocks
  · rw [(decodeType2_three T st g h3).2.2]
    split_ifs <;> simp [tailKeys]
  · unfold decodeType2
    rw [if_pos (by omega)]
    simp [tailKeys]

theorem decodeType3_keys (T : Tables) (O : OdaMap M) (st : Station M) (g : Group) :
    (decodeType3 T O st g).2.map Prod.fst ∈ tailKeys := by
  unfold decodeType3
  simp only
  split_ifs <;> simp [tailKeys]

theorem decodeType4_keys (st : Station M) (g : Group) :
    (decodeType4 st g).2.map Prod.fst ∈ tailKeys := by
  unfold decodeType4
  simp only
  split_ifs <;> simp [tailKeys]

theorem decodeType8_keys (O : OdaMap M) (st : Station M) (g : Group) :
    (decodeType8 O st g).2.map Prod.fst ∈ tailKeys := by
  unfold decodeType8
  split
  · simp [tailKeys]
  · split_ifs <;> simp [tailKeys]

/-- The keys of a record printed by `update`: the four leading keys, then one of the lists
of `tailKeys`. -/
theorem update_keys (T : Tables) (O : OdaMap M) (st : Station M) (g : Group) :
    ∃ l ∈ tailKeys, (update T O st g).2.map Prod.fst = headKeys ++ l := by
  unfold update
  simp only [List.map_append]
  split_ifs
  · exact ⟨_, decodeType0_keys T _ g, rfl⟩
  · exact ⟨_, decodeType1_keys T _ g, rfl⟩
  · exact ⟨_, decodeType2_keys T _ g, rfl⟩
  · exact ⟨_, decodeType3_keys T O _ g, rfl⟩
  · exact ⟨_, decodeType4_keys _ g, rfl⟩
  · exact ⟨_, decodeType8_keys O _ g, rfl⟩
  · exact ⟨_, by simp [decodeType14, tailKeys], rfl⟩
  · exact ⟨_, by simp [tailKeys], rfl⟩

theorem tailKeys_counts : ∀ l ∈ tailKeys,
    ((headKeys ++ l).filter fun k => k != "radiotext").Nodup ∧
      (headKeys ++ l).count "radiotext" ≤ 2 := by
  decide


theorem update_key_counts (T : Tables) (O : OdaMap M) (st : Station M) (g : Group) :
    (∀ k : String, k ≠ "radiotext" → ((update T O st g).2.map Prod.fst).count k ≤ 1) ∧
      ((update T O st g).2.map Prod.fst).count "radiotext" ≤ 2 := by
  obtain ⟨l, hl, e⟩ := update_keys T O st g
  obtain ⟨h1, h2⟩ := tailKeys_counts l hl
  rw [e]
  refine ⟨fun k hk => ?_, h2⟩
  have hc := List.nodup_iff_count_le_one.mp h1 k
  rwa [List.count_filter (by simpa using hk)] at hc

end Station

/-! ## The claims -/

namespace Station

variable {M : Type}

/-- C1: a station whose programme-service string is fresh receives four type-0 groups of
four blocks with segment addresses 0, 1, 2, 3 whose block 4 carries the characters
(c0,c1), (c2,c3), (c4,c5), (c6,c7), none of them 0x0D.  The first three records hold no
`ps` key, the fourth holds `ps` once, equal to the concatenation of
`getLCDchar(c0)` .. `getLCDchar(c7)`; afterwards `hasPS()` is true and `getPS()` returns
that string. -/
theorem C1_ps_four_groups (T : Tables) (O : OdaMap M) (st : Station M)
    (g0 g1 g2 g3 : Group) (c0 c1 c2 c3 c4 c5 c6 c7 : Int)
    (hst : st.ps_ = RDSString.new T 8)
    (hty : ∀ g ∈ [g0, g1, g2, g3], g.type.num = 0 ∧ g.num_blocks = 4)
    (hseg : [g0, g1, g2, g3].map (fun g => bits g.block2 0 2) = [0, 1, 2, 3])
    (hch : [g0, g1, g2, g3].map Group.block4Chars = [[c0, c1], [c2, c3], [c4, c5], [c6, c7]])
    (hcr : ∀ c ∈ [c0, c1, c2, c3, c4, c5, c6, c7], c ≠ 0x0D) :
    (updateAll T O st [g0, g1, g2, g3]).2.map (fun r => r.valuesOf "ps") =
        [[], [], [],
          [Value.text (String.join ([c0, c1, c2, c3, c4, c5, c6, c7].map T.getLCDchar))]] ∧
      (updateAll T O st [g0, g1, g2, g3]).1.hasPS = true ∧
      (updateAll T O st [g0, g1, g2, g3]).1.getPS =
        String.join ([c0, c1, c2, c3, c4, c5, c6, c7].map T.getLCDchar) := by
  have hs := RDSString.completes_full T [c0, c1, c2, c3, c4, c5, c6, c7] hcr
  obtain ⟨L0, hL0⟩ := RDSString.new_eq_written T 8
  simp only [List.map_cons, List.map_nil, List.cons.injEq, and_true] at hch
  obtain ⟨h0, h1, h2, h3⟩ := hch
  have hflat : [c0, c1, c2, c3, c4, c5, c6, c7] = [] ++ [g0, g1, g2, g3].flatMap Group.block4Chars := by
    simp [List.flatMap_cons, h0, h1, h2, h3]
  obtain ⟨hps, hval⟩ := updateAll_ps T O 8 8 L0
    (String.join ([c0, c1, c2, c3, c4, c5, c6, c7].map T.getLCDchar)) _ hs
    [g0, g1, g2, g3] st [] 0 hflat rfl (by rw [hst, hL0]; rfl) hty (by rw [hseg]; rfl)
  refine ⟨?_, ?_, ?_⟩
  · rw [hval]; simp [List.range']
  · simp only [hasPS, hps]
    rw [RDSString.isComplete_after T 8 8 L0 _ _ _ [] hs (by simp)]
    simp
  · simp only [getPS, RDSString.getLastCompleteString, hps]
    simp [RDSString.after, RDSString.written]

/-- C1 at the station `sampleStation` and the four groups that carry `HELLOWLD`. -/
theorem C1_ps_four_groups_witness :
    (updateAll sampleTables listOdaMap sampleStation
      [⟨0x1234, 0, 0, 0x4845, 4, ⟨0, 0⟩⟩, ⟨0x1234, 1, 0, 0x4C4C, 4, ⟨0, 0⟩⟩,
       ⟨0x1234, 2, 0, 0x4F57, 4, ⟨0, 0⟩⟩, ⟨0x1234, 3, 0, 0x4C44, 4, ⟨0, 0⟩⟩]).2.map
        (fun r => r.valuesOf "ps") =
      [[], [], [], [Value.text (String.join
        ([0x48, 0x45, 0x4C, 0x4C, 0x4F, 0x57, 0x4C, 0x44].map sampleTables.getLCDchar))]] :=
  (C1_ps_four_groups sampleTables listOdaMap sampleStation
    ⟨0x1234, 0, 0, 0x4845, 4, ⟨0, 0⟩⟩ ⟨0x1234, 1, 0, 0x4C4C, 4, ⟨0, 0⟩⟩
    ⟨0x1234, 2, 0, 0x4F57, 4, ⟨0, 0⟩⟩ ⟨0x1234, 3, 0, 0x4C44, 4, ⟨0, 0⟩⟩
    0x48 0x45 0x4C 0x4C 0x4F 0x57 0x4C 0x44 rfl (by decide) (by decide) (by decide)
    (by decide)).1

/-- C2: a station whose radiotext string is fresh receives type-2A groups of four blocks
with segment addresses 0, 1, 2, ... and one text A/B flag whose blocks 3 and 4 carry a
text of at most 63 characters without 0x0D, then one 0x0D, then padding up to the end of
the group that carries the 0x0D.  No record before that of the last group holds a
`radiotext` key; the record of the last group holds it, every time with the rendering
(`getLCDchar` of each character) of exactly the text; `getRT()` returns it afterwards. -/
theorem C2_radiotext_terminated (T : Tables) (O : OdaMap M) (st : Station M)
    (text pad : List Int) (gs : List Group) (ab : Nat)
    (hst : st.rt_ = RDSString.new T 64)
    (hn : text.length ≤ 63)
    (hcr : ∀ c ∈ text, c ≠ 0x0D)
    (hty : ∀ g ∈ gs, g.type.num = 2 ∧ g.type.ab = TYPE_A ∧ g.num_blocks = 4 ∧
      bits g.block2 4 1 = ab)
    (hseg : gs.map (fun g => bits g.block2 0 4) = List.range gs.length)
    (hlen : gs.length = text.length / 4 + 1)
    (htext : gs.flatMap Group.textChars = text ++ 0x0D :: pad) :
    (updateAll T O st gs).2.length = text.length / 4 + 1 ∧
      (∀ k r, (updateAll T O st gs).2[k]? = some r →
        (k < text.length / 4 → r.valuesOf "radiotext" = []) ∧
        (k = text.length / 4 → r.valuesOf "radiotext" ≠ [] ∧
          ∀ v ∈ r.valuesOf "radiotext",
            v = Value.text (String.join (text.map T.getLCDchar)))) ∧
      (updateAll T O st gs).1.getRT = String.join (text.map T.getLCDchar) := by
  have hflen : (gs.flatMap Group.textChars).length = 4 * gs.length := by
    clear hty hseg hlen htext
    induction gs with
    | nil => rfl
    | cons g gs ih =>
      simp only [List.flatMap_cons, List.length_append, ih, List.length_cons]
      simp [Group.textChars, Group.block3Chars, Group.block4Chars]; omega
  have hcap : (text ++ 0x0D :: pad).length ≤ 64 := by
    rw [← htext, hflen, hlen]; omega
  have hs := RDSString.completes_terminated T 64 text pad hcr hcap
  have hnew : RDSString.new T 64 = RDSString.after 64 (text.length + 1)
      (RDSString.new T 64).last_complete_string_ (String.join (text.map T.getLCDchar)) [] := by
    simp only [RDSString.after, List.length_nil]
    rw [if_neg (by omega)]
    exact RDSString.new_eq_written_last T 64
  have hclear : RDSString.clear T (RDSString.after 64 (text.length + 1)
      (RDSString.new T 64).last_complete_string_ (String.join (text.map T.getLCDchar)) [])
      = RDSString.after 64 (text.length + 1)
      (RDSString.new T 64).last_complete_string_ (String.join (text.map T.getLCDchar)) [] := by
    rw [← hnew]
    conv_lhs => rw [RDSString.new_eq_written_last T 64, RDSString.clear_written_nil]
  obtain ⟨hrt, hval⟩ := updateAll_rt T O 64 (text.length + 1)
    (RDSString.new T 64).last_complete_string_ (String.join (text.map T.getLCDchar))
    (text ++ 0x0D :: pad) ab hs hclear gs st [] 0 (by simp [htext]) rfl (by rw [hst, ← hnew])
    (Or.inl rfl) hty (by rw [hseg, List.range_eq_range'])
  have hreclen : (updateAll T O st gs).2.length = gs.length := by
    have := congrArg List.length hval
    simpa using this
  refine ⟨by rw [hreclen, hlen], ?_, ?_⟩
  · intro k r hk
    have hk2 := congrArg (fun l => l[k]?) hval
    simp only [List.getElem?_map, hk, Option.map_some'] at hk2
    have hklt : k < gs.length := by
      rw [← hreclen]
      exact (List.getElem?_eq_some_iff.mp hk).1
    rw [List.getElem?_range' _ _ hklt] at hk2
    simp only [Option.map_some', Option.some.injEq, one_mul, zero_add] at hk2
    rw [hk2]
    constructor
    · intro hlt
      have h1 : ¬ text.length + 1 ≤ 4 * k + 2 := by omega
      have h2 : ¬ text.length + 1 ≤ 4 * k + 4 := by omega
      simp [h1, h2]
    · intro heq
      have h2 : text.length + 1 ≤ 4 * k + 4 := by omega
      constructor
      · simp [h2]
      · intro v hv
        simp only [h2, if_true, List.mem_append, List.mem_singleton] at hv
        rcases hv with hv | hv
        · split_ifs at hv
          · simpa using hv
          · simp at hv
        · exact hv
  · simp only [getRT, RDSString.getLastCompleteString, hrt, RDSString.after, RDSString.written]
    rw [if_pos (by simp)]

/-- C2 at the station `sampleStation` and the text `HELLO` sent in two groups. -/
theorem C2_radiotext_terminated_witness :
    (updateAll sampleTables listOdaMap sampleStation
      [⟨0x1234, 0, 0x4845, 0x4C4C, 4, ⟨2, 0⟩⟩, ⟨0x1234, 1, 0x4F0D, 0x2020, 4, ⟨2, 0⟩⟩]).1.getRT =
      String.join ([0x48, 0x45, 0x4C, 0x4C, 0x4F].map sampleTables.getLCDchar) :=
  (C2_radiotext_terminated sampleTables listOdaMap sampleStation [0x48, 0x45, 0x4C, 0x4C, 0x4F]
    [0x20, 0x20] [⟨0x1234, 0, 0x4845, 0x4C4C, 4, ⟨2, 0⟩⟩, ⟨0x1234, 1, 0x4F0D, 0x2020, 4, ⟨2, 0⟩⟩] 0
    rfl (by decide) (by decide) (by decide) (by decide) (by decide) (by decide)).2.2

/-- C3: a type-2 group of at least three blocks whose text A/B bit differs from the stored
flag.  After `update`, every piece of `getString()` other than the placeholder `" "` stands
at a position written by this group and renders the character this group wrote there; the
same holds of the last complete string that is stored (`getRT()`) and of every `radiotext`
value of the record. -/
theorem C3_toggle_clears_old_text (T : Tables) (O : OdaMap M) (st : Station M) (g : Group)
    (h2 : g.type.num = 2) (h3 : 3 ≤ g.num_blocks) (hab : bits g.block2 4 1 ≠ st.rt_ab_) :
    CellsFrom T g.rtWrites ((update T O st g).1.rt_.getStringCells T) ∧
      RenderedFrom T g.rtWrites (update T O st g).1.getRT ∧
      ∀ v ∈ (update T O st g).2.valuesOf "radiotext",
        ∃ str, v = Value.text str ∧ RenderedFrom T g.rtWrites str := by
  obtain ⟨hrt, -, hval⟩ := update_type2 T O st g h2 h3
  have hc : st.rtCleared T g = st.rt_.clear T := by
    unfold rtCleared; rw [if_pos (Ne.symm hab)]
  obtain ⟨hF0, hL0⟩ := RDSString.clear_from T st.rt_
  rw [← hc] at hF0 hL0
  -- the characters of block 3
  have h3F : FlagsFrom g.rtWrites (st.rtBlock3 T g).chars_ (st.rtBlock3 T g).is_char_sequential_
      ∧ RenderedFrom T g.rtWrites (st.rtBlock3 T g).last_complete_string_ ∧
      ∃ W3, (∀ e ∈ W3, e ∈ g.rtWrites) ∧
        g.rtWrites = W3 ++ (if g.num_blocks = 4 then
          [(g.rtPosition + 2, (bits g.block4 8 8 : Int)),
           (g.rtPosition + 2 + 1, (bits g.block4 0 8 : Int))] else []) ∧
        FlagsFrom W3 (st.rtBlock3 T g).chars_ (st.rtBlock3 T g).is_char_sequential_ ∧
        RenderedFrom T W3 (st.rtBlock3 T g).last_complete_string_ := by
    by_cases hA : g.type.ab = TYPE_A
    · obtain ⟨hF, hL⟩ := RDSString.setChars_from T [] (st.rtCleared T g) g.rtPosition
        (bits g.block3 8 8 : Int) (bits g.block3 0 8 : Int) hF0 hL0
      have e3 : st.rtBlock3 T g = (st.rtCleared T g).setChars T g.rtPosition
          [(bits g.block3 8 8 : Int), (bits g.block3 0 8 : Int)] := by
        unfold rtBlock3; rw [if_pos hA]; rfl
      have hsub : ∀ e ∈ [] ++ [(g.rtPosition, (bits g.block3 8 8 : Int)),
          (g.rtPosition + 1, (bits g.block3 0 8 : Int))], e ∈ g.rtWrites := by
        intro e he
        unfold Group.rtWrites
        rw [if_pos hA]
        exact List.mem_append_left _ (by simpa using he)
      rw [e3]
      exact ⟨hF.of_subset hsub, hL.rendered_of_subset hsub, _, hsub, by simp [Group.rtWrites, hA], hF, hL⟩
    · have e3 : st.rtBlock3 T g = st.rtCleared T g := by
        unfold rtBlock3; rw [if_neg hA]
      rw [e3]
      exact ⟨hF0.of_subset (by simp), hL0.rendered_of_subset (by simp), [], by simp, by simp [Group.rtWrites, hA],
        hF0, hL0⟩
  obtain ⟨-, h3L, W3, hsub3, hW, h3F', h3L'⟩ := h3F
  -- the characters of block 4
  have h4F : FlagsFrom g.rtWrites (st.rtBlock4 T g).chars_ (st.rtBlock4 T g).is_char_sequential_
      ∧ RenderedFrom T g.rtWrites (st.rtBlock4 T g).last_complete_string_ := by
    by_cases h4 : g.num_blocks = 4
    · obtain ⟨hF, hL⟩ := RDSString.setChars_from T W3 (st.rtBlock3 T g) (g.rtPosition + 2)
        (bits g.block4 8 8 : Int) (bits g.block4 0 8 : Int) h3F' h3L'
      have e4 : st.rtBlock4 T g = (st.rtBlock3 T g).setChars T (g.rtPosition + 2)
          [(bits g.block4 8 8 : Int), (bits g.block4 0 8 : Int)] := by
        unfold rtBlock4; rw [if_pos h4]; rfl
      rw [e4, hW, if_pos h4]
      exact ⟨hF, hL⟩
    · have e4 : st.rtBlock4 T g = st.rtBlock3 T g := by
        unfold rtBlock4; rw [if_neg h4]
      rw [e4]
      exact ⟨h3F'.of_subset hsub3, h3L'.rendered_of_subset hsub3⟩
  refine ⟨?_, ?_, ?_⟩
  · rw [hrt]
    exact RDSString.cellsFrom_getStringCells T _ _ h4F.1
  · simp only [getRT, RDSString.getLastCompleteString, hrt]
    exact h4F.2
  · intro v hv
    rw [hval, List.mem_append] at hv
    rcases hv with hv | hv
    · split_ifs at hv
      · exact ⟨_, by simpa using hv, h3L⟩
      · simp at hv
    · split_ifs at hv
      · exact ⟨_, by simpa using hv, h4F.2⟩
      · simp at hv

set_option maxRecDepth 100000 in
/-- C3 at the station `sampleStationHI`, whose radiotext is `HI` and whose stored flag 1 was
set by the group that wrote it, and a type-2A group of four blocks with text A/B bit 0 that
writes `ABCD` at positions 4 to 7: positions 0 and 1 still hold `H` and `I`, but the
radiotext string and the last complete string are two blanks, and every piece other than
the placeholder comes from this group. -/
theorem C3_toggle_clears_old_text_witness :
    sampleStationHI.getRT = "HI" ∧ sampleStationHI.rt_ab_ = 1 ∧
      (update sampleTables listOdaMap sampleStationHI
        ⟨0x1234, 0x2001, 0x4142, 0x4344, 4, ⟨2, 0⟩⟩).1.rt_.chars_.take 2 = [0x48, 0x49] ∧
      (update sampleTables listOdaMap sampleStationHI
        ⟨0x1234, 0x2001, 0x4142, 0x4344, 4, ⟨2, 0⟩⟩).1.rt_.getString sampleTables = "  " ∧
      (update sampleTables listOdaMap sampleStationHI
        ⟨0x1234, 0x2001, 0x4142, 0x4344, 4, ⟨2, 0⟩⟩).1.getRT = "  " ∧
      CellsFrom sampleTables (Group.rtWrites ⟨0x1234, 0x2001, 0x4142, 0x4344, 4, ⟨2, 0⟩⟩)
        ((update sampleTables listOdaMap sampleStationHI
          ⟨0x1234, 0x2001, 0x4142, 0x4344, 4, ⟨2, 0⟩⟩).1.rt_.getStringCells sampleTables) ∧
      RenderedFrom sampleTables (Group.rtWrites ⟨0x1234, 0x2001, 0x4142, 0x4344, 4, ⟨2, 0⟩⟩)
        (update sampleTables listOdaMap sampleStationHI
          ⟨0x1234, 0x2001, 0x4142, 0x4344, 4, ⟨2, 0⟩⟩).1.getRT :=
  ⟨by decide, by decide, by decide, by decide, by decide,
    (C3_toggle_clears_old_text sampleTables listOdaMap sampleStationHI
      ⟨0x1234, 0x2001, 0x4142, 0x4344, 4, ⟨2, 0⟩⟩ rfl (by decide) (by decide)).1,
    (C3_toggle_clears_old_text sampleTables listOdaMap sampleStationHI
      ⟨0x1234, 0x2001, 0x4142, 0x4344, 4, ⟨2, 0⟩⟩ rfl (by decide) (by decide)).2.1⟩

/-- C4, the claim as stated fails: with the codes 225, 1 and 2, 205 in block 3 of two type-0A
groups, no record holds an `alt_freqs` list with both 87.6 and 87.7. -/
theorem C4_af_header_225_counterexample :
    ¬ ∃ r ∈ (updateAll sampleTables listOdaMap sampleStation
        [⟨0x1234, 0, 225 * 256 + 1, 0, 3, ⟨0, 0⟩⟩, ⟨0x1234, 0, 2 * 256 + 205, 0, 3, ⟨0, 0⟩⟩]).2,
      ∃ l, Value.freqs l ∈ r.valuesOf "alt_freqs" ∧ afFreq 1 ∈ l ∧ afFreq 2 ∈ l := by
  have h := updateAll_af_225 sampleTables listOdaMap sampleStation
    ⟨0x1234, 0, 225 * 256 + 1, 0, 3, ⟨0, 0⟩⟩ ⟨0x1234, 0, 2 * 256 + 205, 0, 3, ⟨0, 0⟩⟩ 1 2 rfl
    (by decide) (by decide) (by decide) rfl rfl
  rintro ⟨r, hr, l, hl, h1, h2⟩
  have hmem : r.valuesOf "alt_freqs" ∈ (updateAll sampleTables listOdaMap sampleStation
      [⟨0x1234, 0, 225 * 256 + 1, 0, 3, ⟨0, 0⟩⟩,
       ⟨0x1234, 0, 2 * 256 + 205, 0, 3, ⟨0, 0⟩⟩]).2.map (fun r => r.valuesOf "alt_freqs") :=
    List.mem_map.mpr ⟨r, hr, rfl⟩
  rw [h] at hmem
  simp only [List.mem_cons, List.mem_nil_iff, or_false] at hmem
  rcases hmem with hm | hm
  · rw [hm] at hl
    simp only [List.mem_singleton, Value.freqs.injEq] at hl
    rw [hl] at h2
    have := afFreq_injective (List.mem_singleton.mp h2)
    omega
  · rw [hm] at hl
    simp only [List.mem_singleton, Value.freqs.injEq] at hl
    rw [hl] at h1
    have := afFreq_injective (List.mem_singleton.mp h1)
    omega

/-- C4, amended: a station whose set of alternative frequencies is empty receives two
type-0A groups of at least three blocks whose block 3 carries a header code, `a` and then
`b`, 205, with `a ≠ b` in 1..204.  With the header 225 (one frequency follows) the first
record holds the list of `87.5 + a/10` alone and the second that of `87.5 + b/10` alone;
with the header 226 the first record holds no list and the second the two frequencies in
ascending order. -/
theorem C4_af_header_225 (T : Tables) (O : OdaMap M) (st : Station M) (g1 g2 : Group)
    (a b : Nat) (hst : st.alt_freqs_ = []) (ha : 1 ≤ a ∧ a ≤ 204) (hb : 1 ≤ b ∧ b ≤ 204)
    (hab : a ≠ b)
    (hty : ∀ g ∈ [g1, g2], g.type.num = 0 ∧ g.type.ab = TYPE_A ∧ 3 ≤ g.num_blocks)
    (h2 : g2.block3 = b * 256 + 205) :
    (g1.block3 = 225 * 256 + a →
      (updateAll T O st [g1, g2]).2.map (fun r => r.valuesOf "alt_freqs") =
        [[Value.freqs [afFreq a]], [Value.freqs [afFreq b]]]) ∧
    (g1.block3 = 226 * 256 + a →
      (updateAll T O st [g1, g2]).2.map (fun r => r.valuesOf "alt_freqs") =
        [[], [Value.freqs [afFreq (min a b), afFreq (max a b)]]]) :=
  ⟨fun h1 => updateAll_af_225 T O st g1 g2 a b hst ha hb hty h1 h2,
   fun h1 => updateAll_af_226 T O st g1 g2 a b hst ha hb hab hty h1 h2⟩

/-- C4, amended, at the station `sampleStation` and the codes 226, 20 and 10, 205. -/
theorem C4_af_header_225_witness :
    (updateAll sampleTables listOdaMap sampleStation
      [⟨0x1234, 0, 226 * 256 + 20, 0, 3, ⟨0, 0⟩⟩,
       ⟨0x1234, 0, 10 * 256 + 205, 0, 3, ⟨0, 0⟩⟩]).2.map (fun r => r.valuesOf "alt_freqs") =
      [[], [Value.freqs [afFreq (min 20 10), afFreq (max 20 10)]]] :=
  (C4_af_header_225 sampleTables listOdaMap sampleStation
    ⟨0x1234, 0, 226 * 256 + 20, 0, 3, ⟨0, 0⟩⟩ ⟨0x1234, 0, 10 * 256 + 205, 0, 3, ⟨0, 0⟩⟩ 20 10
    rfl (by decide) (by decide) (by decide) (by decide) rfl).2 rfl

/-- C5: a station whose set of alternative frequencies is empty receives type-0A groups of
at least three blocks whose block 3 carries, two codes a group, the header `224 + n` and
then `n` pairwise distinct codes in 1..204 (1 ≤ n ≤ 25), padded with the filler 205.  The
records before the last hold no `alt_freqs` key; the last record, of the group that carries
the last code, holds it once, with the `n` frequencies `87.5 + f/10` in strictly ascending
order; the set is empty afterwards. -/
theorem C5_af_list_emitted_once (T : Tables) (O : OdaMap M) (st : Station M) (fs : List Nat)
    (gs : List Group) (hst : st.alt_freqs_ = [])
    (hn1 : 1 ≤ fs.length) (hn : fs.length ≤ 25) (hnd : fs.Nodup)
    (hr : ∀ f ∈ fs, 1 ≤ f ∧ f ≤ 204)
    (hty : ∀ g ∈ gs, g.type.num = 0 ∧ g.type.ab = TYPE_A ∧ 3 ≤ g.num_blocks)
    (hb3 : gs.map (fun g => g.block3) = packAF ((224 + fs.length) :: fs)) :
    ∃ l, (updateAll T O st gs).2.map (fun r => r.valuesOf "alt_freqs") =
        List.replicate (gs.length - 1) [] ++ [[Value.freqs l]] ∧
      l.Pairwise (· < ·) ∧ l.Perm (fs.map afFreq) ∧
      (updateAll T O st gs).1.alt_freqs_ = [] :=
  updateAll_af T O st fs gs hst hn1 hn hnd hr hty hb3

/-- C5 at the station `sampleStation` and the codes 227, 10, 5, 20 sent in two groups. -/
theorem C5_af_list_emitted_once_witness :
    ∃ l, (updateAll sampleTables listOdaMap sampleStation
        [⟨0x1234, 0, 227 * 256 + 10, 0, 3, ⟨0, 0⟩⟩,
         ⟨0x1234, 0, 5 * 256 + 20, 0, 4, ⟨0, 0⟩⟩]).2.map (fun r => r.valuesOf "alt_freqs") =
        List.replicate (2 - 1) [] ++ [[Value.freqs l]] ∧
      l.Pairwise (· < ·) ∧ l.Perm ([10, 5, 20].map afFreq) ∧
      (updateAll sampleTables listOdaMap sampleStation
        [⟨0x1234, 0, 227 * 256 + 10, 0, 3, ⟨0, 0⟩⟩,
         ⟨0x1234, 0, 5 * 256 + 20, 0, 4, ⟨0, 0⟩⟩]).1.alt_freqs_ = [] :=
  C5_af_list_emitted_once sampleTables listOdaMap sampleStation [10, 5, 20]
    [⟨0x1234, 0, 227 * 256 + 10, 0, 3, ⟨0, 0⟩⟩, ⟨0x1234, 0, 5 * 256 + 20, 0, 4, ⟨0, 0⟩⟩]
    rfl (by decide) (by decide) (by decide) (by decide) (by decide) (by decide)

/-- C6, at the keys of the failing input: the types 7B and 8A, as `decodeType3` builds them
from the codes 15 and 16, are each smaller than the other under `operator<`, the ordering
of `oda_app_for_group_`; `std::map` keeps and finds its entries only under a strict weak
ordering, for which this never happens. -/
theorem C6_oda_keys_not_ordered :
    GroupType.operatorLt (GroupType.ofCode 15) (GroupType.ofCode 16) = true ∧
      GroupType.operatorLt (GroupType.ofCode 16) (GroupType.ofCode 15) = true ∧
      GroupType.ofCode 15 = ⟨7, TYPE_B⟩ ∧ GroupType.ofCode 16 = ⟨8, TYPE_A⟩ := by
  decide

/-- C7, at the failing input: `operator<` puts 2A before 1B, which the lexicographic order
on `(num, ab)` does not, and it also puts 1B before 2A. -/
theorem C7_operatorLt_not_lexicographic :
    GroupType.operatorLt ⟨2, TYPE_A⟩ ⟨1, TYPE_B⟩ = true ∧
      ¬ ((2 : Nat) < 1 ∨ ((2 : Nat) = 1 ∧ TYPE_A < TYPE_B)) ∧
      GroupType.operatorLt ⟨1, TYPE_B⟩ ⟨2, TYPE_A⟩ = true := by
  decide

/-- C8, the claim as stated fails: for the four-block type-4A group that carries the
Modified Julian Date 88128, 12:30 and an offset of two hours, `update` prints the date
`2100-02-29`; February 2100 has 28 days, and 88128 is the date 2100-03-01. -/
theorem C8_clock_time_whole_hours_counterexample :
    Group.mjd ⟨0x1234, 0x4002, 0xB080, 0xC784, 4, ⟨4, 0⟩⟩ = 88128 ∧
      gregorianMJD 2100 3 1 = 88128 ∧ daysInMonth 2100 2 = 28 ∧
      (update sampleTables listOdaMap sampleStation
        ⟨0x1234, 0x4002, 0xB080, 0xC784, 4, ⟨4, 0⟩⟩).2.valuesOf "clock_time" =
        [Value.text "2100-02-29T14:30:00+02:00"] := by
  refine ⟨by decide, by decide, by decide, ?_⟩
  rw [update_type4_whole_hours sampleTables listOdaMap sampleStation
    ⟨0x1234, 0x4002, 0xB080, 0xC784, 4, ⟨4, 0⟩⟩ 2 rfl rfl rfl (by decide) (by decide),
    calendarDate_eq_int]
  decide

/-- C8, amended: a type-4A group of four blocks with UTC hour `h` (bit 0 of block 3 above
bits 15..12 of block 4), minute `m` (bits 11..6 of block 4) and a local offset of `k` whole
hours, not negative (bit 5 of block 4 clear, bits 4..0 equal to `2k`).  The record holds
`clock_time` once: a date part, then hour `(h + k) mod 24`, minute `m`, seconds `00` and
offset `+k:00`.  When the transmitted Modified Julian Date lies in 15079..88127
(1900-03-01 to 2100-02-28), there is a date of the Gregorian calendar with that Modified
Julian Date, and the date part is the year, month and day of every such date.  For the
date 58849, 12:30 and `k = 2` the string is `2020-01-01T14:30:00+02:00`.  (The bounds
`h ≤ 23` and `m ≤ 59` of the claim are not needed.) -/
theorem C8_clock_time_whole_hours (T : Tables) (O : OdaMap M) (st : Station M) (g : Group)
    (h m k : Nat) (h4 : g.type.num = 4) (hA : g.type.ab = TYPE_A) (hnb : g.num_blocks = 4)
    (hb4 : g.block4 < 65536)
    (hh : bits g.block3 0 1 * 16 + bits g.block4 12 4 = h) (hm : bits g.block4 6 6 = m)
    (hsign : bits g.block4 5 1 = 0) (hk : bits g.block4 0 5 = 2 * k) :
    (∃ y mo d : Int, (update T O st g).2.valuesOf "clock_time" =
        [Value.text (dateString (y, mo, d) ++ "T" ++
          decPad 2 (((h + k) % 24 : Nat) : Int) ++ ":" ++ decPad 2 (m : Int) ++ ":00" ++ "+" ++
          decPad 2 (k : Int) ++ ":00")]) ∧
      (15079 ≤ g.mjd → g.mjd ≤ 88127 →
        (∃ y mo d : Int, 1 ≤ mo ∧ mo ≤ 12 ∧ 1 ≤ d ∧ d ≤ daysInMonth y mo ∧
          gregorianMJD y mo d = g.mjd) ∧
        ∀ y mo d : Int, 1 ≤ mo → mo ≤ 12 → 1 ≤ d → d ≤ daysInMonth y mo →
          gregorianMJD y mo d = g.mjd →
          (update T O st g).2.valuesOf "clock_time" =
            [Value.text (dateString (y, mo, d) ++ "T" ++
              decPad 2 (((h + k) % 24 : Nat) : Int) ++ ":" ++ decPad 2 (m : Int) ++ ":00" ++
              "+" ++ decPad 2 (k : Int) ++ ":00")]) ∧
      (g.mjd = 58849 → h = 12 → m = 30 → k = 2 →
        (update T O st g).2.valuesOf "clock_time" =
          [Value.text "2020-01-01T14:30:00+02:00"]) := by
  have hhour : bits g.block3 0 1 <<< 4 + bits g.block4 12 14 = h := by
    rw [← hh, Nat.shiftLeft_eq]
    simp only [bits_eq]
    norm_num
    omega
  have hgen := update_type4_whole_hours T O st g k h4 hA hnb hsign hk
  rw [hhour, hm] at hgen
  have htmod : Int.tmod ((h : Int) + (k : Int)) 24 = (((h + k) % 24 : Nat) : Int) := by
    rw [Int.ofNat_tmod]; push_cast; rfl
  rw [htmod] at hgen
  refine ⟨⟨(calendarDate g.mjd).1, (calendarDate g.mjd).2.1, (calendarDate g.mjd).2.2, hgen⟩,
    ?_, ?_⟩
  · intro hlo hhi
    obtain ⟨n, hn⟩ : ∃ n : Nat, g.mjd = (n : Int) := ⟨g.mjd.toNat, by omega⟩
    have hok := calendarOkNat_sound n (calendarOkNat_range n (by omega) (by omega))
    rw [← calendarDate_eq_int, ← hn] at hok
    obtain ⟨c1, c2, c3, c4, c5⟩ := hok
    refine ⟨⟨_, _, _, c1, c2, c3, c4, c5⟩, ?_⟩
    intro y mo d a1 a2 a3 a4 a5
    obtain ⟨e1, e2, e3⟩ := gregorianMJD_injective y mo d _ _ _ a1 a2 a3 a4 c1 c2 c3 c4
      (a5.trans c5.symm)
    rw [hgen, e1, e2, e3]
  · intro hmjd h12 h30 h2
    rw [hgen, hmjd, h12, h30, h2, calendarDate_58849]
    decide

/-- C8, amended, at the station `sampleStation`, the group that carries the date 58849,
12:30 and an offset of two hours, and the date 2020-01-01. -/
theorem C8_clock_time_whole_hours_witness :
    (update sampleTables listOdaMap sampleStation
      ⟨0x1234, 0x4001, 0xCBC2, 0xC784, 4, ⟨4, 0⟩⟩).2.valuesOf "clock_time" =
      [Value.text "2020-01-01T14:30:00+02:00"] :=
  ((C8_clock_time_whole_hours sampleTables listOdaMap sampleStation
    ⟨0x1234, 0x4001, 0xCBC2, 0xC784, 4, ⟨4, 0⟩⟩ 12 30 2 rfl rfl rfl (by decide) (by decide)
    (by decide) (by decide) (by decide)).2.1 (by decide) (by decide)).2 2020 1 1
    (by decide) (by decide) (by decide) (by decide) (by decide)

/-- C9: for every Modified Julian Date from 15079 (1900-03-01) to 88127 (2100-02-28) the
calendar conversion of `decodeType4`, its decimal constants read as exact rationals and
`int()` as truncation, yields a month in 1..12, a day of that month, and the date of the
Gregorian calendar whose Modified Julian Date it is (day 0 being 1858-11-17); for 58849 it
yields 2020-01-01. -/
theorem C9_calendar_conversion (mjd : Int) (hlo : 15079 ≤ mjd) (hhi : mjd ≤ 88127) :
    1 ≤ (calendarDate mjd).2.1 ∧ (calendarDate mjd).2.1 ≤ 12 ∧ 1 ≤ (calendarDate mjd).2.2 ∧
      (calendarDate mjd).2.2 ≤ daysInMonth (calendarDate mjd).1 (calendarDate mjd).2.1 ∧
      gregorianMJD (calendarDate mjd).1 (calendarDate mjd).2.1 (calendarDate mjd).2.2 = mjd ∧
      (mjd = 58849 → calendarDate mjd = (2020, 1, 1)) := by
  obtain ⟨n, rfl⟩ : ∃ n : Nat, mjd = (n : Int) := ⟨mjd.toNat, by omega⟩
  have hn := calendarOkNat_range n (by omega) (by omega)
  obtain ⟨h1, h2, h3, h4, h5⟩ := calendarOkNat_sound n hn
  rw [calendarDate_eq_int]
  refine ⟨h1, h2, h3, h4, h5, ?_⟩
  intro h
  rw [← calendarDate_eq_int, h, calendarDate_58849]

/-- C9 at the date 58849. -/
theorem C9_calendar_conversion_witness : calendarDate 58849 = (2020, 1, 1) :=
  (C9_calendar_conversion 58849 (by decide) (by decide)).2.2.2.2.2 rfl

/-- C10: for a type-0 group of fewer than three blocks the record holds exactly the keys
`pi`, `group`, `tp`, `prog_type` and `ta`, in this order, and the set of alternative
frequencies, its expected size and the programme-service string are left as they were. -/
theorem C10_type0_two_blocks (T : Tables) (O : OdaMap M) (st : Station M) (g : Group)
    (h0 : g.type.num = 0) (hnb : g.num_blocks < 3) :
    (update T O st g).2.map Prod.fst = ["pi", "group", "tp", "prog_type", "ta"] ∧
      (update T O st g).1.alt_freqs_ = st.alt_freqs_ ∧
      (update T O st g).1.num_alt_freqs_ = st.num_alt_freqs_ ∧
      (update T O st g).1.ps_ = st.ps_ := by
  rw [update_num0 T O st g h0]
  unfold decodeType0
  simp only [hnb, if_true, List.map_append, recordHead_keys]
  exact ⟨rfl, rfl, rfl, rfl⟩

/-- C10 at the station `sampleStation` and a type-0A group of two blocks. -/
theorem C10_type0_two_blocks_witness :
    (update sampleTables listOdaMap sampleStation ⟨0x1234, 0, 0, 0, 2, ⟨0, 0⟩⟩).2.map Prod.fst =
      ["pi", "group", "tp", "prog_type", "ta"] :=
  (C10_type0_two_blocks sampleTables listOdaMap sampleStation ⟨0x1234, 0, 0, 0, 2, ⟨0, 0⟩⟩
    rfl (by decide)).1

end Station

namespace Station

/-- C11, at the failing input: after a type-3A group of four blocks has bound group 8A to
the application 0xCD46, a type-8A group of three blocks (block 4 missing, zero) still gets
the key `tmc_message`, whose last four digits are read from the missing block 4. -/
theorem C11_partial_type8_prints_tmc :
    (updateAll sampleTables listOdaMap sampleStation
      [⟨0x1234, 0x3010, 0, 0xCD46, 4, ⟨3, 0⟩⟩, ⟨0x1234, 0x8000, 0x1234, 0, 3, ⟨8, 0⟩⟩]).2.map
        (fun r => r.valuesOf "tmc_message") = [[], [Value.text "0x0012340000"]] := by
  decide

end Station

namespace RDSString

/-- C12, the claim as stated fails: on a string of capacity 64 that holds `A` and a
carriage return at positions 0 and 1 (complete, last complete string `A`), the call
`setAt(0, 'B')` changes the last complete string to `B` although `isComplete()` was true
before the call. -/
theorem C12_last_complete_changes_counterexample :
    sampleTextA.isComplete = true ∧ sampleTextA.getLastCompleteString = "A" ∧
      (sampleTextA.setAt sampleTables 0 0x42).getLastCompleteString = "B" := by
  decide

/-- C12, amended: whenever a call of `setAt` changes the value returned by
`getLastCompleteString()`, `isComplete()` is true immediately after that call (it may have
been true before the call as well).  Holds in every state, reachable or not. -/
theorem C12_last_complete_changes (T : Tables) (s : RDSString) (pos chr : Int)
    (h : (setAt T s pos chr).getLastCompleteString ≠ s.getLastCompleteString) :
    (setAt T s pos chr).isComplete = true := by
  by_contra hc
  exact h (setAt_last_of_incomplete T s pos chr (by simpa using hc))

/-- C12, amended, at the string `sampleTextA` and the call `setAt(0, 'B')`. -/
theorem C12_last_complete_changes_witness :
    (sampleTextA.setAt sampleTables 0 0x42).isComplete = true :=
  C12_last_complete_changes sampleTables sampleTextA 0 0x42 (by decide)

/-- C13: if `isComplete()` is false after a call `setAt(p, c)`, in range or not, contiguous
or not, then `getLastCompleteString()` returns the same string after the call as before
it.  Holds in every state, reachable or not. -/
theorem C13_incomplete_keeps_last (T : Tables) (s : RDSString) (pos chr : Int)
    (h : (setAt T s pos chr).isComplete = false) :
    (setAt T s pos chr).getLastCompleteString = s.getLastCompleteString :=
  setAt_last_of_incomplete T s pos chr h

/-- C13 at the string `sampleTextA` and the call `setAt(5, 'B')`, which breaks the run. -/
theorem C13_incomplete_keeps_last_witness :
    (sampleTextA.setAt sampleTables 5 0x42).getLastCompleteString =
      sampleTextA.getLastCompleteString :=
  C13_incomplete_keeps_last sampleTables sampleTextA 5 0x42 (by decide)

/-- C14, the claim as stated fails: on a fresh string of capacity 8 the call `setAt(3, 'A')`
is in range and leaves `lengthReceived()` at 0. -/
theorem C14_length_received_counterexample :
    ((RDSString.new sampleTables 8).setAt sampleTables 3 0x41).lengthReceived = 0 := by
  decide

/-- C14, amended: in every state that `setAt` and `clear` reach from a fresh string of
capacity `cap`, after `setAt(p, c)` with `0 ≤ p < cap` the value of `lengthReceived()` is
the length of the longest prefix of positions whose flag is true; it is at least 1 exactly
when the flag of position 0 is true afterwards, that is when `p = 0`, or when `p` follows
the position written before and the flag of position 0 was true already. -/
theorem C14_length_received (T : Tables) (cap : Nat) (s : RDSString) (p c : Int)
    (hr : Reachable T cap s) (hp0 : 0 ≤ p) (hp : p < cap) :
    (setAt T s p c).lengthReceived =
        ((setAt T s p c).is_char_sequential_.takeWhile fun b => b).length ∧
      (1 ≤ (setAt T s p c).lengthReceived ↔
        (setAt T s p c).is_char_sequential_.getD 0 false = true) ∧
      (1 ≤ (setAt T s p c).lengthReceived ↔
        (p = 0 ∨ (p = s.prev_pos_ + 1 ∧ s.is_char_sequential_.getD 0 false = true))) := by
  refine ⟨lengthReceived_eq_takeWhile _, one_le_lengthReceived_iff _, ?_⟩
  obtain ⟨h1, h2⟩ := reachable_lengths T cap s hr
  have hg : ¬ (p < 0 ∨ p ≥ (s.chars_.length : Int)) := by rw [h1]; omega
  rw [one_le_lengthReceived_iff, setAt_flags T s p c hg]
  have hz : (0 = p.toNat) ↔ p = 0 := by omega
  by_cases hc : p = s.prev_pos_ + 1
  · rw [if_neg (by simpa using hc), getD_set_true _ _ _ (by omega), hz]
    simp [hc]
  · rw [if_pos hc, getD_set_true _ _ _ (by simp; omega), hz, getD_replicate_false]
    simp [hc]

/-- C14, amended, at a fresh string of capacity 8 and the call `setAt(0, 'A')`. -/
theorem C14_length_received_witness :
    1 ≤ ((RDSString.new sampleTables 8).setAt sampleTables 0 0x41).lengthReceived :=
  (C14_length_received sampleTables 8 (RDSString.new sampleTables 8) 0 0x41 Reachable.fresh
    (by decide) (by decide)).2.2.mpr (Or.inl rfl)

end RDSString

namespace BitBuffer

/-- C15, the claim as stated fails: on a fresh buffer of capacity 4 the calls `getNext()`,
`append(1)` leave the fill count 1, while one `append` minus one `getNext`, clipped into
`[0, 4]`, is 0. -/
theorem C15_fill_count_counterexample :
    ((BitBuffer.new 4).calls [Call.getNext, Call.append 1]).getFillCount = 1 ∧
      clip 0 4 (countAppend [Call.getNext, Call.append 1] -
        countGetNext [Call.getNext, Call.append 1]) = 0 := by
  decide

/-- C15, amended: after any sequence of `append` and `getNext` calls on a fresh buffer of
capacity `n > 0` the fill count is the value of a saturating counter that starts at 0, is
increased by one at each `append` unless it is `n` already and decreased by one at each
`getNext` unless it is 0 already (a call at a limit is not counted).  It lies in `[0, n]`,
and it equals the number of `append` calls minus the number of `getNext` calls (which then
is its own clipping into `[0, n]`) when no `getNext` of the sequence finds the buffer empty
and no `append` finds it full. -/
theorem C15_fill_count (n : Int) (hn : 0 < n) (cs : List Call) :
    ((BitBuffer.new n).calls cs).getFillCount = saturatingCount n 0 cs ∧
      0 ≤ ((BitBuffer.new n).calls cs).getFillCount ∧
      ((BitBuffer.new n).calls cs).getFillCount ≤ n ∧
      ((BitBuffer.new n).NoLimitHit cs →
        ((BitBuffer.new n).calls cs).getFillCount = countAppend cs - countGetNext cs ∧
        ((BitBuffer.new n).calls cs).getFillCount =
          clip 0 n (countAppend cs - countGetNext cs)) := by
  obtain ⟨-, h0, h1⟩ := calls_fill_bounds cs (BitBuffer.new n) hn (le_refl _) (le_of_lt hn)
  refine ⟨calls_fill_eq_saturatingCount cs (BitBuffer.new n) (le_refl _) (le_of_lt hn),
    h0, h1, fun h => ?_⟩
  have hc := calls_fill_of_noLimitHit cs (BitBuffer.new n) h
  have hz : (BitBuffer.new n).m_fill_count = 0 := rfl
  rw [hz, zero_add] at hc
  have hn' : (BitBuffer.new n).m_len = n := rfl
  rw [hn'] at h1
  simp only [getFillCount]
  refine ⟨hc, ?_⟩
  rw [← hc, clip, min_eq_right h1, max_eq_right h0]

/-- C15, amended, at capacity 2 and the calls `append(1)`, `append(0)`, `append(1)`,
`getNext()`: the third `append` finds the buffer full and is not counted, the fill count
is 1. -/
theorem C15_fill_count_witness :
    ((BitBuffer.new 2).calls
        [Call.append 1, Call.append 0, Call.append 1, Call.getNext]).getFillCount =
        saturatingCount 2 0 [Call.append 1, Call.append 0, Call.append 1, Call.getNext] ∧
      saturatingCount 2 0 [Call.append 1, Call.append 0, Call.append 1, Call.getNext] = 1 :=
  ⟨(C15_fill_count 2 (by decide)
    [Call.append 1, Call.append 0, Call.append 1, Call.getNext]).1, by decide⟩

/-- C16, at the failing input: a buffer of capacity 3 filled with the bits 0, 0, 0 holds
them at `at(0)`, `at(1)`, `at(2)` with fill count 3; after `append(1)` the fill count is 3
and the new bit is found at `at(0)`, not at `at(2)`: the tail has not moved. -/
theorem C16_append_on_full_buffer :
    ((BitBuffer.new 3).calls [Call.append 0, Call.append 0, Call.append 0]).getFillCount = 3 ∧
      ((BitBuffer.new 3).calls
        [Call.append 0, Call.append 0, Call.append 0, Call.append 1]).getFillCount = 3 ∧
      [0, 1, 2].map ((BitBuffer.new 3).calls
        [Call.append 0, Call.append 0, Call.append 0, Call.append 1]).at_ = [1, 0, 0] ∧
      ((BitBuffer.new 3).calls
        [Call.append 0, Call.append 0, Call.append 0, Call.append 1]).getNext.1 = 1 := by
  decide

end BitBuffer

/-- C17: for every code in `[0, 31]` the string of `GroupType(code)` is the decimal
representation of `(code >> 1) & 0xF` followed by `A` when `(code & 1) = 0` and by `B`
otherwise; on these codes the string is injective and `operator==` holds exactly for equal
codes. -/
theorem C17_group_type_round_trip (c1 c2 : Nat) (h1 : c1 ≤ 31) (h2 : c2 ≤ 31) :
    (GroupType.ofCode c1).toString =
        Nat.repr ((c1 >>> 1) &&& 0xF) ++ (if c1 &&& 1 = 0 then "A" else "B") ∧
      ((GroupType.ofCode c1).toString = (GroupType.ofCode c2).toString ↔ c1 = c2) ∧
      (GroupType.operatorEq (GroupType.ofCode c1) (GroupType.ofCode c2) = true ↔ c1 = c2) :=
  groupType_codes c1 (Nat.lt_succ_of_le h1) c2 (Nat.lt_succ_of_le h2)

/-- C17 at the codes 17 (group 8B) and 16 (group 8A). -/
theorem C17_group_type_round_trip_witness :
    (GroupType.ofCode 17).toString =
        Nat.repr ((17 >>> 1) &&& 0xF) ++ (if 17 &&& 1 = 0 then "A" else "B") ∧
      ((GroupType.ofCode 17).toString = (GroupType.ofCode 16).toString ↔ 17 = 16) ∧
      (GroupType.operatorEq (GroupType.ofCode 17) (GroupType.ofCode 16) = true ↔ 17 = 16) :=
  C17_group_type_round_trip 17 16 (by decide) (by decide)

/-- C18, at the failing input: a filter of length 1 has no taps that sum to 1, for any
cut-off and any `sin`, `cos` and `M_PI`: `Blackman(0, 0)` divides by `M = 0`.  In real
arithmetic the same holds for length 2, where both taps are 0 before they are divided by
their sum; the filter of length 3 and cut-off 0 has the taps 0, 1, 0. -/
theorem C18_fir_shortest_lengths {K : Type} [LinearOrderedField K] (m : Math K)
    (f_cutoff : K) (g_cutoff : ℝ) :
    FIR m f_cutoff 1 = none ∧
      FIR (⟨Real.pi, Real.sin, Real.cos⟩ : Math ℝ) g_cutoff 2 = none ∧
      FIR (⟨Real.pi, Real.sin, Real.cos⟩ : Math ℝ) 0 3 = some [0, 1, 0] :=
  ⟨FIR_one m f_cutoff, FIR_real_two g_cutoff, FIR_real_three⟩

namespace RDSString

/-- C19: in every state that calls of `setAt` and `clear` reach from a freshly constructed
string, the positions whose sequential flag is true are none, or exactly the consecutive
positions from some `a` up to `prev_pos_`, the position written last. -/
theorem C19_sequential_interval (T : Tables) (cap : Nat) (s : RDSString)
    (h : Reachable T cap s) :
    (∀ i : Nat, s.is_char_sequential_.getD i false = false) ∨
      ∃ a : Nat, (a : Int) ≤ s.prev_pos_ ∧ s.prev_pos_ < (s.is_char_sequential_.length : Int) ∧
        ∀ i : Nat, s.is_char_sequential_.getD i false = true ↔
          (a ≤ i ∧ (i : Int) ≤ s.prev_pos_) :=
  reachable_interval T cap s h

/-- C19 at the string of capacity 64 after `setAt(0, 'A')` and `setAt(1, '\r')`. -/
theorem C19_sequential_interval_witness :
    (∀ i : Nat, sampleTextA.is_char_sequential_.getD i false = false) ∨
      ∃ a : Nat, (a : Int) ≤ sampleTextA.prev_pos_ ∧
        sampleTextA.prev_pos_ < (sampleTextA.is_char_sequential_.length : Int) ∧
        ∀ i : Nat, sampleTextA.is_char_sequential_.getD i false = true ↔
          (a ≤ i ∧ (i : Int) ≤ sampleTextA.prev_pos_) :=
  C19_sequential_interval sampleTables 64 sampleTextA
    (Reachable.setAt _ 1 0x0D (Reachable.setAt _ 0 0x41 Reachable.fresh))

end RDSString

namespace Station

/-- C20, at the failing inputs: for the four-block type-4A groups of date 2020-01-01 with
UTC 00:00 and offset -1 h, with UTC 12:45 and offset +0.5 h, and with UTC 12:05 and offset
-0.5 h, `update` prints the hour field `-1`, the minute field `75` and the minute field
`-25`. -/
theorem C20_clock_time_fields :
    (update sampleTables listOdaMap sampleStation
        ⟨0x1234, 0x4001, 0xCBC2, 0x0022, 4, ⟨4, 0⟩⟩).2.valuesOf "clock_time" =
        [Value.text "2019-12-31T-1:00:00-01:00"] ∧
      (update sampleTables listOdaMap sampleStation
        ⟨0x1234, 0x4001, 0xCBC2, 0xCB41, 4, ⟨4, 0⟩⟩).2.valuesOf "clock_time" =
        [Value.text "2020-01-01T12:75:00+00:30"] ∧
      (update sampleTables listOdaMap sampleStation
        ⟨0x1234, 0x4001, 0xCBC2, 0xC161, 4, ⟨4, 0⟩⟩).2.valuesOf "clock_time" =
        [Value.text "2019-12-31T11:-25:00+00:-30"] := by
  refine ⟨?_, ?_, ?_⟩
  · rw [update_type4_clock sampleTables listOdaMap sampleStation
      ⟨0x1234, 0x4001, 0xCBC2, 0x0022, 4, ⟨4, 0⟩⟩ (-1) 58848 (-1) (-1) 0 rfl rfl rfl
      (by
        have h1 : bits 0x0022 5 1 = 1 := by decide
        have h2 : bits 0x0022 0 5 = 2 := by decide
        simp only [h1, h2]; norm_num)
      (by
        have h1 : Group.mjd ⟨0x1234, 0x4001, 0xCBC2, 0x0022, 4, ⟨4, 0⟩⟩ = 58849 := by decide
        rw [h1]
        apply cInt_eq_of_nonneg <;> norm_num)
      (by
        have h1 : (bits 0xCBC2 0 1 <<< 4) + bits 0x0022 12 14 = 0 := by decide
        simp only [h1]
        apply cInt_eq_of_neg <;> norm_num)
      (by simpa using cInt_intCast (-1))
      (by norm_num; simpa using cInt_intCast 0),
      calendarDate_eq_int]
    decide
  · rw [update_type4_clock sampleTables listOdaMap sampleStation
      ⟨0x1234, 0x4001, 0xCBC2, 0xCB41, 4, ⟨4, 0⟩⟩ (1 / 2) 58849 12 0 30 rfl rfl rfl
      (by
        have h1 : bits 0xCB41 5 1 = 0 := by decide
        have h2 : bits 0xCB41 0 5 = 1 := by decide
        simp only [h1, h2]; norm_num)
      (by
        have h1 : Group.mjd ⟨0x1234, 0x4001, 0xCBC2, 0xCB41, 4, ⟨4, 0⟩⟩ = 58849 := by decide
        rw [h1]
        apply cInt_eq_of_nonneg <;> norm_num)
      (by
        have h1 : (bits 0xCBC2 0 1 <<< 4) + bits 0xCB41 12 14 = 12 := by decide
        simp only [h1]
        apply cInt_eq_of_nonneg <;> norm_num)
      (by apply cInt_eq_of_nonneg <;> norm_num)
      (by norm_num; simpa using cInt_intCast 30),
      calendarDate_eq_int]
    decide
  · rw [update_type4_clock sampleTables listOdaMap sampleStation
      ⟨0x1234, 0x4001, 0xCBC2, 0xC161, 4, ⟨4, 0⟩⟩ (-1 / 2) 58848 11 0 (-30) rfl rfl rfl
      (by
        have h1 : bits 0xC161 5 1 = 1 := by decide
        have h2 : bits 0xC161 0 5 = 1 := by decide
        simp only [h1, h2]; norm_num)
      (by
        have h1 : Group.mjd ⟨0x1234, 0x4001, 0xCBC2, 0xC161, 4, ⟨4, 0⟩⟩ = 58849 := by decide
        rw [h1]
        apply cInt_eq_of_nonneg <;> norm_num)
      (by
        have h1 : (bits 0xCBC2 0 1 <<< 4) + bits 0xC161 12 14 = 12 := by decide
        simp only [h1]
        apply cInt_eq_of_nonneg <;> norm_num)
      (by apply cInt_eq_of_neg <;> norm_num)
      (by norm_num; simpa using cInt_intCast (-30)),
      calendarDate_eq_int]
    decide

end Station

namespace Station

variable {M : Type}

/-- C21, at the failing input: for the four-block type-2A group that writes `A`, a carriage
return and two blanks at positions 0 to 3 of a fresh station, `update` prints the key
`radiotext` twice, once after the characters of block 3 and once after those of block 4.
For every station and group, every other key is printed at most once and `radiotext` at
most twice. -/
theorem C21_radiotext_key_twice (T : Tables) (O : OdaMap M) (st : Station M) (g : Group) :
    (update sampleTables listOdaMap sampleStation
        ⟨0x1234, 0x2000, 0x410D, 0x2020, 4, ⟨2, 0⟩⟩).2.map Prod.fst =
        ["pi", "group", "tp", "prog_type", "radiotext", "radiotext"] ∧
      (update sampleTables listOdaMap sampleStation
        ⟨0x1234, 0x2000, 0x410D, 0x2020, 4, ⟨2, 0⟩⟩).2.valuesOf "radiotext" =
        [Value.text "A", Value.text "A"] ∧
      (∀ k : String, k ≠ "radiotext" → ((update T O st g).2.map Prod.fst).count k ≤ 1) ∧
      ((update T O st g).2.map Prod.fst).count "radiotext" ≤ 2 :=
  ⟨by decide, by decide, update_key_counts T O st g⟩

/-- C22: from a station whose radiotext string is freshly constructed (capacity 64), for
any sequence of type-2B groups: the calls of `setAt` that `update` makes on the radiotext
string are those of `rtWrites` (none for fewer than three blocks), all at positions from 2
on; afterwards positions 0 and 1 hold the character 0 and the flag false of the
constructor, the string is not complete, and no record holds the key `radiotext`. -/
theorem C22_type2B_no_radiotext (T : Tables) (O : OdaMap M) (st : Station M)
    (gs : List Group) (hst : st.rt_ = RDSString.new T 64)
    (hgs : ∀ g ∈ gs, g.type.num = 2 ∧ g.type.ab = TYPE_B) :
    (∀ g ∈ gs, ∀ s : Station M, (update T O s g).1.rt_ =
        if 3 ≤ g.num_blocks then (s.rtCleared T g).setAll T g.rtWrites else s.rt_) ∧
      (∀ g ∈ gs, ∀ w ∈ g.rtWrites, 2 ≤ w.1) ∧
      (updateAll T O st gs).1.rt_.chars_.take 2 = [0, 0] ∧
      (updateAll T O st gs).1.rt_.is_char_sequential_.take 2 = [false, false] ∧
      (updateAll T O st gs).1.rt_.isComplete = false ∧
      ∀ r ∈ (updateAll T O st gs).2, r.valuesOf "radiotext" = [] := by
  have h0 : st.rt_.HeadUnwritten := by
    rw [hst]; exact RDSString.headUnwritten_new T 64 (by decide)
  obtain ⟨h1, h2⟩ := updateAll_type2B T O gs st h0 hgs
  exact ⟨fun g hg s => update_type2_rt T O s g (hgs g hg).1,
    fun g hg => rtWrites_typeB g (hgs g hg).2, h1.2.2.1, h1.2.2.2,
    RDSString.headUnwritten_not_complete _ h1, h2⟩

/-- C22 at two type-2B groups of four blocks that carry `AB` for segment 0 and a carriage
return and a blank for segment 1. -/
theorem C22_type2B_no_radiotext_witness :
    sampleStation.rt_ = RDSString.new sampleTables 64 ∧
      (updateAll sampleTables listOdaMap sampleStation
        [⟨0x1234, 0x2800, 0, 0x4142, 4, ⟨2, 1⟩⟩,
         ⟨0x1234, 0x2801, 0, 0x0D20, 4, ⟨2, 1⟩⟩]).1.rt_.isComplete = false :=
  ⟨rfl, (C22_type2B_no_radiotext sampleTables listOdaMap sampleStation
    [⟨0x1234, 0x2800, 0, 0x4142, 4, ⟨2, 1⟩⟩, ⟨0x1234, 0x2801, 0, 0x0D20, 4, ⟨2, 1⟩⟩] rfl
    (by decide)).2.2.2.2.1⟩

end Station

end Redsea
